import Mathlib

/-!
The EventSource transport of socket.io (`lib/transports/event-source.js`).

A shallow embedding of the transport's module state (`legacy`, `id`), its
constructor `ES`, and its methods `open`, `onError`, `close`, `prepareUrl`,
`ready`, `check`, `xdomainCheck`, over an explicit model of the host: the
`window` object, the document tree, the event handlers registered on host
objects, and the trace of calls into code outside the file. What the host does
where the file only calls it (the HTML parser behind `innerHTML`, the
`EventSource` constructor, the `close` method of an element) is a parameter,
`Host`.
-/

namespace EventSourceTransport

/-! ## JavaScript values -/

/-- The JavaScript values the transport handles. Objects and functions are
references into the host. -/
inductive JSVal where
  | undefined
  | null
  | bool (b : Bool)
  | num (n : Nat)
  | str (s : String)
  | object (ref : Nat)
  | func (ref : Nat)
  deriving DecidableEq, Repr

/-- The errors the transport can raise. -/
inductive JSError where
  | typeError
  | referenceError
  | syntaxError
  deriving DecidableEq, Repr

/-- ToBoolean. -/
def JSVal.toBoolean : JSVal → Bool
  | .undefined => false
  | .null => false
  | .bool b => b
  | .num n => n != 0
  | .str s => s != ""
  | .object _ => true
  | .func _ => true

/-- The `typeof` operator. -/
def JSVal.typeof : JSVal → String
  | .undefined => "undefined"
  | .null => "object"
  | .bool _ => "boolean"
  | .num _ => "number"
  | .str _ => "string"
  | .object _ => "object"
  | .func _ => "function"

/-! ## The host's global object -/

/-- The `window` object: its own properties, and the properties of the host
objects they refer to. -/
structure Window where
  globals : List (String × JSVal)
  props : List ((Nat × String) × JSVal)
  deriving DecidableEq, Repr

/-- The test `name in window`. -/
def Window.has (w : Window) (name : String) : Bool :=
  (w.globals.lookup name).isSome

/-- The read `window.name`. -/
def Window.get (w : Window) (name : String) : JSVal :=
  (w.globals.lookup name).getD .undefined

/-- The read `v.name`: a TypeError on `undefined` and `null`, the stored
property on an object or function, `undefined` on the other primitives. -/
def Window.getProp (w : Window) (v : JSVal) (name : String) : Except JSError JSVal :=
  match v with
  | .undefined => .error .typeError
  | .null => .error .typeError
  | .object r => .ok ((w.props.lookup (r, name)).getD .undefined)
  | .func r => .ok ((w.props.lookup (r, name)).getD .undefined)
  | _ => .ok .undefined

/-- The module variable `legacy` (lines 18-19):
`'addEventStream' in window && typeof window.addEventStream == 'function'`. -/
def legacy (w : Window) : Bool :=
  w.has "addEventStream" && ((w.get "addEventStream").typeof == "function")

/-! ## Numbers

`id` is a JavaScript number, an IEEE double holding an integer. Integers up to
`2^53` are exact; `2^53 + 1` is not representable and rounds to `2^53`. -/

/-- The largest value the counter reaches. -/
def maxExact : Nat := 2 ^ 53

/-- The value `n + 1` of a double holding the integer `n ≤ 2^53`. -/
def jsSucc (n : Nat) : Nat :=
  if n < maxExact then n + 1 else n

/-- The character of one decimal digit. -/
def digitChar (d : Nat) : Char :=
  Char.ofNat (48 + d)

/-- The decimal digits of `n`, most significant first; `fuel` bounds the number
of digits and `n + 1` is enough. -/
def decimalDigits : Nat → Nat → List Char
  | 0, _ => []
  | fuel + 1, n =>
    if n < 10 then [digitChar n]
    else decimalDigits fuel (n / 10) ++ [digitChar (n % 10)]

/-- Number-to-string of a non-negative integer below `10^21`. -/
def decimal (n : Nat) : String :=
  String.mk (decimalDigits (n + 1) n)

/-- The number that a string of decimal digits denotes. -/
def decimalValue (cs : List Char) : Nat :=
  cs.foldl (fun acc c => acc * 10 + (c.toNat - 48)) 0

/-! ## The document

The elements of a tree in document order: an element, its children, then its
following siblings. Every element carries the reference by which scripts hold
it. -/

/-- A list of sibling elements with their subtrees. -/
inductive Forest where
  | nil
  | node (nid : Nat) (tag : String) (attrs : List (String × String)) (kids : Forest)
      (rest : Forest)
  deriving DecidableEq, Repr

/-- An element on its own: its reference, its tag and its attributes. -/
structure Element where
  nid : Nat
  tag : String
  attrs : List (String × String)
  deriving DecidableEq, Repr

namespace Forest

/-- The siblings of `f` followed by those of `g`. -/
def append : Forest → Forest → Forest
  | nil, g => g
  | node n t a k r, g => node n t a k (append r g)

/-- The references of all elements, in document order. -/
def nids : Forest → List Nat
  | nil => []
  | node n _ _ k r => n :: (nids k ++ nids r)

/-- The references of the top-level elements. -/
def roots : Forest → List Nat
  | nil => []
  | node n _ _ _ r => n :: roots r

/-- The references of the elements whose `id` attribute is `v`, in document
order. -/
def withId (v : String) : Forest → List Nat
  | nil => []
  | node n _ a k r =>
    (if a.lookup "id" = some v then [n] else []) ++ (withId v k ++ withId v r)

/-- The first element in document order whose `id` attribute is `v`. -/
def getElementById (v : String) : Forest → Option Nat
  | nil => none
  | node n _ a k r =>
    if a.lookup "id" = some v then some n
    else match getElementById v k with
      | some m => some m
      | none => getElementById v r

/-- The element that has `c` among its children. -/
def parentIn (c : Nat) : Forest → Option Nat
  | nil => none
  | node n _ _ k r =>
    if c ∈ roots k then some n
    else match parentIn c k with
      | some p => some p
      | none => parentIn c r

/-- The subtree of the element `c`, without its siblings. -/
def subtree (c : Nat) : Forest → Option Forest
  | nil => none
  | node n t a k r =>
    if n = c then some (node n t a k nil)
    else match subtree c k with
      | some s => some s
      | none => subtree c r

/-- The forest without the top-level element `c`. -/
def dropRoot (c : Nat) : Forest → Forest
  | nil => nil
  | node n t a k r => if n = c then r else node n t a k (dropRoot c r)

/-- The forest with `c` appended to the children of the element `p`. -/
def appendTo : Forest → Nat → Forest → Forest
  | nil, _, _ => nil
  | node n t a k r, p, c =>
    if n = p then node n t a (append k c) r
    else node n t a (appendTo k p c) (appendTo r p c)

/-- The forest with the children of the element `p` replaced by `ks`. -/
def setKids : Forest → Nat → Forest → Forest
  | nil, _, _ => nil
  | node n t a k r, p, ks =>
    if n = p then node n t a ks r
    else node n t a (setKids k p ks) (setKids r p ks)

/-- The forest with the child `c` of the element `p` removed. -/
def removeFrom (p c : Nat) : Forest → Forest
  | nil => nil
  | node n t a k r =>
    if n = p then node n t a (dropRoot c k) r
    else node n t a (removeFrom p c k) (removeFrom p c r)

/-- The first top-level element whose tag is `body` or `frameset`. -/
def firstBody : Forest → Option Nat
  | nil => none
  | node n t _ _ r => if t = "body" ∨ t = "frameset" then some n else firstBody r

/-- The read `document.documentElement`. -/
def documentElement : Forest → Option Nat
  | nil => none
  | node n _ _ _ _ => some n

/-- The read `document.body`: the first `body` or `frameset` child of an `html`
document element. -/
def body : Forest → Option Nat
  | nil => none
  | node _ t _ k _ => if t = "html" then firstBody k else none

/-- The number of elements. -/
def size : Forest → Nat
  | nil => 0
  | node _ _ _ k r => 1 + size k + size r

/-- The forest with new references for its elements: `s`, `s + 1`, ... in
document order. -/
def relabel : Forest → Nat → Forest
  | nil, _ => nil
  | node _ t a k r, s => node s t a (relabel k (s + 1)) (relabel r (s + 1 + size k))

/-- The elements in document order, each with its tag and attributes. -/
def nodes : Forest → List Element
  | nil => []
  | node n t a k r => ⟨n, t, a⟩ :: (nodes k ++ nodes r)

/-- The tag of the element `e`. -/
def tagOf (e : Nat) : Forest → Option String
  | nil => none
  | node n t _ k r =>
    if n = e then some t
    else match tagOf e k with
      | some s => some s
      | none => tagOf e r

end Forest

/-- A node as a script holds it: the document itself or an element. -/
inductive NodeRef where
  | document
  | element (nid : Nat)
  deriving DecidableEq, Repr

/-! ## Markup

The HTML tokenizer on one shape of markup: a single start tag with
double-quoted attribute values, at the end of which the input ends. In a value
it reads `&amp;` as `&`, NUL as U+FFFD and, by the normalization of newlines
that comes before it, carriage return as line feed. An ampersand before
letters and digits that an equals sign follows stands for itself, as the
standard has it for attribute values; of the other character references it
reads `&amp;` only. -/

/-- The states of the tokenizer that a start tag passes through. -/
inductive TagState where
  | data
  | tagOpen
  | tagName
  | beforeAttributeName
  | attributeName
  | beforeAttributeValue
  | attributeValue
  | afterAttributeValue
  | emitted
  deriving DecidableEq, Repr

/-- The tokenizer: its state, the tag name, the attributes read so far, and the
attribute being read. -/
structure Tokenizer where
  state : TagState
  tag : List Char
  attrs : List (String × String)
  name : List Char
  value : List Char
  deriving DecidableEq, Repr

/-- The double quote. -/
def dquote : Char := Char.ofNat 34

/-- A character of a tag or attribute name that the tokenizer reads: a
lowercase letter, a digit or a hyphen. -/
def isNameChar (c : Char) : Bool :=
  c.isLower || c.isDigit || c == '-'

/-- A character that an attribute value keeps as it is. -/
def isPlainChar (c : Char) : Bool :=
  !(c == dquote || c == '&' || c == Char.ofNat 0 || c == Char.ofNat 13)

/-- The input with its newlines normalized: carriage return and line feed, or
carriage return alone, become one line feed. -/
def normalizeNewlines : List Char → List Char
  | [] => []
  | c :: cs =>
    if c = Char.ofNat 13 then
      match cs with
      | [] => [Char.ofNat 10]
      | d :: rest =>
        if d = Char.ofNat 10 then Char.ofNat 10 :: normalizeNewlines rest
        else Char.ofNat 10 :: normalizeNewlines (d :: rest)
    else c :: normalizeNewlines cs

/-- The text of an attribute value with its character references resolved;
`none` at a reference that the tokenizer does not read. An ampersand stands
for itself before a character that is no letter, digit or `#`, and before
letters and digits that an equals sign follows (as in `?a=1&b=2`); `&amp;` is
an ampersand; the tokenizer reads no other reference. -/
def decodeValue : List Char → Option (List Char)
  | [] => some []
  | c :: cs =>
    if c = '&' then
      match cs with
      | [] => some ['&']
      | d :: rest =>
        if d.isAlphanum then
          if (cs.dropWhile Char.isAlphanum).head? = some '=' then
            (decodeValue (d :: rest)).map (fun v => '&' :: v)
          else
            match rest with
            | m :: p :: semi :: rest2 =>
              if d = 'a' ∧ m = 'm' ∧ p = 'p' ∧ semi = ';' then
                (decodeValue rest2).map (fun v => '&' :: v)
              else none
            | _ => none
        else if d = '#' then none
        else (decodeValue (d :: rest)).map (fun v => '&' :: v)
    else (decodeValue cs).map (fun v => c :: v)

/-- An attribute value that the tokenizer reads as it is written: it holds no
double quote, NUL or carriage return, and every ampersand in it stands for
itself. -/
def isLiteralValue (s : String) : Bool :=
  s.toList.all (fun c => !(c == dquote || c == Char.ofNat 0 || c == Char.ofNat 13)) &&
    decodeValue s.toList == some s.toList

/-- The attributes with `(k, v)` added, unless the name `k` is already there:
of two attributes with one name the parser keeps the first. -/
def addAttr (attrs : List (String × String)) (k v : String) : List (String × String) :=
  if (attrs.lookup k).isSome then attrs else attrs ++ [(k, v)]

/-- One character of input; `none` when the input leaves the shape that the
tokenizer reads. -/
def Tokenizer.step (t : Tokenizer) (c : Char) : Option Tokenizer :=
  match t.state with
  | .data => if c = '<' then some { t with state := .tagOpen } else none
  | .tagOpen => if c.isLower then some { t with state := .tagName, tag := [c] } else none
  | .tagName =>
    if isNameChar c then some { t with tag := t.tag ++ [c] }
    else if c = ' ' then some { t with state := .beforeAttributeName }
    else if c = '>' then some { t with state := .emitted }
    else none
  | .beforeAttributeName =>
    if c = ' ' then some t
    else if c = '>' then some { t with state := .emitted }
    else if c.isLower then some { t with state := .attributeName, name := [c] }
    else none
  | .attributeName =>
    if isNameChar c then some { t with name := t.name ++ [c] }
    else if c = '=' then some { t with state := .beforeAttributeValue }
    else none
  | .beforeAttributeValue =>
    if c = dquote then some { t with state := .attributeValue, value := [] } else none
  | .attributeValue =>
    if c = dquote then
      match decodeValue t.value with
      | none => none
      | some v =>
        some { t with state := .afterAttributeValue,
                      attrs := addAttr t.attrs (String.mk t.name) (String.mk v) }
    else if c = Char.ofNat 0 then some { t with value := t.value ++ [Char.ofNat 65533] }
    else some { t with value := t.value ++ [c] }
  | .afterAttributeValue =>
    if c = ' ' then some { t with state := .beforeAttributeName }
    else if c = '>' then some { t with state := .emitted }
    else none
  | .emitted => none

/-- The tokenizer run over the input. -/
def Tokenizer.run : Tokenizer → List Char → Option Tokenizer
  | t, [] => some t
  | t, c :: cs =>
    match t.step c with
    | none => none
    | some u => Tokenizer.run u cs

/-- The tokenizer before any input. -/
def Tokenizer.init : Tokenizer :=
  { state := .data, tag := [], attrs := [], name := [], value := [] }

/-- The tag name and attributes of markup that is one start tag. -/
def parseStartTag (s : String) : Option (String × List (String × String)) :=
  match Tokenizer.run Tokenizer.init (normalizeNewlines s.toList) with
  | none => none
  | some t => if t.state = .emitted then some (String.mk t.tag, t.attrs) else none

/-- A parser that reads a single start tag as one element without children.
Input that the tokenizer does not read makes no element here; the parser of a
browser reads every input, so this parser stands for it on the markup of
`open` that the tokenizer reads and on no other. -/
def startTagParser (s : String) : Forest :=
  match parseStartTag s with
  | some (tag, attrs) => .node 0 tag attrs .nil .nil
  | none => .nil

/-! ## The host -/

/-- What the host does where the file only calls it. `parse` is the HTML parser
behind the assignment to `innerHTML`, giving the elements that the markup
makes (their references are given when they enter the document); `accepts`
tells whether `new EventSource(url)` returns rather than throws; `hasClose`
tells whether an element with the given tag has a method `close`. -/
structure Host where
  parse : String → Forest
  accepts : String → Bool
  hasClose : String → Bool

/-- The parser of the host reads a single `event-source` start tag as the
tokenizer does: as one element without children, with the attributes of the
tag. -/
def ReadsStartTags (parse : String → Forest) : Prop :=
  ∀ s attrs, parseStartTag s = some ("event-source", attrs) →
    ∃ n, parse s = .node n "event-source" attrs .nil .nil

/-! ## The state -/

/-- The connection handle: a native `EventSource` object or an element of the
document. -/
inductive Handle where
  | native (ref : Nat)
  | element (nid : Nat)
  deriving DecidableEq, Repr

/-- The function values that `open` creates; `self` is the instance they
close over. -/
inductive Callback where
  | relayData (self : Nat)
  | relayError (self : Nat)
  deriving DecidableEq, Repr

/-- A handler on a host object: set as the property `on` + `type`, or added
with `addEventListener`. -/
structure Registration where
  target : Handle
  type : String
  property : Bool
  callback : Callback
  deriving DecidableEq, Repr

/-- An event as the underlying mechanism delivers it. -/
structure Event where
  type : String
  data : JSVal
  deriving DecidableEq, Repr

/-- The calls that leave the file. -/
inductive Call where
  | transportsPush (name : String)
  | baseConstructor (self : Nat) (socket : Nat)
  | newEventSource (ref : Nat) (url : String)
  | handleClose (h : Handle)
  | baseClose (self : Nat)
  | onData (self : Nat) (payload : JSVal)
  | socketOnError (socket : Nat) (e : Event)
  | defer (self : Nat) (fn : Nat)
  deriving DecidableEq, Repr

/-- A transport instance. `socket` is set by the base constructor and `base` is
the URL that the base `prepareUrl` builds for the instance; both come from code
outside the file. -/
structure Transport where
  socket : Nat
  base : String
  index : String
  eventsource : Option Handle
  deriving DecidableEq, Repr

/-- The module variables, the host, the instances, and the trace of calls. -/
structure World where
  window : Window
  legacy : Bool
  id : Nat
  doc : Forest
  detached : Forest
  next : Nat
  transports : List Transport
  handlers : List Registration
  log : List Call
  deriving DecidableEq, Repr

/-- The reference of a handle. -/
def Handle.ref : Handle → Nat
  | .native r => r
  | .element n => n

/-- A well-formed state: the elements, in the document or removed from it, have
references of their own, and the references of the elements and on the handlers
are below the allocation counter. -/
def World.WellFormed (w : World) : Prop :=
  (w.doc.nids ++ w.detached.nids).Nodup ∧
  (∀ n ∈ w.doc.nids ++ w.detached.nids, n < w.next) ∧
  (∀ r ∈ w.handlers, r.target.ref < w.next)

/-- How a call ends: it returns the instance or it throws. -/
inductive Outcome where
  | returned (self : Nat)
  | threw (e : JSError)
  deriving DecidableEq, Repr

/-- The module as loaded (lines 18-27 and 190). -/
def load (window : Window) (doc : Forest) (next : Nat) : World :=
  { window := window, legacy := legacy window, id := 0, doc := doc, detached := .nil,
    next := next, transports := [], handlers := [],
    log := [.transportsPush "event-source"] }

/-- The handlers after the assignment `target.on<type> = cb`: the function takes
the place of the one set before, or joins the handlers at the end. -/
def setHandler (l : List Registration) (target : Handle) (type : String) (cb : Callback) :
    List Registration :=
  if l.any (fun r => r.target = target ∧ r.type = type ∧ r.property = true) then
    l.map (fun r =>
      if r.target = target ∧ r.type = type ∧ r.property = true
      then { r with callback := cb } else r)
  else
    l ++ [{ target := target, type := type, property := true, callback := cb }]

/-- The handlers on `target` for events of type `type`, in the order they were
set. -/
def handlersFor (l : List Registration) (target : Handle) (type : String) :
    List Registration :=
  l.filter (fun r => r.target = target ∧ r.type = type)

/-- The shape of the handlers that the module keeps: the listeners added with
`addEventListener` are for `io`, and no host object has two functions as one
property. -/
def HandlersOk (l : List Registration) : Prop :=
  (∀ r ∈ l, r.property = false → r.type = "io") ∧
  l.Pairwise (fun a b =>
    ¬ (a.target = b.target ∧ a.type = b.type ∧ a.property = true ∧ b.property = true))

namespace World

/-- The assignment `this.eventsource = h`. -/
def setEventsource (w : World) (self : Nat) (h : Option Handle) : World :=
  { w with transports := w.transports.modify (fun t => { t with eventsource := h }) self }

/-- The assignment `target.on<type> = cb`. -/
def setProperty (w : World) (target : Handle) (type : String) (cb : Callback) : World :=
  { w with handlers := setHandler w.handlers target type cb }

/-- The call `target.addEventListener(type, cb, false)`. -/
def addEventListener (w : World) (target : Handle) (type : String) (cb : Callback) : World :=
  { w with handlers := w.handlers ++
      [{ target := target, type := type, property := false, callback := cb }] }

/-- The read `e.parentNode` of an element. -/
def parentOfElement (w : World) (e : Nat) : Option NodeRef :=
  if e ∈ w.doc.roots then some .document
  else match w.doc.parentIn e with
    | some p => some (.element p)
    | none => (w.detached.parentIn e).map .element

/-- The read `h.parentNode` of a handle; a native handle has none. -/
def parentOfHandle (w : World) : Handle → Option NodeRef
  | .native _ => none
  | .element e => w.parentOfElement e

/-- The tag of the element `e`, wherever it is. -/
def tagOf (w : World) (e : Nat) : String :=
  match w.doc.tagOf e with
  | some t => t
  | none => (w.detached.tagOf e).getD ""

/-- The subtree of `c` wherever it is. -/
def subtreeOf (w : World) (c : Nat) : Forest :=
  match w.doc.subtree c with
  | some s => s
  | none => (w.detached.subtree c).getD .nil

/-- The call `p.removeChild(c)` for a child `c` of `p`: the subtree of `c`
leaves its parent and stays reachable from scripts. -/
def removeChild (w : World) (p : NodeRef) (c : Nat) : World :=
  match p with
  | .document =>
    { w with doc := w.doc.dropRoot c, detached := w.detached.append (w.subtreeOf c) }
  | .element q =>
    { w with doc := w.doc.removeFrom q c,
             detached := (w.detached.removeFrom q c).append (w.subtreeOf c) }

end World

/-! ## The transport -/

/-- The markup that `open` writes (line 85):
`'<event-source src="'+ url +'" id="'+ this.index +'">'`. -/
def markup (url index : String) : String :=
  "<event-source src=\"" ++ url ++ "\" id=\"" ++ index ++ "\">"

/-- Whether the handle has a method `close`: the object that the `EventSource`
constructor makes has the one of the standard; an element has one if the host
gives one to its tag. -/
def hasClose (host : Host) (w : World) : Handle → Bool
  | .native _ => true
  | .element e => host.hasClose (w.tagOf e)

/-- The constructor `ES` (lines 44-47): the base constructor runs on the new
instance, then `this.index = 'EventSource_' + id++`. Returns the state and the
new instance. -/
def ES (w : World) (socket : Nat) (base : String) : World × Nat :=
  let self := w.transports.length
  ({ w with
      id := jsSucc w.id,
      transports := w.transports ++
        [{ socket := socket, base := base, index := "EventSource_" ++ decimal w.id,
           eventsource := none }],
      log := w.log ++ [.baseConstructor self socket] }, self)

namespace ES

/-- The method `prepareUrl` (lines 140-142):
`io.Transport.prototype.prepareUrl.call(this) + (legacy ? '?l=1' : '')`. -/
def prepareUrl (w : World) (t : Transport) : String :=
  t.base ++ (if w.legacy then "?l=1" else "")

/-- The method `onError` (lines 108-110): `this.socket.onError(e)`. -/
def onError (w : World) (t : Transport) (e : Event) : World :=
  { w with log := w.log ++ [.socketOnError t.socket e] }

/-- The method `open` (lines 70-98). The call of the `EventSource` constructor
is in the trace whether it returns or throws. -/
def «open» (host : Host) (w : World) (self : Nat) : Outcome × World :=
  match w.transports[self]? with
  | none => (.threw .typeError, w)
  | some t =>
    -- url = this.prepareUrl()
    let url := prepareUrl w t
    if !w.legacy then
      -- this.eventsource = new EventSource(url)
      if !w.window.has "EventSource" then (.threw .referenceError, w)
      else match w.window.get "EventSource" with
        | .func _ =>
          let w0 : World := { w with log := w.log ++ [Call.newEventSource w.next url] }
          if host.accepts url then
            let h := Handle.native w.next
            let w1 : World := { w0 with next := w.next + 1 }
            let w2 := w1.setEventsource self (some h)
            -- this.eventsource.onmessage = function (ev) { self.onData(ev.data); }
            let w3 := w2.setProperty h "message" (.relayData self)
            -- this.eventsource.onerror = function (e) { self.onError(e); }
            let w4 := w3.setProperty h "error" (.relayError self)
            (.returned self, w4)
          else (.threw .syntaxError, w0)
        | _ => (.threw .typeError, w)
    else
      -- wrapper = document.createElement('div')
      let wrapper := w.next
      let w1 : World := { w with next := w.next + 1 }
      -- (document.body || document.documentElement).appendChild(wrapper)
      match (w1.doc.body).orElse (fun _ => w1.doc.documentElement) with
      | none => (.threw .typeError, w1)
      | some target =>
        let w2 : World :=
          { w1 with doc := w1.doc.appendTo target (.node wrapper "div" [] .nil .nil) }
        -- wrapper.innerHTML = '<event-source src="'+ url +'" id="'+ this.index +'">'
        let kids := (host.parse (markup url t.index)).relabel w2.next
        let w3 : World :=
          { w2 with doc := w2.doc.setKids wrapper kids, next := w2.next + kids.size }
        -- this.eventsource = document.getElementById(this.index)
        let found := w3.doc.getElementById t.index
        let w4 := w3.setEventsource self (found.map Handle.element)
        match found with
        | none => (.threw .typeError, w4)
        | some e =>
          let h := Handle.element e
          -- this.eventsource.addEventListener('io', function (ev) { ... }, false)
          let w5 := w4.addEventListener h "io" (.relayData self)
          -- this.eventsource.onerror = function (e) { self.onError(e); }
          let w6 := w5.setProperty h "error" (.relayError self)
          (.returned self, w6)

/-- The method `close` (lines 118-131). The call `this.eventsource.close()`
throws on a handle without such a method and is a call into the host
otherwise. -/
def close (host : Host) (w : World) (self : Nat) : Outcome × World :=
  match w.transports[self]? with
  | none => (.threw .typeError, w)
  | some t =>
    -- io.Transport.XHR.prototype.close.call(this); return this
    let finish (v : World) : Outcome × World :=
      (.returned self, { v with log := v.log ++ [.baseClose self] })
    -- if (this.eventsource)
    match t.eventsource with
    | none => finish w
    | some h =>
      -- var wrapper = this.eventsource.parentNode
      let wrapper := w.parentOfHandle h
      -- this.eventsource.close()
      if !hasClose host w h then (.threw .typeError, w)
      else
        let w1 : World := { w with log := w.log ++ [.handleClose h] }
        -- if (wrapper) wrapper.parentNode.removeChild(wrapper)
        match wrapper with
        | none => finish w1
        | some .document => (.threw .typeError, w1)
        | some (.element c) =>
          match w1.parentOfElement c with
          | none => (.threw .typeError, w1)
          | some p => finish (w1.removeChild p c)

/-- The call `removeChild` that `close` makes, if it makes one: the parent and
the child. It makes one when the handle has a method `close`, a parent element
(the wrapper), and that one a parent. -/
def removal (host : Host) (w : World) (self : Nat) : Option (NodeRef × Nat) :=
  match w.transports[self]? with
  | none => none
  | some t =>
    match t.eventsource with
    | none => none
    | some h =>
      if !hasClose host w h then none
      else
        match w.parentOfHandle h with
        | some (.element c) => (w.parentOfElement c).map (fun p => (p, c))
        | _ => none

/-- The method `ready` (lines 153-159): `io.util.defer` is given the function
that calls `fn` on the instance. -/
def ready (w : World) (self : Nat) (fn : Nat) : World :=
  { w with log := w.log ++ [.defer self fn] }

/-- The function `ES.check` (lines 168-170):
`('EventSource' in window && EventSource.prototype) || legacy`. -/
def check (w : World) : Except JSError JSVal :=
  if w.window.has "EventSource" then
    match w.window.getProp (w.window.get "EventSource") "prototype" with
    | .error e => .error e
    | .ok p => if p.toBoolean then .ok p else .ok (.bool w.legacy)
  else .ok (.bool w.legacy)

/-- The function `ES.xdomainCheck` (lines 180-182). -/
def xdomainCheck (_w : World) : JSVal :=
  .bool false

end ES

/-! ## Events -/

/-- A call of a function value made by `open` with the event `ev`:
`self.onData(ev.data)`, or `self.onError(e)`. -/
def Callback.invoke (w : World) (ev : Event) : Callback → World
  | .relayData self => { w with log := w.log ++ [.onData self ev.data] }
  | .relayError self =>
    match w.transports[self]? with
    | none => w
    | some t => ES.onError w t ev

/-- The underlying mechanism delivers `ev` to `target`. -/
def fire (w : World) (target : Handle) (ev : Event) : World :=
  (handlersFor w.handlers target ev.type).foldl (fun v r => r.callback.invoke v ev) w

/-- The underlying mechanism delivers the events one after the other. -/
def deliver (w : World) (target : Handle) (evs : List Event) : World :=
  evs.foldl (fun v ev => fire v target ev) w

/-- The states that the module reaches from `w` on the host: by constructions,
by calls of the methods, and by events. -/
inductive Reaches (host : Host) (w : World) : World → Prop where
  | refl : Reaches host w w
  | construct {v : World} (socket : Nat) (base : String) :
      Reaches host w v → Reaches host w (ES v socket base).1
  | «open» {v : World} (self : Nat) : Reaches host w v → Reaches host w (ES.open host v self).2
  | close {v : World} (self : Nat) :
      Reaches host w v → Reaches host w (ES.close host v self).2
  | ready {v : World} (self fn : Nat) : Reaches host w v → Reaches host w (ES.ready v self fn)
  | fire {v : World} (target : Handle) (ev : Event) :
      Reaches host w v → Reaches host w (fire v target ev)

/-- The constructions of a list of instances, one after the other, each with
its socket and base URL. -/
def constructions : World → List (Nat × String) → World
  | w, [] => w
  | w, c :: cs => constructions (ES w c.1 c.2).1 cs

/-- Every element that is a handle is in the document or removed from it and
bears the identity of its instance as its `id`. -/
def World.HandlesById (w : World) : Prop :=
  ∀ (i : Nat) (t : Transport) (e : Nat), w.transports[i]? = some t →
    t.eventsource = some (.element e) →
    ∃ x ∈ w.doc.nodes ++ w.detached.nodes, x.nid = e ∧ x.attrs.lookup "id" = some t.index

/-- The one handler for `error` on the handle of an instance is the function
that calls `onError` of that instance. -/
def World.ErrorsRelayed (w : World) : Prop :=
  ∀ (i : Nat) (t : Transport) (h : Handle), w.transports[i]? = some t →
    t.eventsource = some h →
    handlersFor w.handlers h "error" =
      [{ target := h, type := "error", property := true, callback := .relayError i }]

/-! ## Concrete hosts -/

deriving instance DecidableEq for Except

/-- A page: `html` with a `head`, and a `body` that holds a paragraph. -/
def pageDoc : Forest :=
  .node 0 "html" [] (.node 1 "head" [] .nil (.node 2 "body" [] (.node 3 "p" [] .nil .nil) .nil))
    .nil

/-- A page whose body holds an element with the id `EventSource_0`. -/
def clashDoc : Forest :=
  .node 0 "html" []
    (.node 1 "body" [] (.node 2 "span" [("id", "EventSource_0")] .nil .nil) .nil) .nil

/-- A `window` with the legacy draft only. -/
def legacyWindow : Window :=
  { globals := [("addEventStream", .func 100)], props := [] }

/-- A `window` with the standard `EventSource` only. -/
def standardWindow : Window :=
  { globals := [("EventSource", .func 101)], props := [((101, "prototype"), .object 102)] }

/-- A `window` with both the standard `EventSource` and the legacy draft. -/
def bothWindow : Window :=
  { globals := [("EventSource", .func 101), ("addEventStream", .func 100)],
    props := [((101, "prototype"), .object 102)] }

/-- A host as a DOM of today, on the markup that the tokenizer reads: its
parser is `startTagParser`, its `EventSource` constructor throws on the URL
`http://` (which has no host) and accepts the URLs of the examples, and of its
elements the `dialog` has a method `close`; an `event-source` or a `span` has
none. -/
def domHost : Host :=
  { parse := startTagParser,
    accepts := fun url => url != "http://",
    hasClose := fun tag => tag == "dialog" }

/-- A host that differs from `domHost` in that its `event-source` element has a
method `close`, as `close` in legacy mode takes it to have. -/
def draftHost : Host :=
  { parse := startTagParser,
    accepts := fun url => url != "http://",
    hasClose := fun tag => tag == "dialog" || tag == "event-source" }

/-- One instance, for socket 7, on a host with the legacy draft only. -/
def legacyWorld : World :=
  (ES (load legacyWindow pageDoc 10) 7 "http://h/x").1

/-- One instance, for socket 7, on a host with the standard API only. -/
def standardWorld : World :=
  (ES (load standardWindow pageDoc 10) 7 "http://h/x").1

/-- One instance with the base URL `http://`, on a host with the standard API
only. -/
def badUrlWorld : World :=
  (ES (load standardWindow pageDoc 10) 7 "http://").1

/-- One instance, for socket 7, on a host with both. -/
def bothWorld : World :=
  (ES (load bothWindow pageDoc 10) 7 "http://h/x").1

/-- One instance, for socket 7, on a legacy host whose page holds an element with
the id of the instance. -/
def clashWorld : World :=
  (ES (load legacyWindow clashDoc 10) 7 "http://h/x").1

/-- One instance on a legacy host whose document holds no element. -/
def emptyWorld : World :=
  (ES (load legacyWindow .nil 10) 7 "http://h/x").1

/-- One instance on a legacy host, whose base URL holds a double quote. -/
def quoteWorld : World :=
  (ES (load legacyWindow pageDoc 10) 7 "x\" id=\"y").1

/-- One instance on a legacy host, whose base URL holds the character
reference `&amp;`. -/
def ampWorld : World :=
  (ES (load legacyWindow pageDoc 10) 7 "http://h/x?a=1&amp;b=2").1

/-- One instance on a legacy host, whose base URL holds a query of two
parameters. -/
def queryWorld : World :=
  (ES (load legacyWindow pageDoc 10) 7 "http://h/x?a=1&b=2").1

/-- One instance on a legacy host, whose base URL holds a carriage return. -/
def returnWorld : World :=
  (ES (load legacyWindow pageDoc 10) 7 (String.mk ['a', Char.ofNat 13, 'b'])).1

/-- One instance on a legacy host, whose base URL holds a NUL. -/
def nulWorld : World :=
  (ES (load legacyWindow pageDoc 10) 7 (String.mk ['a', Char.ofNat 0, 'b'])).1

/-- The state after `2^53 + 2` constructions on a host with the standard API. -/
def manyConstructions : World :=
  constructions (load standardWindow pageDoc 10) (List.replicate (2 ^ 53 + 2) (7, "http://h/x"))

/-- The state after `2^53 + 2` constructions on a legacy host, the last two of
them for the sockets 8 and 9. -/
def manyLegacy : World :=
  constructions (load legacyWindow pageDoc 10)
    (List.replicate (2 ^ 53) (7, "http://h/x") ++ [(8, "http://h/x"), (9, "http://h/x")])

/-! ## Basic facts -/

theorem append_marker_ne (s : String) : s ++ "?l=1" ≠ s := by
  intro h
  have hlen := congrArg String.length h
  simp at hlen
  exact absurd hlen (by decide)

/-! ### What the assignments leave as it is -/

@[simp] theorem setEventsource_handlers (w : World) (self : Nat) (h : Option Handle) :
    (w.setEventsource self h).handlers = w.handlers := rfl

@[simp] theorem setEventsource_log (w : World) (self : Nat) (h : Option Handle) :
    (w.setEventsource self h).log = w.log := rfl

@[simp] theorem setEventsource_doc (w : World) (self : Nat) (h : Option Handle) :
    (w.setEventsource self h).doc = w.doc := rfl

@[simp] theorem setEventsource_detached (w : World) (self : Nat) (h : Option Handle) :
    (w.setEventsource self h).detached = w.detached := rfl

@[simp] theorem setEventsource_next (w : World) (self : Nat) (h : Option Handle) :
    (w.setEventsource self h).next = w.next := rfl

@[simp] theorem setEventsource_id (w : World) (self : Nat) (h : Option Handle) :
    (w.setEventsource self h).id = w.id := rfl

@[simp] theorem setEventsource_legacy (w : World) (self : Nat) (h : Option Handle) :
    (w.setEventsource self h).legacy = w.legacy := rfl

@[simp] theorem setEventsource_window (w : World) (self : Nat) (h : Option Handle) :
    (w.setEventsource self h).window = w.window := rfl

theorem setEventsource_transports (w : World) (self : Nat) (h : Option Handle) :
    (w.setEventsource self h).transports =
      w.transports.modify (fun t => { t with eventsource := h }) self := rfl

theorem setEventsource_self (w : World) (self : Nat) (h : Option Handle) (t : Transport)
    (hself : w.transports[self]? = some t) :
    (w.setEventsource self h).transports[self]? = some { t with eventsource := h } := by
  simp [setEventsource_transports, hself]

@[simp] theorem setProperty_transports (w : World) (g : Handle) (ty : String) (cb : Callback) :
    (w.setProperty g ty cb).transports = w.transports := rfl

@[simp] theorem setProperty_log (w : World) (g : Handle) (ty : String) (cb : Callback) :
    (w.setProperty g ty cb).log = w.log := rfl

@[simp] theorem setProperty_doc (w : World) (g : Handle) (ty : String) (cb : Callback) :
    (w.setProperty g ty cb).doc = w.doc := rfl

@[simp] theorem setProperty_detached (w : World) (g : Handle) (ty : String) (cb : Callback) :
    (w.setProperty g ty cb).detached = w.detached := rfl

@[simp] theorem setProperty_next (w : World) (g : Handle) (ty : String) (cb : Callback) :
    (w.setProperty g ty cb).next = w.next := rfl

@[simp] theorem setProperty_id (w : World) (g : Handle) (ty : String) (cb : Callback) :
    (w.setProperty g ty cb).id = w.id := rfl

@[simp] theorem setProperty_legacy (w : World) (g : Handle) (ty : String) (cb : Callback) :
    (w.setProperty g ty cb).legacy = w.legacy := rfl

@[simp] theorem setProperty_window (w : World) (g : Handle) (ty : String) (cb : Callback) :
    (w.setProperty g ty cb).window = w.window := rfl

@[simp] theorem setProperty_handlers (w : World) (g : Handle) (ty : String) (cb : Callback) :
    (w.setProperty g ty cb).handlers = setHandler w.handlers g ty cb := rfl

@[simp] theorem addEventListener_transports (w : World) (g : Handle) (ty : String)
    (cb : Callback) : (w.addEventListener g ty cb).transports = w.transports := rfl

@[simp] theorem addEventListener_log (w : World) (g : Handle) (ty : String)
    (cb : Callback) : (w.addEventListener g ty cb).log = w.log := rfl

@[simp] theorem addEventListener_doc (w : World) (g : Handle) (ty : String)
    (cb : Callback) : (w.addEventListener g ty cb).doc = w.doc := rfl

@[simp] theorem addEventListener_detached (w : World) (g : Handle) (ty : String)
    (cb : Callback) : (w.addEventListener g ty cb).detached = w.detached := rfl

@[simp] theorem addEventListener_next (w : World) (g : Handle) (ty : String)
    (cb : Callback) : (w.addEventListener g ty cb).next = w.next := rfl

@[simp] theorem addEventListener_id (w : World) (g : Handle) (ty : String)
    (cb : Callback) : (w.addEventListener g ty cb).id = w.id := rfl

@[simp] theorem addEventListener_legacy (w : World) (g : Handle) (ty : String)
    (cb : Callback) : (w.addEventListener g ty cb).legacy = w.legacy := rfl

@[simp] theorem addEventListener_window (w : World) (g : Handle) (ty : String)
    (cb : Callback) : (w.addEventListener g ty cb).window = w.window := rfl

@[simp] theorem addEventListener_handlers (w : World) (g : Handle) (ty : String)
    (cb : Callback) :
    (w.addEventListener g ty cb).handlers =
      w.handlers ++ [{ target := g, type := ty, property := false, callback := cb }] := rfl

@[simp] theorem removeChild_transports (w : World) (p : NodeRef) (c : Nat) :
    (w.removeChild p c).transports = w.transports := by
  cases p <;> rfl

@[simp] theorem removeChild_log (w : World) (p : NodeRef) (c : Nat) :
    (w.removeChild p c).log = w.log := by
  cases p <;> rfl

@[simp] theorem removeChild_handlers (w : World) (p : NodeRef) (c : Nat) :
    (w.removeChild p c).handlers = w.handlers := by
  cases p <;> rfl

@[simp] theorem removeChild_next (w : World) (p : NodeRef) (c : Nat) :
    (w.removeChild p c).next = w.next := by
  cases p <;> rfl

@[simp] theorem removeChild_id (w : World) (p : NodeRef) (c : Nat) :
    (w.removeChild p c).id = w.id := by
  cases p <;> rfl

@[simp] theorem removeChild_legacy (w : World) (p : NodeRef) (c : Nat) :
    (w.removeChild p c).legacy = w.legacy := by
  cases p <;> rfl

@[simp] theorem removeChild_window (w : World) (p : NodeRef) (c : Nat) :
    (w.removeChild p c).window = w.window := by
  cases p <;> rfl

/-! ### Handlers -/

theorem handlersFor_append (l m : List Registration) (g : Handle) (ty : String) :
    handlersFor (l ++ m) g ty = handlersFor l g ty ++ handlersFor m g ty := by
  simp [handlersFor]

theorem handlersFor_map_other (l : List Registration) (g g' : Handle) (ty ty' : String)
    (cb : Callback) (hne : ¬ (g' = g ∧ ty' = ty)) :
    handlersFor (l.map (fun r =>
      if r.target = g' ∧ r.type = ty' ∧ r.property = true
      then { r with callback := cb } else r)) g ty = handlersFor l g ty := by
  induction l with
  | nil => rfl
  | cons a l ih =>
    simp only [handlersFor] at ih ⊢
    simp only [List.map_cons, List.filter_cons]
    rw [ih]
    by_cases hp : a.target = g' ∧ a.type = ty' ∧ a.property = true
    · have hq : ¬ (a.target = g ∧ a.type = ty) := by
        rintro ⟨h1, h2⟩
        exact hne ⟨hp.1.symm.trans h1, hp.2.1.symm.trans h2⟩
      simp [hp, hq, hne]
    · simp [hp]

theorem setHandler_handlersFor_other (l : List Registration) (g g' : Handle)
    (ty ty' : String) (cb : Callback) (hne : ¬ (g' = g ∧ ty' = ty)) :
    handlersFor (setHandler l g' ty' cb) g ty = handlersFor l g ty := by
  unfold setHandler
  split
  · exact handlersFor_map_other l g g' ty ty' cb hne
  · rw [handlersFor_append]
    have : handlersFor [{ target := g', type := ty', property := true, callback := cb }] g ty
        = [] := by
      simp only [handlersFor, List.filter_cons, List.filter_nil]
      simp [hne]
    rw [this, List.append_nil]

theorem handlersFor_map_same (l : List Registration) (g : Handle) (ty : String)
    (cb : Callback)
    (hprop : ∀ r ∈ l, r.target = g → r.type = ty → r.property = true)
    (hpair : l.Pairwise (fun a b =>
      ¬ (a.target = b.target ∧ a.type = b.type ∧ a.property = true ∧ b.property = true)))
    (hany : ∃ r ∈ l, r.target = g ∧ r.type = ty ∧ r.property = true) :
    handlersFor (l.map (fun r =>
      if r.target = g ∧ r.type = ty ∧ r.property = true
      then { r with callback := cb } else r)) g ty =
      [{ target := g, type := ty, property := true, callback := cb }] := by
  induction l with
  | nil => obtain ⟨r, hr, _⟩ := hany; cases hr
  | cons a l ih =>
    rw [List.pairwise_cons] at hpair
    by_cases hp : a.target = g ∧ a.type = ty ∧ a.property = true
    · have hrest : ∀ b ∈ l, ¬ (b.target = g ∧ b.type = ty) := by
        intro b hb hq
        have hbp := hprop b (List.mem_cons_of_mem _ hb) hq.1 hq.2
        exact hpair.1 b hb ⟨hp.1.trans hq.1.symm, hp.2.1.trans hq.2.symm, hp.2.2, hbp⟩
      have hnil : handlersFor (l.map (fun r =>
          if r.target = g ∧ r.type = ty ∧ r.property = true
          then { r with callback := cb } else r)) g ty = [] := by
        simp only [handlersFor, List.filter_eq_nil_iff, List.mem_map]
        rintro x ⟨b, hb, rfl⟩
        have hnb := hrest b hb
        have hnp : ¬ (b.target = g ∧ b.type = ty ∧ b.property = true) :=
          fun h => hnb ⟨h.1, h.2.1⟩
        simp [hnp, hnb]
      simp only [handlersFor] at hnil ⊢
      simp only [List.map_cons, List.filter_cons, hnil]
      obtain ⟨g0, ty0, p0, c0⟩ := a
      simp only at hp
      obtain ⟨rfl, rfl, rfl⟩ := hp
      simp
    · have hq : ¬ (a.target = g ∧ a.type = ty) := by
        intro hq
        exact hp ⟨hq.1, hq.2, hprop a (List.mem_cons_self _ _) hq.1 hq.2⟩
      have hany2 : ∃ r ∈ l, r.target = g ∧ r.type = ty ∧ r.property = true := by
        obtain ⟨r, hr, hrp⟩ := hany
        rcases List.mem_cons.mp hr with rfl | hr
        · exact absurd hrp hp
        · exact ⟨r, hr, hrp⟩
      have ih2 := ih (fun r hr => hprop r (List.mem_cons_of_mem _ hr)) hpair.2 hany2
      simp only [handlersFor] at ih2 ⊢
      simp only [List.map_cons, List.filter_cons, ih2]
      simp [hp, hq]

theorem setHandler_handlersFor_same (l : List Registration) (g : Handle) (ty : String)
    (cb : Callback)
    (hprop : ∀ r ∈ l, r.target = g → r.type = ty → r.property = true)
    (hpair : l.Pairwise (fun a b =>
      ¬ (a.target = b.target ∧ a.type = b.type ∧ a.property = true ∧ b.property = true))) :
    handlersFor (setHandler l g ty cb) g ty =
      [{ target := g, type := ty, property := true, callback := cb }] := by
  unfold setHandler
  split
  · rename_i hany
    refine handlersFor_map_same l g ty cb hprop hpair ?_
    simpa using hany
  · rename_i hany
    rw [handlersFor_append]
    have hnil : handlersFor l g ty = [] := by
      simp only [handlersFor, List.filter_eq_nil_iff]
      intro r hr hq
      simp only [decide_eq_true_eq] at hq
      apply hany
      simp only [List.any_eq_true, decide_eq_true_eq]
      exact ⟨r, hr, hq.1, hq.2, hprop r hr hq.1 hq.2⟩
    rw [hnil]
    simp [handlersFor]

theorem handlersOk_setHandler (l : List Registration) (g : Handle) (ty : String)
    (cb : Callback) (hok : HandlersOk l) : HandlersOk (setHandler l g ty cb) := by
  obtain ⟨h1, h2⟩ := hok
  unfold setHandler
  split
  · constructor
    · intro r hr
      simp only [List.mem_map] at hr
      obtain ⟨b, hb, rfl⟩ := hr
      by_cases hp : b.target = g ∧ b.type = ty ∧ b.property = true
      · simp [hp]
      · simpa [hp] using h1 b hb
    · refine List.Pairwise.map _ ?_ h2
      intro a b hab
      by_cases hpa : a.target = g ∧ a.type = ty ∧ a.property = true <;>
        by_cases hpb : b.target = g ∧ b.type = ty ∧ b.property = true
      · simp only [hpa, hpb, and_self, if_true]
        exact fun _ => hab ⟨hpa.1.trans hpb.1.symm, hpa.2.1.trans hpb.2.1.symm, hpa.2.2, hpb.2.2⟩
      · simp only [hpa, hpb, and_self, if_true, if_false]
        rintro ⟨e1, e2, -, e4⟩
        exact hpb ⟨e1.symm, e2.symm, e4⟩
      · simp only [hpa, hpb, and_self, if_true, if_false]
        rintro ⟨e1, e2, e3, -⟩
        exact hpa ⟨e1, e2, e3⟩
      · simp only [hpa, hpb, if_false]
        exact hab
  · rename_i hany
    constructor
    · intro r hr
      rcases List.mem_append.mp hr with hr | hr
      · exact h1 r hr
      · simp only [List.mem_singleton] at hr
        subst hr
        simp
    · rw [List.pairwise_append]
      refine ⟨h2, List.pairwise_singleton _ _, ?_⟩
      intro a ha b hb
      simp only [List.mem_singleton] at hb
      subst hb
      rintro ⟨e1, e2, e3, -⟩
      apply hany
      simp only [List.any_eq_true, decide_eq_true_eq]
      exact ⟨a, ha, e1, e2, e3⟩

theorem handlersOk_append_listener (l : List Registration) (g : Handle) (cb : Callback)
    (hok : HandlersOk l) :
    HandlersOk (l ++ [{ target := g, type := "io", property := false, callback := cb }]) := by
  obtain ⟨h1, h2⟩ := hok
  constructor
  · intro r hr
    rcases List.mem_append.mp hr with hr | hr
    · exact h1 r hr
    · simp only [List.mem_singleton] at hr
      subst hr
      simp
  · rw [List.pairwise_append]
    refine ⟨h2, List.pairwise_singleton _ _, ?_⟩
    intro a _ b hb
    simp only [List.mem_singleton] at hb
    subst hb
    simp

/-! ### Events -/

theorem fire_single (w : World) (g : Handle) (ev : Event) (reg : Registration)
    (hreg : handlersFor w.handlers g ev.type = [reg]) :
    fire w g ev = reg.callback.invoke w ev := by
  unfold fire
  rw [hreg]
  rfl

/-! ### Markup -/

theorem run_append (xs ys : List Char) :
    ∀ t : Tokenizer, Tokenizer.run t (xs ++ ys) =
      (Tokenizer.run t xs).bind (fun u => Tokenizer.run u ys) := by
  induction xs with
  | nil => intro t; rfl
  | cons c cs ih =>
    intro t
    simp only [List.cons_append, Tokenizer.run]
    cases hstep : t.step c with
    | none => rfl
    | some u => exact ih u

theorem plain_ne (c : Char) (hc : isPlainChar c = true) :
    c ≠ dquote ∧ c ≠ '&' ∧ c ≠ Char.ofNat 0 ∧ c ≠ Char.ofNat 13 := by
  simp only [isPlainChar, Bool.not_eq_true', Bool.or_eq_false_iff, beq_eq_false_iff_ne,
    ne_eq] at hc
  exact ⟨hc.1.1.1, hc.1.1.2, hc.1.2, hc.2⟩

theorem run_value (cs : List Char) :
    ∀ t : Tokenizer, t.state = .attributeValue →
      (∀ c ∈ cs, c ≠ dquote ∧ c ≠ Char.ofNat 0) →
      Tokenizer.run t cs = some { t with value := t.value ++ cs } := by
  induction cs with
  | nil => intro t _ _; simp [Tokenizer.run]
  | cons c cs ih =>
    intro t hstate hplain
    obtain ⟨hq, h0⟩ := hplain c (List.mem_cons_self _ _)
    have hstep : t.step c = some { t with value := t.value ++ [c] } := by
      simp [Tokenizer.step, hstate, hq, h0]
    simp only [Tokenizer.run, hstep]
    rw [ih { t with value := t.value ++ [c] } hstate
      (fun d hd => hplain d (List.mem_cons_of_mem _ hd))]
    simp

theorem literal_ne (s : String) (h : isLiteralValue s = true) :
    (∀ c ∈ s.toList, c ≠ dquote ∧ c ≠ Char.ofNat 0 ∧ c ≠ Char.ofNat 13) ∧
    decodeValue s.toList = some s.toList := by
  simp only [isLiteralValue, Bool.and_eq_true, List.all_eq_true, Bool.not_eq_true',
    Bool.or_eq_false_iff, beq_eq_false_iff_ne, ne_eq, beq_iff_eq] at h
  exact ⟨fun c hc => ⟨(h.1 c hc).1.1, (h.1 c hc).1.2, (h.1 c hc).2⟩, h.2⟩

theorem normalizeNewlines_plain (cs : List Char) (h : ∀ c ∈ cs, c ≠ Char.ofNat 13) :
    normalizeNewlines cs = cs := by
  induction cs with
  | nil => rfl
  | cons c cs ih =>
    have hc : c ≠ Char.ofNat 13 := h c (List.mem_cons_self _ _)
    unfold normalizeNewlines
    simp only [hc, if_false]
    rw [ih (fun d hd => h d (List.mem_cons_of_mem _ hd))]

theorem decodeValue_plain (cs : List Char) (h : ∀ c ∈ cs, isPlainChar c = true) :
    decodeValue cs = some cs := by
  induction cs with
  | nil => rfl
  | cons c cs ih =>
    obtain ⟨_, hamp, _, _⟩ := plain_ne c (h c (List.mem_cons_self _ _))
    unfold decodeValue
    simp only [hamp, if_false]
    rw [ih (fun d hd => h d (List.mem_cons_of_mem _ hd))]
    rfl

theorem markup_toList (url index : String) :
    (markup url index).toList =
      "<event-source src=\"".toList ++ (url.toList ++ ("\" id=\"".toList ++
        (index.toList ++ "\">".toList))) := by
  simp [markup, String.toList, String.data_append]

/-- A value of plain characters is read as it is written. -/
theorem literal_of_plain (s : String) (h : ∀ c ∈ s.toList, isPlainChar c = true) :
    isLiteralValue s = true := by
  simp only [isLiteralValue, Bool.and_eq_true, List.all_eq_true, Bool.not_eq_true',
    Bool.or_eq_false_iff, beq_eq_false_iff_ne, ne_eq, beq_iff_eq]
  refine ⟨fun c hc => ?_, decodeValue_plain _ h⟩
  obtain ⟨h1, _, h3, h4⟩ := plain_ne c (h c hc)
  exact ⟨⟨h1, h3⟩, h4⟩

/-- The tokenizer reads the markup that `open` writes as one `event-source`
element with the URL as its `src` and the identity as its `id`, when it reads
both as they are written. -/
theorem parseStartTag_markup (url index : String)
    (hurl : isLiteralValue url = true) (hindex : isLiteralValue index = true) :
    parseStartTag (markup url index) =
      some ("event-source", [("src", url), ("id", index)]) := by
  obtain ⟨hu, hud⟩ := literal_ne url hurl
  obtain ⟨hi, hid⟩ := literal_ne index hindex
  unfold parseStartTag
  have hnorm : normalizeNewlines (markup url index).toList = (markup url index).toList := by
    apply normalizeNewlines_plain
    intro c hc
    rw [markup_toList] at hc
    simp only [List.mem_append] at hc
    rcases hc with hc | hc | hc | hc | hc
    · revert c; decide
    · exact (hu c hc).2.2
    · revert c; decide
    · exact (hi c hc).2.2
    · revert c; decide
  rw [hnorm, markup_toList, run_append]
  have h1 : Tokenizer.run Tokenizer.init "<event-source src=\"".toList =
      some { state := .attributeValue, tag := "event-source".toList, attrs := [],
             name := "src".toList, value := [] } := by decide
  rw [h1, Option.some_bind, run_append,
    run_value _ _ rfl (fun c hc => ⟨(hu c hc).1, (hu c hc).2.1⟩), Option.some_bind, run_append]
  have h2 : Tokenizer.run
      { state := .attributeValue, tag := "event-source".toList, attrs := [],
        name := "src".toList, value := [] ++ url.toList } "\" id=\"".toList =
      some { state := .attributeValue, tag := "event-source".toList,
             attrs := [("src", url)], name := "id".toList, value := [] } := by
    simp only [List.nil_append]
    show (match Tokenizer.step _ dquote with
      | none => none
      | some u => Tokenizer.run u " id=\"".toList) = _
    simp only [Tokenizer.step, hud]
    rfl
  rw [h2, Option.some_bind, run_append,
    run_value _ _ rfl (fun c hc => ⟨(hi c hc).1, (hi c hc).2.1⟩), Option.some_bind]
  have h3 : Tokenizer.run
      { state := .attributeValue, tag := "event-source".toList,
        attrs := [("src", url)], name := "id".toList, value := [] ++ index.toList }
        "\">".toList =
      some { state := .emitted, tag := "event-source".toList,
             attrs := [("src", url), ("id", index)], name := "id".toList,
             value := [] ++ index.toList } := by
    simp only [List.nil_append]
    show (match Tokenizer.step _ dquote with
      | none => none
      | some u => Tokenizer.run u ">".toList) = _
    simp only [Tokenizer.step, hid]
    rfl
  rw [h3]
  rfl

/-- A parser that reads start tags as the tokenizer does reads the markup of
`open` as one `event-source` element with the URL and the identity. -/
theorem parse_markup (parse : String → Forest) (hreads : ReadsStartTags parse)
    (url index : String)
    (hurl : isLiteralValue url = true) (hindex : isLiteralValue index = true) :
    ∃ n, parse (markup url index) =
      .node n "event-source" [("src", url), ("id", index)] .nil .nil :=
  hreads _ _ (parseStartTag_markup url index hurl hindex)

theorem startTagParser_reads : ReadsStartTags startTagParser := by
  intro s attrs h
  exact ⟨0, by simp [startTagParser, h]⟩

/-! ### The document -/

namespace Forest

theorem nids_append (f g : Forest) : (append f g).nids = f.nids ++ g.nids := by
  induction f with
  | nil => rfl
  | node n t a k r _ ihr => simp [append, nids, ihr]

theorem roots_append (f g : Forest) : (append f g).roots = f.roots ++ g.roots := by
  induction f with
  | nil => rfl
  | node n t a k r _ ihr => simp [append, roots, ihr]

theorem roots_subset_nids (f : Forest) : ∀ x ∈ f.roots, x ∈ f.nids := by
  induction f with
  | nil => intro x hx; cases hx
  | node n t a k r _ ihr =>
    intro x hx
    simp only [roots, List.mem_cons] at hx
    simp only [nids, List.mem_cons, List.mem_append]
    rcases hx with rfl | hx
    · exact Or.inl rfl
    · exact Or.inr (Or.inr (ihr x hx))

theorem withId_append (v : String) (f g : Forest) :
    (append f g).withId v = f.withId v ++ g.withId v := by
  induction f with
  | nil => rfl
  | node n t a k r _ ihr => simp [append, withId, ihr]

theorem getElementById_append (v : String) (f g : Forest) :
    (append f g).getElementById v =
      match f.getElementById v with
      | some m => some m
      | none => g.getElementById v := by
  induction f with
  | nil => rfl
  | node n t a k r _ ihr =>
    simp only [append, getElementById]
    split
    · rfl
    · cases hk : getElementById v k with
      | some m => rfl
      | none => simpa using ihr

theorem getElementById_none (v : String) (f : Forest) (h : f.withId v = []) :
    f.getElementById v = none := by
  induction f with
  | nil => rfl
  | node n t a k r ihk ihr =>
    simp only [withId, List.append_eq_nil] at h
    obtain ⟨h1, h2, h3⟩ := h
    have ha : ¬ a.lookup "id" = some v := by
      intro ha
      simp [ha] at h1
    simp [getElementById, ha, ihk h2, ihr h3]

theorem parentIn_none (c : Nat) (f : Forest) (h : c ∉ f.nids) : f.parentIn c = none := by
  induction f with
  | nil => rfl
  | node n t a k r ihk ihr =>
    simp only [nids, List.mem_cons, List.mem_append, not_or] at h
    obtain ⟨_, h2, h3⟩ := h
    have hroot : c ∉ k.roots := fun hr => h2 (roots_subset_nids k c hr)
    simp [parentIn, hroot, ihk h2, ihr h3]

theorem parentIn_append (c : Nat) (f g : Forest) (h : c ∉ f.nids) :
    (append f g).parentIn c = g.parentIn c := by
  induction f with
  | nil => rfl
  | node n t a k r _ ihr =>
    simp only [nids, List.mem_cons, List.mem_append, not_or] at h
    obtain ⟨_, h2, h3⟩ := h
    have hroot : c ∉ k.roots := fun hr => h2 (roots_subset_nids k c hr)
    simp [append, parentIn, hroot, parentIn_none c k h2, ihr h3]

theorem dropRoot_append (c : Nat) (t : String) (a : List (String × String)) (ks f : Forest)
    (h : c ∉ f.roots) : dropRoot c (append f (node c t a ks nil)) = f := by
  induction f with
  | nil => simp [append, dropRoot]
  | node n t' a' k r _ ihr =>
    simp only [roots, List.mem_cons, not_or] at h
    obtain ⟨h1, h2⟩ := h
    have hn : ¬ n = c := fun e => h1 e.symm
    simp [append, dropRoot, hn, ihr h2]

theorem appendTo_of_not_mem (p : Nat) (c f : Forest) (h : p ∉ f.nids) :
    f.appendTo p c = f := by
  induction f with
  | nil => rfl
  | node n t a k r ihk ihr =>
    simp only [nids, List.mem_cons, List.mem_append, not_or] at h
    obtain ⟨h1, h2, h3⟩ := h
    have hn : ¬ n = p := fun e => h1 e.symm
    simp [appendTo, hn, ihk h2, ihr h3]

theorem setKids_of_not_mem (p : Nat) (ks f : Forest) (h : p ∉ f.nids) :
    f.setKids p ks = f := by
  induction f with
  | nil => rfl
  | node n t a k r ihk ihr =>
    simp only [nids, List.mem_cons, List.mem_append, not_or] at h
    obtain ⟨h1, h2, h3⟩ := h
    have hn : ¬ n = p := fun e => h1 e.symm
    simp [setKids, hn, ihk h2, ihr h3]

theorem roots_appendTo (p : Nat) (c f : Forest) : (f.appendTo p c).roots = f.roots := by
  induction f with
  | nil => rfl
  | node n t a k r _ ihr =>
    simp only [appendTo]
    split <;> simp [roots, ihr]

theorem setKids_append (c : Nat) (t : String) (a : List (String × String))
    (k0 ks f : Forest) (h : c ∉ f.nids) :
    (append f (node c t a k0 nil)).setKids c ks = append f (node c t a ks nil) := by
  induction f with
  | nil => simp [append, setKids]
  | node n t' a' k r _ ihr =>
    simp only [nids, List.mem_cons, List.mem_append, not_or] at h
    obtain ⟨h1, h2, h3⟩ := h
    have hn : ¬ n = c := fun e => h1 e.symm
    simp [append, setKids, hn, setKids_of_not_mem c ks k h2, ihr h3]

theorem setKids_appendTo (p c : Nat) (t : String) (a : List (String × String))
    (k0 ks f : Forest) (h : c ∉ f.nids) :
    (f.appendTo p (node c t a k0 nil)).setKids c ks = f.appendTo p (node c t a ks nil) := by
  induction f with
  | nil => rfl
  | node n t' a' k r ihk ihr =>
    simp only [nids, List.mem_cons, List.mem_append, not_or] at h
    obtain ⟨h1, h2, h3⟩ := h
    have hn : ¬ n = c := fun e => h1 e.symm
    by_cases hp : n = p
    · simp [appendTo, setKids, hp, hn, setKids_append c t a k0 ks k h2,
        setKids_of_not_mem c ks r h3]
      intro e
      exact absurd (hp.trans e) hn
    · simp [appendTo, setKids, hp, hn, ihk h2, ihr h3]

theorem removeFrom_appendTo (p c : Nat) (t : String) (a : List (String × String))
    (ks f : Forest) (h : c ∉ f.nids) :
    (f.appendTo p (node c t a ks nil)).removeFrom p c = f := by
  induction f with
  | nil => rfl
  | node n t' a' k r ihk ihr =>
    simp only [nids, List.mem_cons, List.mem_append, not_or] at h
    obtain ⟨_, h2, h3⟩ := h
    have hroot : c ∉ k.roots := fun hr => h2 (roots_subset_nids k c hr)
    by_cases hp : n = p
    · simp [appendTo, removeFrom, hp, dropRoot_append c t a ks k hroot]
    · simp [appendTo, removeFrom, hp, ihk h2, ihr h3]

theorem parentIn_appendTo_child (p c : Nat) (t : String) (a : List (String × String))
    (ks f : Forest) (hp : p ∈ f.nids) (h : c ∉ f.nids) :
    (f.appendTo p (node c t a ks nil)).parentIn c = some p := by
  induction f with
  | nil => cases hp
  | node n t' a' k r ihk ihr =>
    simp only [nids, List.mem_cons, List.mem_append, not_or] at h
    obtain ⟨_, h2, h3⟩ := h
    have hroot : c ∉ k.roots := fun hr => h2 (roots_subset_nids k c hr)
    by_cases hn : n = p
    · simp [appendTo, parentIn, hn, roots_append, roots]
    · have hp2 : p ∈ k.nids ∨ p ∈ r.nids := by
        simp only [nids, List.mem_cons, List.mem_append] at hp
        rcases hp with e | e
        · exact absurd e.symm hn
        · exact e
      simp only [appendTo, hn, if_false, parentIn, roots_appendTo, hroot]
      by_cases hpk : p ∈ k.nids
      · rw [ihk hpk h2]
      · have hpr : p ∈ r.nids := hp2.resolve_left hpk
        rw [appendTo_of_not_mem p _ k hpk, parentIn_none c k h2, ihr hpr h3]

theorem parentIn_appendTo_grandchild (p c e : Nat) (t t' : String)
    (a a' : List (String × String)) (f : Forest) (hp : p ∈ f.nids) (h : e ∉ f.nids)
    (hne : e ≠ c) :
    (f.appendTo p (node c t a (node e t' a' nil nil) nil)).parentIn e = some c := by
  induction f with
  | nil => cases hp
  | node n t0 a0 k r ihk ihr =>
    simp only [nids, List.mem_cons, List.mem_append, not_or] at h
    obtain ⟨_, h2, h3⟩ := h
    have hroot : e ∉ k.roots := fun hr => h2 (roots_subset_nids k e hr)
    by_cases hn : n = p
    · simp [appendTo, parentIn, hn, roots_append, roots, hroot, hne, parentIn_append e k _ h2]
    · have hp2 : p ∈ k.nids ∨ p ∈ r.nids := by
        simp only [nids, List.mem_cons, List.mem_append] at hp
        rcases hp with e | e
        · exact absurd e.symm hn
        · exact e
      simp only [appendTo, hn, if_false, parentIn, roots_appendTo, hroot]
      by_cases hpk : p ∈ k.nids
      · rw [ihk hpk h2]
      · have hpr : p ∈ r.nids := hp2.resolve_left hpk
        rw [appendTo_of_not_mem p _ k hpk, parentIn_none e k h2, ihr hpr h3]

theorem getElementById_appendTo (v : String) (p c e : Nat) (t : String)
    (a : List (String × String)) (f : Forest) (hp : p ∈ f.nids) (hnone : f.withId v = [])
    (ha : a.lookup "id" = some v) :
    (f.appendTo p (node c "div" [] (node e t a nil nil) nil)).getElementById v = some e := by
  induction f with
  | nil => cases hp
  | node n t0 a0 k r ihk ihr =>
    simp only [withId, List.append_eq_nil] at hnone
    obtain ⟨h1, h2, h3⟩ := hnone
    have ha0 : ¬ a0.lookup "id" = some v := by
      intro ha0
      simp [ha0] at h1
    by_cases hn : n = p
    · simp [appendTo, getElementById, hn, ha0, getElementById_append,
        getElementById_none v k h2, ha]
    · have hp2 : p ∈ k.nids ∨ p ∈ r.nids := by
        simp only [nids, List.mem_cons, List.mem_append] at hp
        rcases hp with e | e
        · exact absurd e.symm hn
        · exact e
      simp only [appendTo, hn, if_false, getElementById, ha0]
      by_cases hpk : p ∈ k.nids
      · rw [ihk hpk h2]
      · have hpr : p ∈ r.nids := hp2.resolve_left hpk
        rw [appendTo_of_not_mem p _ k hpk, getElementById_none v k h2, ihr hpr h3]

theorem firstBody_mem_roots (f : Forest) (b : Nat) (h : f.firstBody = some b) :
    b ∈ f.roots := by
  induction f with
  | nil => cases h
  | node n t a k r _ ihr =>
    simp only [firstBody] at h
    split at h
    · simp only [Option.some.injEq] at h
      simp [roots, h]
    · simp [roots, ihr h]

theorem body_mem_nids (f : Forest) (b : Nat) (h : f.body = some b) : b ∈ f.nids := by
  cases f with
  | nil => cases h
  | node n t a k r =>
    simp only [body] at h
    split at h
    · simp only [nids, List.mem_cons, List.mem_append]
      exact Or.inr (Or.inl (roots_subset_nids k b (firstBody_mem_roots k b h)))
    · cases h

theorem documentElement_mem_nids (f : Forest) (d : Nat) (h : f.documentElement = some d) :
    d ∈ f.nids := by
  cases f with
  | nil => cases h
  | node n t a k r =>
    simp only [documentElement, Option.some.injEq] at h
    simp [nids, h]

theorem target_mem_nids (f : Forest) (p : Nat)
    (h : (f.body).orElse (fun _ => f.documentElement) = some p) : p ∈ f.nids := by
  cases hb : f.body with
  | some b =>
    rw [hb] at h
    simp only [Option.orElse, Option.some.injEq] at h
    subst h
    exact body_mem_nids f b hb
  | none =>
    rw [hb] at h
    exact documentElement_mem_nids f p h

theorem target_of_ne_nil (f : Forest) (h : f ≠ nil) :
    ∃ p, (f.body).orElse (fun _ => f.documentElement) = some p := by
  cases f with
  | nil => exact absurd rfl h
  | node n t a k r =>
    cases hb : (node n t a k r).body with
    | some b => exact ⟨b, rfl⟩
    | none => exact ⟨n, rfl⟩

theorem withId_appendTo (v : String) (p : Nat) (c f : Forest) (hp : p ∈ f.nids)
    (hnd : f.nids.Nodup) (hnone : f.withId v = []) :
    (f.appendTo p c).withId v = c.withId v := by
  induction f with
  | nil => cases hp
  | node n t a k r ihk ihr =>
    simp only [withId, List.append_eq_nil] at hnone
    obtain ⟨h1, h2, h3⟩ := hnone
    simp only [nids, List.nodup_cons, List.mem_append, not_or, List.nodup_append] at hnd
    obtain ⟨⟨hnk, hnr⟩, hdk, hdr, hdis⟩ := hnd
    by_cases hn : n = p
    · simp only [appendTo, hn, if_true, withId, withId_append, h2, h3]
      rw [← hn, h1]
      simp
    · have hp2 : p ∈ k.nids ∨ p ∈ r.nids := by
        simp only [nids, List.mem_cons, List.mem_append] at hp
        rcases hp with e | e
        · exact absurd e.symm hn
        · exact e
      simp only [appendTo, hn, if_false, withId, h1, List.nil_append]
      rcases hp2 with hpk | hpr
      · have hpr : p ∉ r.nids := fun hpr => hdis hpk hpr
        rw [ihk hpk hdk h2, appendTo_of_not_mem p c r hpr, h3, List.append_nil]
      · have hpk : p ∉ k.nids := fun hpk => hdis hpk hpr
        rw [ihr hpr hdr h3, appendTo_of_not_mem p c k hpk, h2, List.nil_append]

theorem count_nids_appendTo (x p : Nat) (c f : Forest) (hp : p ∈ f.nids)
    (hnd : f.nids.Nodup) :
    (f.appendTo p c).nids.count x = f.nids.count x + c.nids.count x := by
  induction f with
  | nil => cases hp
  | node n t a k r ihk ihr =>
    simp only [nids, List.nodup_cons, List.mem_append, not_or, List.nodup_append] at hnd
    obtain ⟨⟨hnk, hnr⟩, hdk, hdr, hdis⟩ := hnd
    by_cases hn : n = p
    · simp only [appendTo, hn, if_true, nids, nids_append, List.count_cons, List.count_append]
      omega
    · have hp2 : p ∈ k.nids ∨ p ∈ r.nids := by
        simp only [nids, List.mem_cons, List.mem_append] at hp
        rcases hp with e | e
        · exact absurd e.symm hn
        · exact e
      simp only [appendTo, hn, if_false, nids, List.count_cons, List.count_append]
      rcases hp2 with hpk | hpr
      · have hpr : p ∉ r.nids := fun hpr => hdis hpk hpr
        rw [ihk hpk hdk, appendTo_of_not_mem p c r hpr]
        omega
      · have hpk : p ∉ k.nids := fun hpk => hdis hpk hpr
        rw [ihr hpr hdr, appendTo_of_not_mem p c k hpk]
        omega

theorem getElementById_mem (v : String) (f : Forest) (e : Nat)
    (h : f.getElementById v = some e) : e ∈ f.nids := by
  induction f with
  | nil => cases h
  | node n t a k r ihk ihr =>
    simp only [getElementById] at h
    simp only [nids, List.mem_cons, List.mem_append]
    split at h
    · simp only [Option.some.injEq] at h
      exact Or.inl h.symm
    · split at h
      · rename_i m hm
        simp only [Option.some.injEq] at h
        subst h
        exact Or.inr (Or.inl (ihk hm))
      · exact Or.inr (Or.inr (ihr h))

theorem nids_eq_map_nodes (f : Forest) : f.nids = f.nodes.map (fun x => x.nid) := by
  induction f with
  | nil => rfl
  | node n t a k r ihk ihr => simp [nids, nodes, ihk, ihr]

theorem nodes_append (f g : Forest) : (append f g).nodes = f.nodes ++ g.nodes := by
  induction f with
  | nil => rfl
  | node n t a k r _ ihr => simp [append, nodes, ihr]

theorem count_nodes_appendTo (x : Element) (p : Nat)
    (c f : Forest) (hp : p ∈ f.nids) (hnd : f.nids.Nodup) :
    (f.appendTo p c).nodes.count x = f.nodes.count x + c.nodes.count x := by
  induction f with
  | nil => cases hp
  | node n t a k r ihk ihr =>
    simp only [nids, List.nodup_cons, List.mem_append, not_or, List.nodup_append] at hnd
    obtain ⟨⟨hnk, hnr⟩, hdk, hdr, hdis⟩ := hnd
    by_cases hn : n = p
    · simp only [appendTo, hn, if_true, nodes, nodes_append, List.count_cons,
        List.count_append]
      omega
    · have hp2 : p ∈ k.nids ∨ p ∈ r.nids := by
        simp only [nids, List.mem_cons, List.mem_append] at hp
        rcases hp with e | e
        · exact absurd e.symm hn
        · exact e
      simp only [appendTo, hn, if_false, nodes, List.count_cons, List.count_append]
      rcases hp2 with hpk | hpr
      · have hpr : p ∉ r.nids := fun hpr => hdis hpk hpr
        rw [ihk hpk hdk, appendTo_of_not_mem p c r hpr]
        omega
      · have hpk : p ∉ k.nids := fun hpk => hdis hpk hpr
        rw [ihr hpr hdr, appendTo_of_not_mem p c k hpk]
        omega

theorem nodes_appendTo_perm (p : Nat) (c f : Forest) (hp : p ∈ f.nids)
    (hnd : f.nids.Nodup) : (f.appendTo p c).nodes.Perm (f.nodes ++ c.nodes) := by
  rw [List.perm_iff_count]
  intro x
  rw [count_nodes_appendTo x p c f hp hnd, List.count_append]

theorem nids_appendTo_perm (p : Nat) (c f : Forest) (hp : p ∈ f.nids)
    (hnd : f.nids.Nodup) : (f.appendTo p c).nids.Perm (f.nids ++ c.nids) := by
  rw [List.perm_iff_count]
  intro x
  rw [count_nids_appendTo x p c f hp hnd, List.count_append]

theorem parentIn_some_mem (c q : Nat) (f : Forest) (h : f.parentIn c = some q) :
    q ∈ f.nids ∧ c ∈ f.nids := by
  induction f with
  | nil => cases h
  | node n t a k r ihk ihr =>
    simp only [parentIn] at h
    simp only [nids, List.mem_cons, List.mem_append]
    split at h
    · rename_i hroot
      simp only [Option.some.injEq] at h
      exact ⟨Or.inl h.symm, Or.inr (Or.inl (roots_subset_nids k c hroot))⟩
    · split at h
      · rename_i p0 hp0
        simp only [Option.some.injEq] at h
        subst h
        exact ⟨Or.inr (Or.inl (ihk hp0).1), Or.inr (Or.inl (ihk hp0).2)⟩
      · exact ⟨Or.inr (Or.inr (ihr h).1), Or.inr (Or.inr (ihr h).2)⟩

theorem parentIn_of_mem_not_root (c : Nat) (f : Forest) (hmem : c ∈ f.nids)
    (hroot : c ∉ f.roots) : ∃ q, f.parentIn c = some q := by
  induction f with
  | nil => cases hmem
  | node n t a k r ihk ihr =>
    simp only [roots, List.mem_cons, not_or] at hroot
    simp only [nids, List.mem_cons, List.mem_append] at hmem
    simp only [parentIn]
    by_cases hk : c ∈ k.roots
    · exact ⟨n, by simp [hk]⟩
    · simp only [hk, if_false]
      rcases hmem with h | h | h
      · exact absurd h hroot.1
      · obtain ⟨q, hq⟩ := ihk h hk
        exact ⟨q, by simp [hq]⟩
      · obtain ⟨q, hq⟩ := ihr h hroot.2
        cases hpk : parentIn c k with
        | some p0 => exact ⟨p0, rfl⟩
        | none => exact ⟨q, hq⟩

theorem subtree_none (c : Nat) (f : Forest) (h : c ∉ f.nids) : f.subtree c = none := by
  induction f with
  | nil => rfl
  | node n t a k r ihk ihr =>
    simp only [nids, List.mem_cons, List.mem_append, not_or] at h
    obtain ⟨h1, h2, h3⟩ := h
    have hn : ¬ n = c := fun e => h1 e.symm
    simp [subtree, hn, ihk h2, ihr h3]

theorem removeFrom_of_not_mem (q c : Nat) (f : Forest) (h : q ∉ f.nids) :
    f.removeFrom q c = f := by
  induction f with
  | nil => rfl
  | node n t a k r ihk ihr =>
    simp only [nids, List.mem_cons, List.mem_append, not_or] at h
    obtain ⟨h1, h2, h3⟩ := h
    have hn : ¬ n = q := fun e => h1 e.symm
    simp [removeFrom, hn, ihk h2, ihr h3]

theorem dropRoot_of_not_mem (c : Nat) (f : Forest) (h : c ∉ f.roots) :
    f.dropRoot c = f := by
  induction f with
  | nil => rfl
  | node n t a k r _ ihr =>
    simp only [roots, List.mem_cons, not_or] at h
    have hn : ¬ n = c := fun e => h.1 e.symm
    simp [dropRoot, hn, ihr h.2]

theorem removeFrom_of_child_not_mem (q c : Nat) (f : Forest) (h : c ∉ f.nids) :
    f.removeFrom q c = f := by
  induction f with
  | nil => rfl
  | node n t a k r ihk ihr =>
    simp only [nids, List.mem_cons, List.mem_append, not_or] at h
    obtain ⟨_, h2, h3⟩ := h
    have hroot : c ∉ k.roots := fun hr => h2 (roots_subset_nids k c hr)
    simp only [removeFrom]
    split
    · rw [dropRoot_of_not_mem c k hroot]
    · rw [ihk h2, ihr h3]

theorem count_nodes_dropRoot (c : Nat) (f : Forest) (hc : c ∈ f.roots)
    (hnd : f.nids.Nodup) :
    ∃ s, f.subtree c = some s ∧
      ∀ x, f.nodes.count x = (f.dropRoot c).nodes.count x + s.nodes.count x := by
  induction f with
  | nil => cases hc
  | node n t a k r _ ihr =>
    simp only [nids, List.nodup_cons, List.mem_append, not_or, List.nodup_append] at hnd
    obtain ⟨⟨hnk, hnr⟩, hdk, hdr, hdis⟩ := hnd
    by_cases hn : n = c
    · refine ⟨node n t a k nil, by simp [subtree, hn], ?_⟩
      intro x
      simp only [dropRoot, hn, if_true, nodes, List.count_cons, List.count_append,
        List.count_nil]
      omega
    · have hcr : c ∈ r.roots := by
        simp only [roots, List.mem_cons] at hc
        rcases hc with e | e
        · exact absurd e.symm hn
        · exact e
      have hck : c ∉ k.nids := fun hck => hdis hck (roots_subset_nids r c hcr)
      obtain ⟨s, hs, hcount⟩ := ihr hcr hdr
      refine ⟨s, by simp [subtree, hn, subtree_none c k hck, hs], ?_⟩
      intro x
      simp only [dropRoot, hn, if_false, nodes, List.count_cons, List.count_append]
      have := hcount x
      omega

theorem count_nodes_removeFrom (q c : Nat) (f : Forest) (hq : f.parentIn c = some q)
    (hnd : f.nids.Nodup) :
    ∃ s, f.subtree c = some s ∧
      ∀ x, f.nodes.count x = (f.removeFrom q c).nodes.count x + s.nodes.count x := by
  induction f with
  | nil => cases hq
  | node n t a k r ihk ihr =>
    simp only [nids, List.nodup_cons, List.mem_append, not_or, List.nodup_append] at hnd
    obtain ⟨⟨hnk, hnr⟩, hdk, hdr, hdis⟩ := hnd
    simp only [parentIn] at hq
    split at hq
    · rename_i hroot
      simp only [Option.some.injEq] at hq
      have hck : c ∈ k.nids := roots_subset_nids k c hroot
      have hn : ¬ n = c := fun e => hnk (e ▸ hck)
      obtain ⟨s, hs, hcount⟩ := count_nodes_dropRoot c k hroot hdk
      refine ⟨s, by simp [subtree, hn, hs], ?_⟩
      intro x
      simp only [removeFrom, hq, if_true, nodes, List.count_cons, List.count_append]
      have := hcount x
      omega
    · split at hq
      · rename_i p0 hp0
        simp only [Option.some.injEq] at hq
        subst hq
        obtain ⟨hpk, hck⟩ := parentIn_some_mem c p0 k hp0
        have hn : ¬ n = c := fun e => hnk (e ▸ hck)
        have hnp : ¬ n = p0 := fun e => hnk (e ▸ hpk)
        have hpr : p0 ∉ r.nids := fun h => hdis hpk h
        obtain ⟨s, hs, hcount⟩ := ihk hp0 hdk
        refine ⟨s, by simp [subtree, hn, hs], ?_⟩
        intro x
        simp only [removeFrom, hnp, if_false, nodes, List.count_cons, List.count_append,
          removeFrom_of_not_mem p0 c r hpr]
        have := hcount x
        omega
      · obtain ⟨hqr, hcr⟩ := parentIn_some_mem c q r hq
        have hn : ¬ n = c := fun e => hnr (e ▸ hcr)
        have hnq : ¬ n = q := fun e => hnr (e ▸ hqr)
        have hqk : q ∉ k.nids := fun h => hdis h hqr
        have hck : c ∉ k.nids := fun h => hdis h hcr
        obtain ⟨s, hs, hcount⟩ := ihr hq hdr
        refine ⟨s, by simp [subtree, hn, subtree_none c k hck, hs], ?_⟩
        intro x
        simp only [removeFrom, hnq, if_false, nodes, List.count_cons, List.count_append,
          removeFrom_of_not_mem q c k hqk]
        have := hcount x
        omega

theorem nodes_dropRoot_perm (c : Nat) (f : Forest) (hc : c ∈ f.roots) (hnd : f.nids.Nodup) :
    ∃ s, f.subtree c = some s ∧ f.nodes.Perm ((f.dropRoot c).nodes ++ s.nodes) := by
  obtain ⟨s, hs, hcount⟩ := count_nodes_dropRoot c f hc hnd
  refine ⟨s, hs, ?_⟩
  rw [List.perm_iff_count]
  intro x
  rw [hcount x, List.count_append]

theorem nodes_removeFrom_perm (q c : Nat) (f : Forest) (hq : f.parentIn c = some q)
    (hnd : f.nids.Nodup) :
    ∃ s, f.subtree c = some s ∧ f.nodes.Perm ((f.removeFrom q c).nodes ++ s.nodes) := by
  obtain ⟨s, hs, hcount⟩ := count_nodes_removeFrom q c f hq hnd
  refine ⟨s, hs, ?_⟩
  rw [List.perm_iff_count]
  intro x
  rw [hcount x, List.count_append]

theorem nids_perm_of_nodes {l : List Element} {f g : Forest} (h : l.Perm (f.nodes ++ g.nodes)) :
    (l.map (fun x => x.nid)).Perm (f.nids ++ g.nids) := by
  rw [nids_eq_map_nodes f, nids_eq_map_nodes g, ← List.map_append]
  exact h.map _

theorem child_mem_subtree (e c : Nat) (f : Forest) (h : f.parentIn e = some c)
    (hnd : f.nids.Nodup) : ∃ s, f.subtree c = some s ∧ e ∈ s.nids := by
  induction f with
  | nil => cases h
  | node n t a k r ihk ihr =>
    simp only [nids, List.nodup_cons, List.mem_append, not_or, List.nodup_append] at hnd
    obtain ⟨⟨hnk, hnr⟩, hdk, hdr, hdis⟩ := hnd
    simp only [parentIn] at h
    split at h
    · rename_i hroot
      simp only [Option.some.injEq] at h
      refine ⟨node n t a k nil, by simp [subtree, h], ?_⟩
      simp only [nids, List.mem_cons, List.mem_append]
      exact Or.inr (Or.inl (roots_subset_nids k e hroot))
    · split at h
      · rename_i p0 hp0
        simp only [Option.some.injEq] at h
        subst h
        obtain ⟨hpk, _⟩ := parentIn_some_mem e p0 k hp0
        have hn : ¬ n = p0 := fun e' => hnk (e' ▸ hpk)
        obtain ⟨s, hs, hmem⟩ := ihk hp0 hdk
        exact ⟨s, by simp [subtree, hn, hs], hmem⟩
      · obtain ⟨hcr, _⟩ := parentIn_some_mem e c r h
        have hn : ¬ n = c := fun e' => hnr (e' ▸ hcr)
        have hck : c ∉ k.nids := fun h' => hdis h' hcr
        obtain ⟨s, hs, hmem⟩ := ihr h hdr
        exact ⟨s, by simp [subtree, hn, subtree_none c k hck, hs], hmem⟩

theorem size_relabel (f : Forest) : ∀ s, (f.relabel s).size = f.size := by
  induction f with
  | nil => intro s; rfl
  | node n t a k r ihk ihr => intro s; simp [relabel, size, ihk, ihr]

theorem nids_relabel (f : Forest) : ∀ s, (f.relabel s).nids = List.range' s f.size := by
  induction f with
  | nil => intro s; rfl
  | node n t a k r ihk ihr =>
    intro s
    simp only [relabel, nids, size, ihk, ihr]
    rw [List.range'_append_1]
    have : 1 + k.size + r.size = (r.size + k.size) + 1 := by omega
    rw [this, List.range'_succ]

theorem getElementById_nodes (v : String) (f : Forest) (e : Nat)
    (h : f.getElementById v = some e) :
    ∃ x ∈ f.nodes, x.nid = e ∧ x.attrs.lookup "id" = some v := by
  induction f with
  | nil => cases h
  | node n t a k r ihk ihr =>
    simp only [getElementById] at h
    simp only [nodes, List.mem_cons, List.mem_append]
    split at h
    · rename_i hid
      simp only [Option.some.injEq] at h
      subst h
      exact ⟨⟨n, t, a⟩, Or.inl rfl, rfl, hid⟩
    · split at h
      · rename_i m hm
        simp only [Option.some.injEq] at h
        subst h
        obtain ⟨x, hmem, hx⟩ := ihk hm
        exact ⟨x, Or.inr (Or.inl hmem), hx⟩
      · obtain ⟨x, hmem, hx⟩ := ihr h
        exact ⟨x, Or.inr (Or.inr hmem), hx⟩

theorem tagOf_none (e : Nat) (f : Forest) (h : e ∉ f.nids) : f.tagOf e = none := by
  induction f with
  | nil => rfl
  | node n t a k r ihk ihr =>
    simp only [nids, List.mem_cons, List.mem_append, not_or] at h
    obtain ⟨h1, h2, h3⟩ := h
    have hn : ¬ n = e := fun e' => h1 e'.symm
    simp [tagOf, hn, ihk h2, ihr h3]

theorem tagOf_append (e : Nat) (f g : Forest) (h : e ∉ f.nids) :
    (append f g).tagOf e = g.tagOf e := by
  induction f with
  | nil => rfl
  | node n t a k r _ ihr =>
    simp only [nids, List.mem_cons, List.mem_append, not_or] at h
    obtain ⟨h1, h2, h3⟩ := h
    have hn : ¬ n = e := fun e' => h1 e'.symm
    simp [append, tagOf, hn, tagOf_none e k h2, ihr h3]

theorem tagOf_appendTo_grandchild (p c e : Nat) (t t' : String)
    (a a' : List (String × String)) (f : Forest) (hp : p ∈ f.nids) (h : e ∉ f.nids)
    (hne : e ≠ c) :
    (f.appendTo p (node c t a (node e t' a' nil nil) nil)).tagOf e = some t' := by
  induction f with
  | nil => cases hp
  | node n t0 a0 k r ihk ihr =>
    simp only [nids, List.mem_cons, List.mem_append, not_or] at h
    obtain ⟨h1, h2, h3⟩ := h
    have hne0 : ¬ n = e := fun e' => h1 e'.symm
    have hce : ¬ c = e := fun e' => hne e'.symm
    by_cases hn : n = p
    · simp [appendTo, tagOf, hn, tagOf_append e k _ h2, hce]
      intro hpe
      exact absurd (hn.trans hpe) hne0
    · have hp2 : p ∈ k.nids ∨ p ∈ r.nids := by
        simp only [nids, List.mem_cons, List.mem_append] at hp
        rcases hp with e' | e'
        · exact absurd e'.symm hn
        · exact e'
      simp only [appendTo, hn, if_false, tagOf, hne0]
      by_cases hpk : p ∈ k.nids
      · rw [ihk hpk h2]
      · have hpr : p ∈ r.nids := hp2.resolve_left hpk
        rw [appendTo_of_not_mem p _ k hpk, tagOf_none e k h2, ihr hpr h3]

end Forest

theorem nodes_unique (l : List Element) (hnd : (l.map (fun x => x.nid)).Nodup)
    (x y : Element) (hx : x ∈ l) (hy : y ∈ l) (hxy : x.nid = y.nid) : x = y := by
  induction l with
  | nil => cases hx
  | cons b l ih =>
    simp only [List.map_cons, List.nodup_cons, List.mem_map, not_exists, not_and] at hnd
    rcases List.mem_cons.mp hx with hx | hx <;> rcases List.mem_cons.mp hy with hy | hy
    · rw [hx, hy]
    · exact absurd (by rw [← hx, hxy]) (hnd.1 y hy)
    · exact absurd (by rw [← hy, hxy]) (hnd.1 x hx)
    · exact ih hnd.2 hx hy

/-! ### The cases of `open` -/

theorem has_of_get_func (win : Window) (name : String) (r : Nat)
    (h : win.get name = .func r) : win.has name = true := by
  unfold Window.get at h
  unfold Window.has
  cases hl : win.globals.lookup name with
  | none => rw [hl] at h; cases h
  | some v => rfl

/-- The state after `open` in native mode, when the constructor returns. -/
theorem open_native_accepted (host : Host) (w : World) (self : Nat) (t : Transport) (r : Nat)
    (hself : w.transports[self]? = some t) (hleg : w.legacy = false)
    (hfn : w.window.get "EventSource" = .func r)
    (hacc : host.accepts (ES.prepareUrl w t) = true) :
    ES.open host w self = (.returned self,
      ((({ w with
            next := w.next + 1,
            log := w.log ++ [Call.newEventSource w.next (ES.prepareUrl w t)] } : World
        ).setEventsource self (some (.native w.next))
        ).setProperty (.native w.next) "message" (.relayData self)
        ).setProperty (.native w.next) "error" (.relayError self)) := by
  unfold ES.open
  simp only [hself, hleg, has_of_get_func _ _ _ hfn, hfn, hacc, Bool.not_false, Bool.not_true,
    if_true, Bool.false_eq_true, if_false]

/-- The state after `open` in native mode, when the constructor throws. -/
theorem open_native_rejected (host : Host) (w : World) (self : Nat) (t : Transport) (r : Nat)
    (hself : w.transports[self]? = some t) (hleg : w.legacy = false)
    (hfn : w.window.get "EventSource" = .func r)
    (hacc : host.accepts (ES.prepareUrl w t) = false) :
    ES.open host w self = (.threw .syntaxError,
      { w with log := w.log ++ [Call.newEventSource w.next (ES.prepareUrl w t)] }) := by
  unfold ES.open
  simp only [hself, hleg, has_of_get_func _ _ _ hfn, hfn, hacc, Bool.not_false, Bool.not_true,
    if_true, Bool.false_eq_true, if_false]

/-- The state after `open` in legacy mode on a document without elements. -/
theorem open_legacy_no_target (host : Host) (w : World) (self : Nat) (t : Transport)
    (hself : w.transports[self]? = some t) (hleg : w.legacy = true)
    (htarget : (w.doc.body).orElse (fun _ => w.doc.documentElement) = none) :
    ES.open host w self = (.threw .typeError, { w with next := w.next + 1 }) := by
  unfold ES.open
  simp only [hself, hleg, Bool.not_true, Bool.false_eq_true, if_false, htarget]

/-- The state after `open` in legacy mode when no element bears the identity. -/
theorem open_legacy_not_found (host : Host) (w : World) (self : Nat) (t : Transport) (p : Nat)
    (hself : w.transports[self]? = some t) (hleg : w.legacy = true)
    (htarget : (w.doc.body).orElse (fun _ => w.doc.documentElement) = some p)
    (hfound : ((w.doc.appendTo p (.node w.next "div" [] .nil .nil)).setKids w.next
      ((host.parse (markup (ES.prepareUrl w t) t.index)).relabel (w.next + 1))).getElementById
        t.index = none) :
    ES.open host w self = (.threw .typeError,
      ({ w with
          next := w.next + 1 +
            ((host.parse (markup (ES.prepareUrl w t) t.index)).relabel (w.next + 1)).size,
          doc := (w.doc.appendTo p (.node w.next "div" [] .nil .nil)).setKids w.next
            ((host.parse (markup (ES.prepareUrl w t) t.index)).relabel (w.next + 1)) } : World
        ).setEventsource self none) := by
  unfold ES.open
  simp only [hself, hleg, Bool.not_true, Bool.false_eq_true, if_false, htarget, hfound,
    Option.map_none']

/-- The state after `open` in legacy mode when an element bears the identity. -/
theorem open_legacy_found (host : Host) (w : World) (self : Nat) (t : Transport) (p e : Nat)
    (hself : w.transports[self]? = some t) (hleg : w.legacy = true)
    (htarget : (w.doc.body).orElse (fun _ => w.doc.documentElement) = some p)
    (hfound : ((w.doc.appendTo p (.node w.next "div" [] .nil .nil)).setKids w.next
      ((host.parse (markup (ES.prepareUrl w t) t.index)).relabel (w.next + 1))).getElementById
        t.index = some e) :
    ES.open host w self = (.returned self,
      ((({ w with
            next := w.next + 1 +
              ((host.parse (markup (ES.prepareUrl w t) t.index)).relabel (w.next + 1)).size,
            doc := (w.doc.appendTo p (.node w.next "div" [] .nil .nil)).setKids w.next
              ((host.parse (markup (ES.prepareUrl w t) t.index)).relabel (w.next + 1)) } : World
        ).setEventsource self (some (.element e))
        ).addEventListener (.element e) "io" (.relayData self)
        ).setProperty (.element e) "error" (.relayError self)) := by
  unfold ES.open
  simp only [hself, hleg, Bool.not_true, Bool.false_eq_true, if_false, htarget, hfound,
    Option.map_some']

/-! ### What the methods leave as it is -/

/-- The state after `open`, whatever its outcome: the module variables, the
host's `window` and the detached subtrees are as before; the instances are as
before but for the handle of `self`; the handlers are as before, or have
gained the handlers of one of the two modes. -/
theorem open_shape (host : Host) (w : World) (self : Nat) :
    (ES.open host w self).2.id = w.id ∧ (ES.open host w self).2.legacy = w.legacy ∧
    (ES.open host w self).2.window = w.window ∧
    (ES.open host w self).2.detached = w.detached ∧
    ((ES.open host w self).2.transports = w.transports ∨
      ∃ h, (ES.open host w self).2.transports =
        w.transports.modify (fun t => { t with eventsource := h }) self) ∧
    ((ES.open host w self).2.handlers = w.handlers ∨
      (∃ h, (ES.open host w self).2.handlers =
        setHandler (setHandler w.handlers h "message" (.relayData self)) h "error"
          (.relayError self)) ∨
      (∃ h, (ES.open host w self).2.handlers =
        setHandler (w.handlers ++
          [{ target := h, type := "io", property := false, callback := .relayData self }])
          h "error" (.relayError self))) := by
  unfold ES.open
  split
  · exact ⟨rfl, rfl, rfl, rfl, Or.inl rfl, Or.inl rfl⟩
  · dsimp only
    split
    · split
      · exact ⟨rfl, rfl, rfl, rfl, Or.inl rfl, Or.inl rfl⟩
      · split
        · split
          · exact ⟨rfl, rfl, rfl, rfl, Or.inr ⟨_, rfl⟩, Or.inr (Or.inl ⟨_, rfl⟩)⟩
          · exact ⟨rfl, rfl, rfl, rfl, Or.inl rfl, Or.inl rfl⟩
        · exact ⟨rfl, rfl, rfl, rfl, Or.inl rfl, Or.inl rfl⟩
    · split
      · exact ⟨rfl, rfl, rfl, rfl, Or.inl rfl, Or.inl rfl⟩
      · split
        · exact ⟨rfl, rfl, rfl, rfl, Or.inr ⟨_, rfl⟩, Or.inl rfl⟩
        · exact ⟨rfl, rfl, rfl, rfl, Or.inr ⟨_, rfl⟩, Or.inr (Or.inr ⟨_, rfl⟩)⟩

/-- The state after `close`, whatever its outcome. -/
theorem close_shape (host : Host) (w : World) (self : Nat) :
    (ES.close host w self).2.id = w.id ∧ (ES.close host w self).2.legacy = w.legacy ∧
    (ES.close host w self).2.window = w.window ∧
    (ES.close host w self).2.transports = w.transports ∧
    (ES.close host w self).2.handlers = w.handlers ∧
    (ES.close host w self).2.next = w.next := by
  unfold ES.close
  split
  · exact ⟨rfl, rfl, rfl, rfl, rfl, rfl⟩
  · split
    · exact ⟨rfl, rfl, rfl, rfl, rfl, rfl⟩
    · dsimp only
      split
      · exact ⟨rfl, rfl, rfl, rfl, rfl, rfl⟩
      · split
        · exact ⟨rfl, rfl, rfl, rfl, rfl, rfl⟩
        · exact ⟨rfl, rfl, rfl, rfl, rfl, rfl⟩
        · split
          · exact ⟨rfl, rfl, rfl, rfl, rfl, rfl⟩
          · simp

theorem invoke_shape (w : World) (ev : Event) (cb : Callback) :
    ∃ calls, cb.invoke w ev = { w with log := w.log ++ calls } := by
  cases cb with
  | relayData self => exact ⟨_, rfl⟩
  | relayError self =>
    simp only [Callback.invoke]
    split
    · exact ⟨[], by simp⟩
    · exact ⟨_, rfl⟩

/-- An event changes the trace only. -/
theorem fire_shape (w : World) (g : Handle) (ev : Event) :
    ∃ calls, fire w g ev = { w with log := w.log ++ calls } := by
  unfold fire
  generalize handlersFor w.handlers g ev.type = regs
  induction regs generalizing w with
  | nil => exact ⟨[], by simp⟩
  | cons r rs ih =>
    obtain ⟨c1, h1⟩ := invoke_shape w ev r.callback
    simp only [List.foldl_cons, h1]
    obtain ⟨c2, h2⟩ := ih { w with log := w.log ++ c1 }
    exact ⟨c1 ++ c2, by rw [h2]; simp [List.append_assoc]⟩

/-! ### What `close` does -/

theorem removeChild_log_comm (w : World) (l : List Call) (p : NodeRef) (c : Nat) :
    ({ w with log := l } : World).removeChild p c = { w.removeChild p c with log := l } := by
  cases p <;> rfl

/-- The state after `close`, whatever its outcome: calls are added to the
trace, and the document changes by the removal that `close` makes, if it makes
one. -/
theorem close_state (host : Host) (w : World) (self : Nat) :
    ∃ calls, (ES.close host w self).2 =
      match ES.removal host w self with
      | none => { w with log := w.log ++ calls }
      | some (p, c) => { w.removeChild p c with log := w.log ++ calls } := by
  cases ht : w.transports[self]? with
  | none => exact ⟨[], by simp [ES.close, ES.removal, ht]⟩
  | some t =>
    cases hh : t.eventsource with
    | none => exact ⟨[.baseClose self], by simp [ES.close, ES.removal, ht, hh]⟩
    | some h =>
      cases hc : hasClose host w h with
      | false => exact ⟨[], by simp [ES.close, ES.removal, ht, hh, hc]⟩
      | true =>
        cases hw : w.parentOfHandle h with
        | none =>
          exact ⟨[.handleClose h, .baseClose self], by simp [ES.close, ES.removal, ht, hh, hc, hw]⟩
        | some q =>
          cases q with
          | document =>
            exact ⟨[.handleClose h], by simp [ES.close, ES.removal, ht, hh, hc, hw]⟩
          | element c =>
            have hpar : ({ w with log := w.log ++ [Call.handleClose h] } : World).parentOfElement c
                = w.parentOfElement c := rfl
            cases hp : w.parentOfElement c with
            | none =>
              exact ⟨[.handleClose h],
                by simp [ES.close, ES.removal, ht, hh, hc, hw, hpar, hp]⟩
            | some p =>
              exact ⟨[.handleClose h, .baseClose self],
                by simp [ES.close, ES.removal, ht, hh, hc, hw, hpar, hp, removeChild_log_comm]⟩

/-- What makes `close` remove a child: the handle is an element with a method
`close`, the child is its parent, and the parent of the child is an element or
the document. -/
theorem removal_some (host : Host) (w : World) (self : Nat) (p : NodeRef) (c : Nat)
    (h : ES.removal host w self = some (p, c)) :
    ∃ t e, w.transports[self]? = some t ∧ t.eventsource = some (.element e) ∧
      w.parentOfElement e = some (.element c) ∧ w.parentOfElement c = some p := by
  unfold ES.removal at h
  cases ht : w.transports[self]? with
  | none => rw [ht] at h; cases h
  | some t =>
    rw [ht] at h
    dsimp only at h
    cases hh : t.eventsource with
    | none => rw [hh] at h; cases h
    | some g =>
      rw [hh] at h
      dsimp only at h
      split at h
      · cases h
      · cases g with
        | native r => simp [World.parentOfHandle] at h
        | element e =>
          simp only [World.parentOfHandle] at h
          cases hq : w.parentOfElement e with
          | none => rw [hq] at h; cases h
          | some q =>
            rw [hq] at h
            cases q with
            | document => cases h
            | element c' =>
              dsimp only at h
              cases hp : w.parentOfElement c' with
              | none => rw [hp] at h; cases h
              | some p' =>
                rw [hp] at h
                simp only [Option.map_some', Option.some.injEq, Prod.mk.injEq] at h
                obtain ⟨rfl, rfl⟩ := h
                exact ⟨t, e, rfl, hh, hq, hp⟩

/-- The method `close` on a native handle. -/
theorem close_native (host : Host) (w : World) (self : Nat) (t : Transport) (r : Nat)
    (hself : w.transports[self]? = some t) (hh : t.eventsource = some (.native r)) :
    ES.close host w self = (.returned self,
      { w with log := w.log ++ [.handleClose (.native r), .baseClose self] }) := by
  simp [ES.close, hself, hh, hasClose, World.parentOfHandle]

/-- When the handle has a method `close`, `close` calls it first. -/
theorem close_calls_handle_close (host : Host) (w : World) (self : Nat) (t : Transport)
    (h : Handle) (hself : w.transports[self]? = some t) (hh : t.eventsource = some h)
    (hc : hasClose host w h = true) :
    (w.log ++ [.handleClose h]) <+: (ES.close host w self).2.log := by
  unfold ES.close
  simp only [hself, hh, hc, Bool.not_true, Bool.false_eq_true, if_false]
  split
  · exact List.prefix_append _ _
  · exact List.prefix_rfl
  · split
    · exact List.prefix_rfl
    · simp

/-- When the handle has no method `close`, `close` throws and changes
nothing. -/
theorem close_without_method (host : Host) (w : World) (self : Nat) (t : Transport)
    (h : Handle) (hself : w.transports[self]? = some t) (hh : t.eventsource = some h)
    (hc : hasClose host w h = false) :
    ES.close host w self = (.threw .typeError, w) := by
  unfold ES.close
  simp only [hself, hh, hc, Bool.not_false, if_true]

/-- A successful `open` leaves a handle on the instance, and its handlers on the
handle: in native mode the properties `onmessage` and `onerror`, in legacy mode
a listener for `io` and the property `onerror`; a handle of legacy mode is an
element of the document that bears the identity. -/
theorem open_returned_handle (host : Host) (w w1 : World) (self : Nat)
    (hopen : ES.open host w self = (.returned self, w1)) :
    ∃ t h, w.transports[self]? = some t ∧
      w1.transports[self]? = some { t with eventsource := some h } ∧
      ((w.legacy = false ∧ h = .native w.next ∧ w1.handlers =
          setHandler (setHandler w.handlers h "message" (.relayData self)) h "error"
            (.relayError self)) ∨
       (w.legacy = true ∧ (∃ e, h = .element e ∧ w1.doc.getElementById t.index = some e) ∧
          w1.handlers =
          setHandler (w.handlers ++
            [{ target := h, type := "io", property := false, callback := .relayData self }])
            h "error" (.relayError self))) := by
  unfold ES.open at hopen
  split at hopen
  · simp at hopen
  · rename_i t hself
    refine ⟨t, ?_⟩
    simp only at hopen
    split at hopen
    · rename_i hleg
      split at hopen
      · simp at hopen
      · split at hopen
        · split at hopen
          · simp only [Prod.mk.injEq, true_and] at hopen
            subst hopen
            refine ⟨.native w.next, hself, ?_, ?_⟩
            · simp only [setProperty_transports]
              exact setEventsource_self _ _ _ _ hself
            · left
              exact ⟨by simpa using hleg, rfl, rfl⟩
          · simp at hopen
        · simp at hopen
    · rename_i hleg
      split at hopen
      · simp at hopen
      · split at hopen
        · simp at hopen
        · simp only [Prod.mk.injEq, true_and] at hopen
          subst hopen
          rename_i e hfound
          refine ⟨.element e, hself, ?_, ?_⟩
          · simp only [setProperty_transports, addEventListener_transports, hfound,
              Option.map_some']
            exact setEventsource_self _ _ _ _ hself
          · right
            exact ⟨by simpa using hleg, ⟨e, rfl, hfound⟩, rfl⟩
/-! ### Well-formed states -/

theorem mem_setHandler_target (l : List Registration) (g : Handle) (ty : String)
    (cb : Callback) :
    ∀ r ∈ setHandler l g ty cb, r.target = g ∨ ∃ r0 ∈ l, r0.target = r.target := by
  intro r hr
  unfold setHandler at hr
  split at hr
  · simp only [List.mem_map] at hr
    obtain ⟨b, hb, rfl⟩ := hr
    right
    refine ⟨b, hb, ?_⟩
    split <;> rfl
  · rcases List.mem_append.mp hr with hr | hr
    · exact Or.inr ⟨r, hr, rfl⟩
    · simp only [List.mem_singleton] at hr
      subst hr
      exact Or.inl rfl

theorem wellFormed_setHandler (l : List Registration) (g : Handle) (ty : String)
    (cb : Callback) (n : Nat) (hl : ∀ r ∈ l, r.target.ref < n) (hg : g.ref < n) :
    ∀ r ∈ setHandler l g ty cb, r.target.ref < n := by
  intro r hr
  rcases mem_setHandler_target l g ty cb r hr with h | ⟨r0, hr0, h⟩
  · rw [h]; exact hg
  · rw [← h]; exact hl r0 hr0

theorem nids_append_eq_map (f g : Forest) :
    f.nids ++ g.nids = (f.nodes ++ g.nodes).map (fun x => x.nid) := by
  rw [Forest.nids_eq_map_nodes f, Forest.nids_eq_map_nodes g, List.map_append]

theorem nids_wrapper (c : Nat) (ks : Forest) :
    (Forest.node c "div" [] (ks.relabel (c + 1)) .nil).nids = List.range' c (ks.size + 1) := by
  simp only [Forest.nids, Forest.nids_relabel, List.append_nil]
  rw [List.range'_succ]

/-- The document after the wrapper and the elements of the markup have entered
it: its elements are those of before and the new ones, and the references stay
apart and below the allocation counter. -/
theorem wellFormed_wrapper (doc det : Forest) (c p : Nat) (ks : Forest)
    (hnd : (doc.nids ++ det.nids).Nodup) (hlt : ∀ n ∈ doc.nids ++ det.nids, n < c)
    (hp : p ∈ doc.nids) :
    ((doc.appendTo p (.node c "div" [] .nil .nil)).setKids c (ks.relabel (c + 1))).nodes.Perm
      (doc.nodes ++ (Forest.node c "div" [] (ks.relabel (c + 1)) .nil).nodes) ∧
    (((doc.appendTo p (.node c "div" [] .nil .nil)).setKids c (ks.relabel (c + 1))).nids ++
      det.nids).Nodup ∧
    (∀ n ∈ ((doc.appendTo p (.node c "div" [] .nil .nil)).setKids c (ks.relabel (c + 1))).nids ++
      det.nids, n < c + 1 + (ks.relabel (c + 1)).size) := by
  have hc : c ∉ doc.nids := fun h => Nat.lt_irrefl _ (hlt c (List.mem_append_left _ h))
  have hdoc : doc.nids.Nodup := hnd.of_append_left
  rw [Forest.setKids_appendTo p c "div" [] .nil _ doc hc, Forest.size_relabel]
  have hperm := Forest.nids_appendTo_perm p (.node c "div" [] (ks.relabel (c + 1)) .nil) doc hp hdoc
  rw [nids_wrapper] at hperm
  have hperm2 : ((doc.appendTo p (.node c "div" [] (ks.relabel (c + 1)) .nil)).nids ++
      det.nids).Perm ((doc.nids ++ det.nids) ++ List.range' c (ks.size + 1)) := by
    refine (hperm.append_right det.nids).trans ?_
    rw [List.append_assoc, List.append_assoc]
    exact List.Perm.append_left _ List.perm_append_comm
  refine ⟨Forest.nodes_appendTo_perm p _ doc hp hdoc, ?_, ?_⟩
  · rw [hperm2.nodup_iff, List.nodup_append]
    refine ⟨hnd, List.nodup_range' c (ks.size + 1), ?_⟩
    intro x hx hx2
    have h1 := hlt x hx
    rw [List.mem_range'_1] at hx2
    omega
  · intro n hn
    rcases List.mem_append.mp (hperm2.mem_iff.mp hn) with h | h
    · have := hlt n h
      omega
    · rw [List.mem_range'_1] at h
      omega

/-- The method `open` keeps the state well-formed, whatever its outcome. -/
theorem open_wellFormed (host : Host) (w : World) (self : Nat) (hwf : w.WellFormed) :
    (ES.open host w self).2.WellFormed := by
  obtain ⟨hnd, hlt, hhd⟩ := hwf
  unfold ES.open
  split
  · exact ⟨hnd, hlt, hhd⟩
  · dsimp only
    split
    · split
      · exact ⟨hnd, hlt, hhd⟩
      · split
        · split
          · refine ⟨hnd, fun n hn => Nat.lt_succ_of_lt (hlt n hn), ?_⟩
            refine wellFormed_setHandler _ _ _ _ _ ?_ (Nat.lt_succ_self _)
            refine wellFormed_setHandler _ _ _ _ _ ?_ (Nat.lt_succ_self _)
            exact fun r hr => Nat.lt_succ_of_lt (hhd r hr)
          · exact ⟨hnd, hlt, hhd⟩
        · exact ⟨hnd, hlt, hhd⟩
    · split
      · exact ⟨hnd, fun n hn => Nat.lt_succ_of_lt (hlt n hn),
          fun r hr => Nat.lt_succ_of_lt (hhd r hr)⟩
      · rename_i t _ _ _ p htarget
        have hp : p ∈ w.doc.nids := Forest.target_mem_nids w.doc p htarget
        obtain ⟨_, hnd1, hlt1⟩ := wellFormed_wrapper w.doc w.detached w.next p
          (host.parse (markup (ES.prepareUrl w t) t.index)) hnd hlt hp
        have hhd1 : ∀ r ∈ w.handlers, r.target.ref < w.next + 1 +
            ((host.parse (markup (ES.prepareUrl w t) t.index)).relabel (w.next + 1)).size := by
          intro r hr
          have := hhd r hr
          omega
        split
        · exact ⟨hnd1, hlt1, hhd1⟩
        · rename_i e hfound
          have he : e < w.next + 1 +
              ((host.parse (markup (ES.prepareUrl w t) t.index)).relabel (w.next + 1)).size :=
            hlt1 e (List.mem_append_left _ (Forest.getElementById_mem _ _ _ hfound))
          refine ⟨hnd1, hlt1, ?_⟩
          refine wellFormed_setHandler _ _ _ _ _ ?_ he
          intro r hr
          simp only [addEventListener_handlers, setEventsource_handlers,
            List.mem_append, List.mem_singleton] at hr
          rcases hr with hr | hr
          · exact hhd1 r hr
          · subst hr
            exact he

/-- The call `removeChild` moves the elements of the child from where they are
to the removed subtrees: the elements of the state are those of before. -/
theorem removeChild_perm (w : World) (hnd : (w.doc.nids ++ w.detached.nids).Nodup) (c : Nat)
    (p : NodeRef) (hp : w.parentOfElement c = some p) :
    ((w.removeChild p c).doc.nodes ++ (w.removeChild p c).detached.nodes).Perm
      (w.doc.nodes ++ w.detached.nodes) := by
  have hdoc : w.doc.nids.Nodup := hnd.of_append_left
  have hdet : w.detached.nids.Nodup := hnd.of_append_right
  have hdis : ∀ x, x ∈ w.doc.nids → x ∉ w.detached.nids := by
    intro x h1 h2
    exact (List.nodup_append.mp hnd).2.2 h1 h2
  unfold World.parentOfElement at hp
  by_cases hroot : c ∈ w.doc.roots
  · simp only [hroot, if_true, Option.some.injEq] at hp
    subst hp
    obtain ⟨s, hs, hperm⟩ := Forest.nodes_dropRoot_perm c w.doc hroot hdoc
    simp only [World.removeChild, World.subtreeOf, hs, Forest.nodes_append]
    refine List.Perm.symm ((hperm.append_right _).trans ?_)
    rw [List.append_assoc]
    exact List.Perm.append_left _ List.perm_append_comm
  · simp only [hroot, if_false] at hp
    cases hq : w.doc.parentIn c with
    | some q =>
      rw [hq] at hp
      simp only [Option.some.injEq] at hp
      subst hp
      obtain ⟨hqm, _⟩ := Forest.parentIn_some_mem c q w.doc hq
      obtain ⟨s, hs, hperm⟩ := Forest.nodes_removeFrom_perm q c w.doc hq hdoc
      simp only [World.removeChild, World.subtreeOf, hs, Forest.nodes_append,
        Forest.removeFrom_of_not_mem q c w.detached (hdis q hqm)]
      refine List.Perm.symm ((hperm.append_right _).trans ?_)
      rw [List.append_assoc]
      exact List.Perm.append_left _ List.perm_append_comm
    | none =>
      rw [hq] at hp
      cases hq2 : w.detached.parentIn c with
      | none => rw [hq2] at hp; cases hp
      | some q =>
        rw [hq2] at hp
        simp only [Option.map_some', Option.some.injEq] at hp
        subst hp
        obtain ⟨_, hcm⟩ := Forest.parentIn_some_mem c q w.detached hq2
        have hcd : c ∉ w.doc.nids := fun h => hdis c h hcm
        obtain ⟨s, hs, hperm⟩ := Forest.nodes_removeFrom_perm q c w.detached hq2 hdet
        simp only [World.removeChild, World.subtreeOf, Forest.subtree_none c w.doc hcd, hs,
          Option.getD_some, Forest.nodes_append,
          Forest.removeFrom_of_child_not_mem q c w.doc hcd]
        exact List.Perm.symm (hperm.append_left _)

/-- The method `close` keeps the elements of the state, whatever its outcome. -/
theorem close_perm (host : Host) (w : World) (self : Nat)
    (hnd : (w.doc.nids ++ w.detached.nids).Nodup) :
    ((ES.close host w self).2.doc.nodes ++ (ES.close host w self).2.detached.nodes).Perm
      (w.doc.nodes ++ w.detached.nodes) := by
  obtain ⟨calls, hstate⟩ := close_state host w self
  rw [hstate]
  cases hrem : ES.removal host w self with
  | none => exact List.Perm.refl _
  | some pc =>
    obtain ⟨p, c⟩ := pc
    obtain ⟨_, _, _, _, _, hp⟩ := removal_some host w self p c hrem
    exact removeChild_perm w hnd c p hp

/-- The method `close` keeps the state well-formed, whatever its outcome. -/
theorem close_wellFormed (host : Host) (w : World) (self : Nat) (hwf : w.WellFormed) :
    (ES.close host w self).2.WellFormed := by
  obtain ⟨hnd, hlt, hhd⟩ := hwf
  have hperm : ((ES.close host w self).2.doc.nids ++ (ES.close host w self).2.detached.nids).Perm
      (w.doc.nids ++ w.detached.nids) := by
    rw [nids_append_eq_map, nids_append_eq_map]
    exact (close_perm host w self hnd).map _
  obtain ⟨_, _, _, _, h5, h6⟩ := close_shape host w self
  refine ⟨hperm.nodup_iff.mpr hnd, ?_, ?_⟩
  · intro n hn
    rw [h6]
    exact hlt n (hperm.mem_iff.mp hn)
  · rw [h5, h6]
    exact hhd

/-- The module as loaded is well-formed on a document whose elements have
references of their own below the allocation counter. -/
theorem load_wellFormed (window : Window) (doc : Forest) (next : Nat)
    (hnd : doc.nids.Nodup) (hlt : ∀ n ∈ doc.nids, n < next) :
    (load window doc next).WellFormed := by
  refine ⟨by simpa [load, Forest.nids] using hnd, by simpa [load, Forest.nids] using hlt, ?_⟩
  intro r hr
  cases hr

/-- Every state that the module reaches from a well-formed state is
well-formed. -/
theorem reaches_wellFormed (host : Host) (w0 w : World) (hwf : w0.WellFormed)
    (hreach : Reaches host w0 w) : w.WellFormed := by
  induction hreach with
  | refl => exact hwf
  | @construct v socket base _ ih => exact ih
  | @«open» v self _ ih => exact open_wellFormed host v self ih
  | @close v self _ ih => exact close_wellFormed host v self ih
  | ready self fn _ ih => exact ih
  | @fire v target ev _ ih =>
    obtain ⟨calls, h⟩ := fire_shape v target ev
    rw [h]; exact ih
/-! ### Identities -/

theorem digitChar_toNat (d : Nat) (h : d < 10) : (digitChar d).toNat = 48 + d := by
  interval_cases d <;> rfl

theorem decimalValue_snoc (cs : List Char) (c : Char) :
    decimalValue (cs ++ [c]) = decimalValue cs * 10 + (c.toNat - 48) := by
  simp [decimalValue, List.foldl_append]

theorem decimalValue_digits (fuel : Nat) :
    ∀ n, n < fuel → decimalValue (decimalDigits fuel n) = n := by
  induction fuel with
  | zero => intro n h; omega
  | succ fuel ih =>
    intro n h
    simp only [decimalDigits]
    split
    · rename_i h10
      simp [decimalValue, digitChar_toNat n h10]
    · rw [decimalValue_snoc, ih (n / 10) (by omega), digitChar_toNat _ (Nat.mod_lt _ (by omega))]
      omega

theorem decimal_injective (j k : Nat) (h : decimal j = decimal k) : j = k := by
  have hd : decimalDigits (j + 1) j = decimalDigits (k + 1) k := by
    have := congrArg String.data h
    simpa [decimal] using this
  have := congrArg decimalValue hd
  rwa [decimalValue_digits _ _ (Nat.lt_succ_self j),
    decimalValue_digits _ _ (Nat.lt_succ_self k)] at this

theorem identity_injective (j k : Nat)
    (h : "EventSource_" ++ decimal j = "EventSource_" ++ decimal k) : j = k := by
  apply decimal_injective
  have := congrArg String.data h
  simp only [String.data_append, List.append_cancel_left_eq] at this
  exact String.ext this

theorem jsSucc_min (n : Nat) : jsSucc (min n maxExact) = min (n + 1) maxExact := by
  unfold jsSucc
  split <;> omega

/-- In every state that the module reaches, the counter is the number of
constructions so far, up to `2^53`, and the identity of the `k`-th instance is
`EventSource_` followed by the digits of `k`, up to `2^53`. -/
theorem reaches_counter (host : Host) (window : Window) (doc : Forest) (next : Nat)
    (w : World) (hreach : Reaches host (load window doc next) w) :
    w.id = min w.transports.length maxExact ∧
    ∀ k t, w.transports[k]? = some t → t.index = "EventSource_" ++ decimal (min k maxExact) := by
  induction hreach with
  | refl => exact ⟨by simp [load], by intro k t h; simp [load] at h⟩
  | @construct v socket base _ ih =>
    obtain ⟨hid, hidx⟩ := ih
    constructor
    · simp only [ES, List.length_append, List.length_singleton]
      rw [hid, jsSucc_min]
    · intro k t hk
      simp only [ES] at hk
      by_cases hlt : k < v.transports.length
      · rw [List.getElem?_append_left hlt] at hk
        exact hidx k t hk
      · rw [List.getElem?_append_right (by omega)] at hk
        have hk0 : k - v.transports.length = 0 := by
          by_contra hne
          have : (1 : Nat) ≤ k - v.transports.length := by omega
          rw [List.getElem?_eq_none (by simpa using this)] at hk
          cases hk
        rw [hk0] at hk
        simp only [List.getElem?_cons_zero, Option.some.injEq] at hk
        have hkeq : k = v.transports.length := by omega
        rw [← hk, hkeq, hid]
  | @«open» v self _ ih =>
    obtain ⟨hid, hidx⟩ := ih
    obtain ⟨h1, _, _, _, h4, _⟩ := open_shape host v self
    rcases h4 with h4 | ⟨h, h4⟩
    · rw [h1, h4]; exact ⟨hid, hidx⟩
    · rw [h1, h4]
      refine ⟨by simpa using hid, ?_⟩
      intro k t hk
      rw [List.getElem?_modify] at hk
      cases hv : v.transports[k]? with
      | none => rw [hv] at hk; cases hk
      | some t0 =>
        rw [hv] at hk
        simp only [Option.map_eq_map, Option.map_some', Option.some.injEq] at hk
        rw [← hk]
        split <;> exact hidx k t0 hv
  | @close v self _ ih =>
    obtain ⟨h1, _, _, h4, _, _⟩ := close_shape host v self
    rw [h1, h4]; exact ih
  | ready self fn _ ih => exact ih
  | @fire v target ev _ ih =>
    obtain ⟨calls, h⟩ := fire_shape v target ev
    rw [h]; exact ih

theorem constructions_reaches (host : Host) (cs : List (Nat × String)) :
    ∀ w0 w : World, Reaches host w0 w → Reaches host w0 (constructions w cs) := by
  induction cs with
  | nil => intro w0 w h; exact h
  | cons c cs ih => intro w0 w h; exact ih w0 _ (Reaches.construct c.1 c.2 h)

theorem constructions_length (cs : List (Nat × String)) :
    ∀ w : World, (constructions w cs).transports.length = w.transports.length + cs.length := by
  induction cs with
  | nil => intro w; rfl
  | cons c cs ih =>
    intro w
    simp only [constructions, ih, ES, List.length_append, List.length_singleton,
      List.length_cons, List.length_nil]
    omega

/-- In every state that the module reaches, the flag `legacy` is the one
computed from the host's `window` at load. -/
theorem reaches_legacy (host : Host) (window : Window) (doc : Forest) (next : Nat)
    (w : World) (hreach : Reaches host (load window doc next) w) :
    w.window = window ∧ w.legacy = legacy w.window := by
  induction hreach with
  | refl => exact ⟨rfl, rfl⟩
  | @construct v socket base _ ih => exact ih
  | @«open» v self _ ih =>
    obtain ⟨_, h2, h3, _, _, _⟩ := open_shape host v self
    rw [h2, h3]; exact ih
  | @close v self _ ih =>
    obtain ⟨_, h2, h3, _, _, _⟩ := close_shape host v self
    rw [h2, h3]; exact ih
  | ready self fn _ ih => exact ih
  | @fire v target ev _ ih =>
    obtain ⟨calls, h⟩ := fire_shape v target ev
    rw [h]; exact ih

/-- In every state that the module reaches, the handlers have the shape
`HandlersOk`. -/
theorem reaches_handlersOk (host : Host) (window : Window) (doc : Forest) (next : Nat)
    (w : World) (hreach : Reaches host (load window doc next) w) : HandlersOk w.handlers := by
  induction hreach with
  | refl =>
    refine ⟨?_, List.Pairwise.nil⟩
    intro r hr
    cases hr
  | @construct v socket base _ ih => exact ih
  | @«open» v self _ ih =>
    obtain ⟨_, _, _, _, _, h5⟩ := open_shape host v self
    rcases h5 with h5 | ⟨h, h5⟩ | ⟨h, h5⟩
    · rw [h5]; exact ih
    · rw [h5]
      exact handlersOk_setHandler _ _ _ _ (handlersOk_setHandler _ _ _ _ ih)
    · rw [h5]
      exact handlersOk_setHandler _ _ _ _ (handlersOk_append_listener _ _ _ ih)
  | @close v self _ ih =>
    obtain ⟨_, _, _, _, h5, _⟩ := close_shape host v self
    rw [h5]; exact ih
  | ready self fn _ ih => exact ih
  | @fire v target ev _ ih =>
    obtain ⟨calls, h⟩ := fire_shape v target ev
    rw [h]; exact ih

theorem constructions_append (cs ds : List (Nat × String)) :
    ∀ w : World, constructions w (cs ++ ds) = constructions (constructions w cs) ds := by
  induction cs with
  | nil => intro w; rfl
  | cons c cs ih => intro w; exact ih _

/-- Constructions leave the host, the document and the handlers as they are. -/
theorem constructions_frame (cs : List (Nat × String)) :
    ∀ w : World, (constructions w cs).window = w.window ∧ (constructions w cs).legacy = w.legacy ∧
      (constructions w cs).doc = w.doc ∧ (constructions w cs).detached = w.detached ∧
      (constructions w cs).next = w.next ∧ (constructions w cs).handlers = w.handlers := by
  induction cs with
  | nil => intro w; exact ⟨rfl, rfl, rfl, rfl, rfl, rfl⟩
  | cons c cs ih => intro w; exact ih _

theorem ES_id (w : World) (socket : Nat) (base : String) :
    (ES w socket base).1.id = jsSucc w.id := rfl

/-! ### The characters of an identity -/

theorem digitChar_plain (d : Nat) (h : d < 10) : isPlainChar (digitChar d) = true := by
  interval_cases d <;> decide

theorem decimalDigits_plain (fuel : Nat) :
    ∀ n, ∀ c ∈ decimalDigits fuel n, isPlainChar c = true := by
  induction fuel with
  | zero => intro n c hc; cases hc
  | succ fuel ih =>
    intro n c hc
    simp only [decimalDigits] at hc
    split at hc
    · rename_i h10
      simp only [List.mem_singleton] at hc
      subst hc
      exact digitChar_plain n h10
    · rcases List.mem_append.mp hc with hc | hc
      · exact ih _ c hc
      · simp only [List.mem_singleton] at hc
        subst hc
        exact digitChar_plain _ (Nat.mod_lt _ (by omega))

/-- An identity that the constructor makes holds no character that ends or
changes an attribute value. -/
theorem identity_plain (k : Nat) :
    ∀ c ∈ ("EventSource_" ++ decimal k).toList, isPlainChar c = true := by
  intro c hc
  simp only [String.toList, String.data_append, List.mem_append] at hc
  rcases hc with hc | hc
  · revert c
    decide
  · exact decimalDigits_plain _ _ c hc

/-- The tokenizer reads an identity that the constructor makes as it is
written. -/
theorem identity_literal (k : Nat) : isLiteralValue ("EventSource_" ++ decimal k) = true :=
  literal_of_plain _ (identity_plain k)

/-! ### The handle of an instance and its handler for errors -/

theorem setEventsource_get (w : World) (self : Nat) (h : Option Handle) (i : Nat)
    (t1 : Transport) (hi : (w.setEventsource self h).transports[i]? = some t1) :
    ∃ t, w.transports[i]? = some t ∧
      t1 = (if self = i then { t with eventsource := h } else t) := by
  rw [setEventsource_transports, List.getElem?_modify] at hi
  cases hv : w.transports[i]? with
  | none => rw [hv] at hi; cases hi
  | some t =>
    rw [hv] at hi
    simp only [Option.map_eq_map, Option.map_some', Option.some.injEq] at hi
    exact ⟨t, rfl, hi.symm⟩

/-- The outcomes of `open`: it leaves the instances, the handlers and the
document as they are, or it is the native `open` whose constructor returns, or
it is the legacy `open` on a document with a body or a document element. -/
theorem open_cases (host : Host) (w : World) (self : Nat) :
    ((ES.open host w self).2.transports = w.transports ∧
      (ES.open host w self).2.handlers = w.handlers ∧ (ES.open host w self).2.doc = w.doc) ∨
    (∃ t r, w.transports[self]? = some t ∧ w.legacy = false ∧
      w.window.get "EventSource" = .func r ∧ host.accepts (ES.prepareUrl w t) = true) ∨
    (∃ t p, w.transports[self]? = some t ∧ w.legacy = true ∧
      (w.doc.body).orElse (fun _ => w.doc.documentElement) = some p) := by
  cases ht : w.transports[self]? with
  | none =>
    left
    simp [ES.open, ht]
  | some t =>
    cases hleg : w.legacy with
    | false =>
      cases hget : w.window.get "EventSource" with
      | func r =>
        cases hacc : host.accepts (ES.prepareUrl w t) with
        | true => exact Or.inr (Or.inl ⟨t, r, rfl, rfl, rfl, hacc⟩)
        | false =>
          left
          rw [open_native_rejected host w self t r ht hleg hget hacc]
          exact ⟨rfl, rfl, rfl⟩
      | _ =>
        left
        unfold ES.open
        simp only [ht, hleg, hget, Bool.not_false, if_true]
        split <;> exact ⟨rfl, rfl, rfl⟩
    | true =>
      cases htarget : (w.doc.body).orElse (fun _ => w.doc.documentElement) with
      | none =>
        left
        rw [open_legacy_no_target host w self t ht hleg htarget]
        exact ⟨rfl, rfl, rfl⟩
      | some p => exact Or.inr (Or.inr ⟨t, p, rfl, rfl, rfl⟩)

/-- The method `open` keeps the elements of the state: what was in the document
or removed from it is so afterwards. -/
theorem open_nodes_mono (host : Host) (w : World) (self : Nat) (hwf : w.WellFormed) :
    ∀ x ∈ w.doc.nodes ++ w.detached.nodes,
      x ∈ (ES.open host w self).2.doc.nodes ++ (ES.open host w self).2.detached.nodes := by
  intro x hx
  obtain ⟨_, _, _, hdet, _, _⟩ := open_shape host w self
  rw [hdet]
  rcases open_cases host w self with ⟨_, _, hdoc⟩ | ⟨t, r, ht, hleg, hget, hacc⟩ |
      ⟨t, p, ht, hleg, htarget⟩
  · rw [hdoc]; exact hx
  · rw [open_native_accepted host w self t r ht hleg hget hacc]
    exact hx
  · have hp : p ∈ w.doc.nids := Forest.target_mem_nids w.doc p htarget
    obtain ⟨hperm, _, _⟩ := wellFormed_wrapper w.doc w.detached w.next p
      (host.parse (markup (ES.prepareUrl w t) t.index)) hwf.1 hwf.2.1 hp
    have hmono : ∀ y ∈ w.doc.nodes,
        y ∈ ((w.doc.appendTo p (.node w.next "div" [] .nil .nil)).setKids w.next
          ((host.parse (markup (ES.prepareUrl w t) t.index)).relabel (w.next + 1))).nodes :=
      fun y hy => hperm.mem_iff.mpr (List.mem_append_left _ hy)
    have hdoc : (ES.open host w self).2.doc =
        (w.doc.appendTo p (.node w.next "div" [] .nil .nil)).setKids w.next
          ((host.parse (markup (ES.prepareUrl w t) t.index)).relabel (w.next + 1)) := by
      cases hfound : ((w.doc.appendTo p (.node w.next "div" [] .nil .nil)).setKids w.next
          ((host.parse (markup (ES.prepareUrl w t) t.index)).relabel
            (w.next + 1))).getElementById t.index with
      | none => rw [open_legacy_not_found host w self t p ht hleg htarget hfound]; rfl
      | some e => rw [open_legacy_found host w self t p e ht hleg htarget hfound]; rfl
    rw [hdoc]
    rcases List.mem_append.mp hx with h | h
    · exact List.mem_append_left _ (hmono x h)
    · exact List.mem_append_right _ h

/-- The method `open` keeps the handles by identity. -/
theorem open_handlesById (host : Host) (w : World) (self : Nat) (hwf : w.WellFormed)
    (hby : w.HandlesById) : (ES.open host w self).2.HandlesById := by
  intro i t1 e hi he
  have hmono := open_nodes_mono host w self hwf
  rcases open_cases host w self with ⟨htr, _, _⟩ | ⟨t, r, ht, hleg, hget, hacc⟩ |
      ⟨t, p, ht, hleg, htarget⟩
  · rw [htr] at hi
    obtain ⟨x, hx, hx2⟩ := hby i t1 e hi he
    exact ⟨x, hmono x hx, hx2⟩
  · have hopen := open_native_accepted host w self t r ht hleg hget hacc
    rw [hopen] at hi
    simp only [setProperty_transports] at hi
    obtain ⟨t0, ht0, heq⟩ := setEventsource_get _ _ _ _ _ hi
    by_cases hs : self = i
    · rw [if_pos hs] at heq
      rw [heq] at he
      cases he
    · rw [if_neg hs] at heq
      subst heq
      obtain ⟨x, hx, hx2⟩ := hby i t1 e ht0 he
      exact ⟨x, hmono x hx, hx2⟩
  · cases hfound : ((w.doc.appendTo p (.node w.next "div" [] .nil .nil)).setKids w.next
        ((host.parse (markup (ES.prepareUrl w t) t.index)).relabel
          (w.next + 1))).getElementById t.index with
    | none =>
      have hopen := open_legacy_not_found host w self t p ht hleg htarget hfound
      rw [hopen] at hi
      obtain ⟨t0, ht0, heq⟩ := setEventsource_get _ _ _ _ _ hi
      by_cases hs : self = i
      · rw [if_pos hs] at heq
        rw [heq] at he
        cases he
      · rw [if_neg hs] at heq
        subst heq
        obtain ⟨x, hx, hx2⟩ := hby i t1 e ht0 he
        exact ⟨x, hmono x hx, hx2⟩
    | some e0 =>
      have hopen := open_legacy_found host w self t p e0 ht hleg htarget hfound
      have hi2 := hi
      rw [hopen] at hi2
      simp only [setProperty_transports, addEventListener_transports] at hi2
      obtain ⟨t0, ht0, heq⟩ := setEventsource_get _ _ _ _ _ hi2
      by_cases hs : self = i
      · rw [if_pos hs] at heq
        subst hs
        have htt : t0 = t := Option.some.inj (ht0.symm.trans ht)
        subst htt
        rw [heq] at he
        simp only [Option.some.injEq, Handle.element.injEq] at he
        subst he
        obtain ⟨x, hx, hx2, hx3⟩ := Forest.getElementById_nodes _ _ _ hfound
        refine ⟨x, ?_, hx2, ?_⟩
        · rw [hopen]
          exact List.mem_append_left _ hx
        · rw [heq]
          exact hx3
      · rw [if_neg hs] at heq
        subst heq
        obtain ⟨x, hx, hx2⟩ := hby i t1 e ht0 he
        exact ⟨x, hmono x hx, hx2⟩

theorem handlersFor_error_listener (l : List Registration) (g h : Handle) (cb : Callback) :
    handlersFor (l ++ [{ target := g, type := "io", property := false, callback := cb }]) h
      "error" = handlersFor l h "error" := by
  rw [handlersFor_append]
  have : handlersFor [{ target := g, type := "io", property := false, callback := cb }] h
      "error" = [] := by
    simp [handlersFor]
  rw [this, List.append_nil]

theorem handlersFor_error_set (l : List Registration) (g : Handle) (cb : Callback)
    (hok : HandlersOk l) :
    handlersFor (setHandler l g "error" cb) g "error" =
      [{ target := g, type := "error", property := true, callback := cb }] := by
  refine setHandler_handlersFor_same _ _ _ _ ?_ hok.2
  intro r hr _ hrt
  cases hp : r.property
  · have := hok.1 r hr hp
    rw [hrt] at this
    exact absurd this (by decide)
  · rfl

theorem handler_target_lt (w : World) (hwf : w.WellFormed) (h : Handle) (ty : String)
    (r : Registration) (hr : r ∈ handlersFor w.handlers h ty) : h.ref < w.next := by
  simp only [handlersFor, List.mem_filter, decide_eq_true_eq] at hr
  have := hwf.2.2 r hr.1
  rw [hr.2.1] at this
  exact this

/-- The method `open` keeps the handlers for errors, when the instances bear
identities of their own. -/
theorem open_errorsRelayed (host : Host) (w : World) (self : Nat) (hwf : w.WellFormed)
    (hok : HandlersOk w.handlers) (hby : w.HandlesById) (hrel : w.ErrorsRelayed)
    (hdist : ∀ (i j : Nat) (ti tj : Transport), w.transports[i]? = some ti →
      w.transports[j]? = some tj → i ≠ j → ti.index ≠ tj.index) :
    (ES.open host w self).2.ErrorsRelayed := by
  intro i t1 h hi hh
  rcases open_cases host w self with ⟨htr, hhand, _⟩ | ⟨t, r, ht, hleg, hget, hacc⟩ |
      ⟨t, p, ht, hleg, htarget⟩
  · rw [htr] at hi
    rw [hhand]
    exact hrel i t1 h hi hh
  · have hopen := open_native_accepted host w self t r ht hleg hget hacc
    rw [hopen] at hi ⊢
    simp only [setProperty_transports] at hi
    simp only [setProperty_handlers, setEventsource_handlers]
    obtain ⟨t0, ht0, heq⟩ := setEventsource_get _ _ _ _ _ hi
    by_cases hs : self = i
    · rw [if_pos hs] at heq
      rw [heq] at hh
      simp only [Option.some.injEq] at hh
      subst hh
      subst hs
      exact handlersFor_error_set _ _ _ (handlersOk_setHandler _ _ _ _ hok)
    · rw [if_neg hs] at heq
      subst heq
      have hold := hrel i t1 h ht0 hh
      have hne : Handle.native w.next ≠ h := by
        intro heq
        have hlt := handler_target_lt w hwf h "error" _
          (by rw [hold]; exact List.mem_singleton_self _)
        rw [← heq] at hlt
        exact Nat.lt_irrefl _ hlt
      rw [setHandler_handlersFor_other _ _ _ _ _ _ (fun hc => hne hc.1),
        setHandler_handlersFor_other _ _ _ _ _ _ (fun hc => hne hc.1)]
      exact hold
  · cases hfound : ((w.doc.appendTo p (.node w.next "div" [] .nil .nil)).setKids w.next
        ((host.parse (markup (ES.prepareUrl w t) t.index)).relabel
          (w.next + 1))).getElementById t.index with
    | none =>
      have hopen := open_legacy_not_found host w self t p ht hleg htarget hfound
      rw [hopen] at hi ⊢
      simp only [setEventsource_handlers]
      obtain ⟨t0, ht0, heq⟩ := setEventsource_get _ _ _ _ _ hi
      by_cases hs : self = i
      · rw [if_pos hs] at heq
        rw [heq] at hh
        cases hh
      · rw [if_neg hs] at heq
        subst heq
        exact hrel i t1 h ht0 hh
    | some e0 =>
      have hopen := open_legacy_found host w self t p e0 ht hleg htarget hfound
      have hwf1 := open_wellFormed host w self hwf
      have hmono := open_nodes_mono host w self hwf
      rw [hopen] at hi hwf1 hmono ⊢
      simp only [setProperty_transports, addEventListener_transports] at hi
      simp only [setProperty_handlers, addEventListener_handlers, setEventsource_handlers]
      obtain ⟨t0, ht0, heq⟩ := setEventsource_get _ _ _ _ _ hi
      by_cases hs : self = i
      · rw [if_pos hs] at heq
        rw [heq] at hh
        simp only [Option.some.injEq] at hh
        subst hh
        subst hs
        exact handlersFor_error_set _ _ _ (handlersOk_append_listener _ _ _ hok)
      · rw [if_neg hs] at heq
        subst heq
        have hold := hrel i t1 h ht0 hh
        have hne : Handle.element e0 ≠ h := by
          intro heq
          subst heq
          obtain ⟨x, hx, hx2, hx3⟩ := hby i t1 e0 ht0 hh
          obtain ⟨y, hy, hy2, hy3⟩ := Forest.getElementById_nodes _ _ _ hfound
          have hxy : x = y := by
            refine nodes_unique _ ?_ x y (hmono x hx) (List.mem_append_left _ hy)
              (hx2.trans hy2.symm)
            rw [← nids_append_eq_map]
            exact hwf1.1
          rw [hxy, hy3] at hx3
          exact hdist i self t1 t ht0 ht (fun h => hs h.symm)
            (Option.some.inj hx3).symm
        rw [setHandler_handlersFor_other _ _ _ _ _ _ (fun hc => hne hc.1),
          handlersFor_error_listener]
        exact hold

/-- The method `close` keeps the handles by identity. -/
theorem close_handlesById (host : Host) (w : World) (self : Nat) (hwf : w.WellFormed)
    (hby : w.HandlesById) : (ES.close host w self).2.HandlesById := by
  intro i t e hi he
  obtain ⟨_, _, _, htr, _, _⟩ := close_shape host w self
  rw [htr] at hi
  obtain ⟨x, hx, hx2⟩ := hby i t e hi he
  exact ⟨x, (close_perm host w self hwf.1).mem_iff.mpr hx, hx2⟩

/-- In every state that the module reaches from a well-formed load with at most
`2^53 + 1` constructions, every element that is a handle bears the identity of
its instance, and the one handler for `error` on the handle of an instance
calls `onError` of that instance. -/
theorem reaches_relayed (host : Host) (window : Window) (doc : Forest) (next : Nat)
    (w : World) (hload : (load window doc next).WellFormed)
    (hreach : Reaches host (load window doc next) w) :
    w.transports.length ≤ maxExact + 1 → w.HandlesById ∧ w.ErrorsRelayed := by
  induction hreach with
  | refl =>
    intro _
    constructor
    · intro i t e hi
      simp [load] at hi
    · intro i t h hi
      simp [load] at hi
  | @construct v socket base hv ih =>
    intro hlen
    have hlen0 : v.transports.length ≤ maxExact + 1 := by
      simp only [ES, List.length_append, List.length_singleton] at hlen
      omega
    obtain ⟨hby, hrel⟩ := ih hlen0
    have hget : ∀ (i : Nat) (t : Transport), (ES v socket base).1.transports[i]? = some t →
        t.eventsource ≠ none → v.transports[i]? = some t := by
      intro i t hi hne
      simp only [ES] at hi
      by_cases hlt : i < v.transports.length
      · rwa [List.getElem?_append_left hlt] at hi
      · rw [List.getElem?_append_right (by omega)] at hi
        cases hk : i - v.transports.length with
        | zero =>
          rw [hk] at hi
          simp only [List.getElem?_cons_zero, Option.some.injEq] at hi
          rw [← hi] at hne
          exact absurd rfl hne
        | succ k =>
          rw [hk] at hi
          simp at hi
    constructor
    · intro i t e hi he
      exact hby i t e (hget i t hi (by rw [he]; exact fun h => nomatch h)) he
    · intro i t h hi hh
      exact hrel i t h (hget i t hi (by rw [hh]; exact fun h => nomatch h)) hh
  | @«open» v self hv ih =>
    intro hlen
    have hlen0 : v.transports.length ≤ maxExact + 1 := by
      obtain ⟨_, _, _, _, h5, _⟩ := open_shape host v self
      rcases h5 with h5 | ⟨h, h5⟩
      · rwa [h5] at hlen
      · rw [h5] at hlen
        simpa using hlen
    obtain ⟨hby, hrel⟩ := ih hlen0
    have hwf := reaches_wellFormed host _ v hload hv
    have hok := reaches_handlersOk host window doc next v hv
    obtain ⟨_, hidx⟩ := reaches_counter host window doc next v hv
    refine ⟨open_handlesById host v self hwf hby, open_errorsRelayed host v self hwf hok hby hrel ?_⟩
    intro i j ti tj hi hj hij heq
    have hil : i < v.transports.length := by
      by_contra hc
      rw [List.getElem?_eq_none (by omega)] at hi
      cases hi
    have hjl : j < v.transports.length := by
      by_contra hc
      rw [List.getElem?_eq_none (by omega)] at hj
      cases hj
    rw [hidx i ti hi, hidx j tj hj, Nat.min_eq_left (by omega), Nat.min_eq_left (by omega)] at heq
    exact hij (identity_injective i j heq)
  | @close v self hv ih =>
    intro hlen
    obtain ⟨_, _, _, htr, hhand, _⟩ := close_shape host v self
    rw [htr] at hlen
    obtain ⟨hby, hrel⟩ := ih hlen
    have hwf := reaches_wellFormed host _ v hload hv
    refine ⟨close_handlesById host v self hwf hby, ?_⟩
    intro i t h hi hh
    rw [htr] at hi
    rw [hhand]
    exact hrel i t h hi hh
  | @ready v self fn _ ih => exact ih
  | @fire v target ev _ ih =>
    obtain ⟨calls, h⟩ := fire_shape v target ev
    rw [h]; exact ih
/-! ### `open` and `close` in legacy mode -/

/-- The state after `open` in legacy mode, on a document that holds no element
with the identity of the instance, when the parser reads the markup as one
element that bears the identity. -/
theorem open_legacy_new (host : Host) (w : World) (self : Nat) (t : Transport) (p n0 : Nat)
    (tag : String) (attrs : List (String × String))
    (hself : w.transports[self]? = some t) (hleg : w.legacy = true)
    (htarget : (w.doc.body).orElse (fun _ => w.doc.documentElement) = some p)
    (hwf : w.WellFormed) (hnone : w.doc.withId t.index = [])
    (hparse : host.parse (markup (ES.prepareUrl w t) t.index) = .node n0 tag attrs .nil .nil)
    (hid : attrs.lookup "id" = some t.index) :
    ES.open host w self = (.returned self,
      ((({ w with
            next := w.next + 1 + 1,
            doc := w.doc.appendTo p (.node w.next "div" []
              (.node (w.next + 1) tag attrs .nil .nil) .nil) } : World
        ).setEventsource self (some (.element (w.next + 1)))
        ).addEventListener (.element (w.next + 1)) "io" (.relayData self)
        ).setProperty (.element (w.next + 1)) "error" (.relayError self)) := by
  have hc : w.next ∉ w.doc.nids :=
    fun h => Nat.lt_irrefl _ (hwf.2.1 _ (List.mem_append_left _ h))
  have hp : p ∈ w.doc.nids := Forest.target_mem_nids w.doc p htarget
  have hkids : (host.parse (markup (ES.prepareUrl w t) t.index)).relabel (w.next + 1) =
      .node (w.next + 1) tag attrs .nil .nil := by
    rw [hparse]
    rfl
  have hdoc : (w.doc.appendTo p (.node w.next "div" [] .nil .nil)).setKids w.next
      ((host.parse (markup (ES.prepareUrl w t) t.index)).relabel (w.next + 1)) =
      w.doc.appendTo p (.node w.next "div" [] (.node (w.next + 1) tag attrs .nil .nil) .nil) := by
    rw [hkids]
    exact Forest.setKids_appendTo p w.next "div" [] .nil _ w.doc hc
  have hget : (w.doc.appendTo p (.node w.next "div" []
      (.node (w.next + 1) tag attrs .nil .nil) .nil)).getElementById t.index
      = some (w.next + 1) :=
    Forest.getElementById_appendTo t.index p w.next (w.next + 1) tag _ w.doc hp hnone hid
  rw [open_legacy_found host w self t p (w.next + 1) hself hleg htarget (by rw [hdoc]; exact hget),
    hdoc, hkids]
  rfl

/-- The `close` that follows: the wrapper is the parent of the handle, its
parent is the element it was appended to. When the handle has a method `close`
the removal of the wrapper gives the document back; when it has none `close`
throws and changes nothing. -/
theorem close_legacy_new (host : Host) (v : World) (self : Nat) (t1 : Transport)
    (doc0 : Forest) (p c e : Nat) (tag : String) (attrs : List (String × String))
    (hself : v.transports[self]? = some t1) (hh : t1.eventsource = some (.element e))
    (hdoc : v.doc = doc0.appendTo p (.node c "div" [] (.node e tag attrs .nil .nil) .nil))
    (hp : p ∈ doc0.nids) (hc : c ∉ doc0.nids) (he : e ∉ doc0.nids) (hne : e ≠ c) :
    (host.hasClose tag = true →
      (ES.close host v self).1 = .returned self ∧ (ES.close host v self).2.doc = doc0) ∧
    (host.hasClose tag = false → ES.close host v self = (.threw .typeError, v)) := by
  have hroot_e : e ∉ v.doc.roots := by
    rw [hdoc, Forest.roots_appendTo]
    exact fun h => he (Forest.roots_subset_nids doc0 e h)
  have hroot_c : c ∉ v.doc.roots := by
    rw [hdoc, Forest.roots_appendTo]
    exact fun h => hc (Forest.roots_subset_nids doc0 c h)
  have hpe : v.doc.parentIn e = some c := by
    rw [hdoc]
    exact Forest.parentIn_appendTo_grandchild p c e "div" tag [] attrs doc0 hp he hne
  have hpc : v.doc.parentIn c = some p := by
    rw [hdoc]
    exact Forest.parentIn_appendTo_child p c "div" [] _ doc0 hp hc
  have hrem : v.doc.removeFrom p c = doc0 := by
    rw [hdoc]
    exact Forest.removeFrom_appendTo p c "div" [] _ doc0 hc
  have htag : v.tagOf e = tag := by
    unfold World.tagOf
    rw [hdoc, Forest.tagOf_appendTo_grandchild p c e "div" tag [] attrs doc0 hp he hne]
  constructor
  · intro hcl
    have hcl2 : hasClose host v (.element e) = true := by
      simp only [hasClose, htag, hcl]
    unfold ES.close
    simp only [hself, hh, hcl2, World.parentOfHandle, World.parentOfElement, hroot_e, hroot_c,
      hpe, hpc, if_false, World.removeChild, hrem, and_self, Bool.not_true, Bool.false_eq_true]
  · intro hcl
    have hcl2 : hasClose host v (.element e) = false := by
      simp only [hasClose, htag, hcl]
    exact close_without_method host v self t1 _ hself hh hcl2

/-! ### A further `close` -/

theorem parentOfElement_detached (w : World) (e c : Nat) (he : e ∉ w.doc.nids)
    (hpe : w.parentOfElement e = some (.element c)) : c ∈ w.detached.nids := by
  unfold World.parentOfElement at hpe
  have hroot : e ∉ w.doc.roots := fun h => he (Forest.roots_subset_nids _ _ h)
  simp only [hroot, if_false, Forest.parentIn_none e w.doc he] at hpe
  cases hq : w.detached.parentIn e with
  | none => rw [hq] at hpe; cases hpe
  | some q =>
    rw [hq] at hpe
    simp only [Option.map_some', Option.some.injEq, NodeRef.element.injEq] at hpe
    subst hpe
    exact (Forest.parentIn_some_mem e q w.detached hq).1

theorem removeChild_doc_of_not_mem (w : World) (p : NodeRef) (c : Nat) (hc : c ∉ w.doc.nids) :
    (w.removeChild p c).doc = w.doc := by
  cases p with
  | document =>
    exact Forest.dropRoot_of_not_mem c w.doc (fun h => hc (Forest.roots_subset_nids _ _ h))
  | element q => exact Forest.removeFrom_of_child_not_mem q c w.doc hc

/-- On a handle that is not in the document `close` leaves the document as it
is. -/
theorem close_doc_of_not_mem (host : Host) (w : World) (self : Nat) (t : Transport) (e : Nat)
    (hnd : (w.doc.nids ++ w.detached.nids).Nodup)
    (hself : w.transports[self]? = some t) (hh : t.eventsource = some (.element e))
    (he : e ∉ w.doc.nids) : (ES.close host w self).2.doc = w.doc := by
  obtain ⟨calls, hstate⟩ := close_state host w self
  rw [hstate]
  cases hrem : ES.removal host w self with
  | none => rfl
  | some pc =>
    obtain ⟨p, c⟩ := pc
    obtain ⟨t2, e2, ht2, hh2, hpe, _⟩ := removal_some host w self p c hrem
    have htt : t2 = t := Option.some.inj (ht2.symm.trans hself)
    subst htt
    have hee : e2 = e := by
      rw [hh] at hh2
      simpa using hh2.symm
    subst hee
    have hcd := parentOfElement_detached w e2 c he hpe
    have hc : c ∉ w.doc.nids := fun h => (List.nodup_append.mp hnd).2.2 h hcd
    exact removeChild_doc_of_not_mem w p c hc

/-- After the removal of its parent an element is not in the document. -/
theorem removeChild_not_mem (w : World) (hnd : (w.doc.nids ++ w.detached.nids).Nodup)
    (e c : Nat) (p : NodeRef) (hpe : w.parentOfElement e = some (.element c))
    (hpc : w.parentOfElement c = some p) : e ∉ (w.removeChild p c).doc.nids := by
  have hdoc : w.doc.nids.Nodup := hnd.of_append_left
  by_cases he : e ∈ w.doc.nids
  · have hroot : e ∉ w.doc.roots := by
      intro h
      simp [World.parentOfElement, h] at hpe
    obtain ⟨q, hq⟩ := Forest.parentIn_of_mem_not_root e w.doc he hroot
    have hqc : q = c := by
      simp only [World.parentOfElement, hroot, if_false, hq, Option.some.injEq,
        NodeRef.element.injEq] at hpe
      exact hpe
    subst hqc
    obtain ⟨s, hs, hes⟩ := Forest.child_mem_subtree e q w.doc hq hdoc
    have hcm : q ∈ w.doc.nids := (Forest.parentIn_some_mem e q w.doc hq).1
    have key : ∀ d : Forest, w.doc.nodes.Perm (d.nodes ++ s.nodes) → e ∉ d.nids := by
      intro d hperm hed
      have hp2 : w.doc.nids.Perm (d.nids ++ s.nids) := by
        rw [Forest.nids_eq_map_nodes w.doc]
        exact Forest.nids_perm_of_nodes hperm
      have hnd2 := hp2.nodup_iff.mp hdoc
      exact (List.nodup_append.mp hnd2).2.2 hed hes
    by_cases hcroot : q ∈ w.doc.roots
    · simp only [World.parentOfElement, hcroot, if_true, Option.some.injEq] at hpc
      subst hpc
      obtain ⟨s2, hs2, hperm⟩ := Forest.nodes_dropRoot_perm q w.doc hcroot hdoc
      have hss : s2 = s := Option.some.inj (hs2.symm.trans hs)
      subst hss
      exact key _ hperm
    · obtain ⟨q2, hq2⟩ := Forest.parentIn_of_mem_not_root q w.doc hcm hcroot
      simp only [World.parentOfElement, hcroot, if_false, hq2, Option.some.injEq] at hpc
      subst hpc
      obtain ⟨s2, hs2, hperm⟩ := Forest.nodes_removeFrom_perm q2 q w.doc hq2 hdoc
      have hss : s2 = s := Option.some.inj (hs2.symm.trans hs)
      subst hss
      exact key _ hperm
  · have hcd := parentOfElement_detached w e c he hpe
    have hc : c ∉ w.doc.nids := fun h => (List.nodup_append.mp hnd).2.2 h hcd
    rw [removeChild_doc_of_not_mem w p c hc]
    exact he

/-- A `close` after a `close` leaves the document as it is. -/
theorem close_close_doc (host : Host) (w : World) (self : Nat) (hwf : w.WellFormed) :
    (ES.close host (ES.close host w self).2 self).2.doc = (ES.close host w self).2.doc := by
  have hwf2 := close_wellFormed host w self hwf
  have htr : (ES.close host w self).2.transports = w.transports :=
    (close_shape host w self).2.2.2.1
  obtain ⟨calls, hstate⟩ := close_state host w self
  cases hrem : ES.removal host w self with
  | none =>
    rw [hrem] at hstate
    simp only at hstate
    obtain ⟨calls2, hstate2⟩ := close_state host (ES.close host w self).2 self
    have hrem2 : ES.removal host (ES.close host w self).2 self = none := by
      rw [hstate]
      exact hrem
    rw [hrem2] at hstate2
    rw [hstate2]
  | some pc =>
    obtain ⟨p, c⟩ := pc
    rw [hrem] at hstate
    simp only at hstate
    obtain ⟨t, e, ht, hh, hpe, hpc⟩ := removal_some host w self p c hrem
    have he : e ∉ (ES.close host w self).2.doc.nids := by
      rw [hstate]
      exact removeChild_not_mem w hwf.1 e c p hpe hpc
    exact close_doc_of_not_mem host _ self t e hwf2.1 (by rw [htr]; exact ht) hh he

/-! ### A further `close` in legacy mode -/

namespace Forest

/-- The subtree of the parent of an element holds the element among its
children. -/
theorem subtree_of_parent (e c : Nat) (f : Forest) (h : f.parentIn e = some c)
    (hnd : f.nids.Nodup) :
    ∃ t a k, f.subtree c = some (node c t a k nil) ∧ e ∈ k.roots := by
  induction f with
  | nil => cases h
  | node n t a k r ihk ihr =>
    simp only [nids, List.nodup_cons, List.mem_append, not_or, List.nodup_append] at hnd
    obtain ⟨⟨hnk, hnr⟩, hdk, hdr, hdis⟩ := hnd
    simp only [parentIn] at h
    split at h
    · rename_i hroot
      simp only [Option.some.injEq] at h
      subst h
      exact ⟨t, a, k, by simp [subtree], hroot⟩
    · split at h
      · rename_i p0 hp0
        simp only [Option.some.injEq] at h
        subst h
        obtain ⟨hpk, _⟩ := parentIn_some_mem e p0 k hp0
        have hn : ¬ n = p0 := fun e' => hnk (e' ▸ hpk)
        obtain ⟨t', a', k', hs, hmem⟩ := ihk hp0 hdk
        exact ⟨t', a', k', by simp [subtree, hn, hs], hmem⟩
      · obtain ⟨hcr, _⟩ := parentIn_some_mem e c r h
        have hn : ¬ n = c := fun e' => hnr (e' ▸ hcr)
        have hck : c ∉ k.nids := fun h' => hdis h' hcr
        obtain ⟨t', a', k', hs, hmem⟩ := ihr h hdr
        exact ⟨t', a', k', by simp [subtree, hn, subtree_none c k hck, hs], hmem⟩

end Forest

/-- After the removal of the parent `c` of an element `e` of the document, the
parent of `e` is still `c`, and `c` has no parent. -/
theorem removeChild_parents (w : World) (hnd : (w.doc.nids ++ w.detached.nids).Nodup)
    (e c : Nat) (p : NodeRef) (he : e ∈ w.doc.nids)
    (hpe : w.parentOfElement e = some (.element c))
    (hpc : w.parentOfElement c = some p) :
    (w.removeChild p c).parentOfElement e = some (.element c) ∧
    (w.removeChild p c).parentOfElement c = none := by
  have hdoc : w.doc.nids.Nodup := hnd.of_append_left
  have hdis : ∀ x, x ∈ w.doc.nids → x ∉ w.detached.nids := by
    intro x h1 h2
    exact (List.nodup_append.mp hnd).2.2 h1 h2
  have hroot : e ∉ w.doc.roots := by
    intro h
    simp [World.parentOfElement, h] at hpe
  obtain ⟨q, hq⟩ := Forest.parentIn_of_mem_not_root e w.doc he hroot
  have hqc : q = c := by
    simp only [World.parentOfElement, hroot, if_false, hq, Option.some.injEq,
      NodeRef.element.injEq] at hpe
    exact hpe
  subst hqc
  obtain ⟨t, a, k, hs, hek⟩ := Forest.subtree_of_parent e q w.doc hq hdoc
  have hcm : q ∈ w.doc.nids := (Forest.parentIn_some_mem e q w.doc hq).1
  have hsub : w.subtreeOf q = .node q t a k .nil := by
    simp [World.subtreeOf, hs]
  -- the elements of the subtree are not in what stays of the document
  have key : ∀ d : Forest, w.doc.nodes.Perm (d.nodes ++ (Forest.node q t a k .nil).nodes) →
      q ∉ d.nids ∧ e ∉ d.nids ∧ q ∉ k.nids := by
    intro d hperm
    have hp2 : w.doc.nids.Perm (d.nids ++ (Forest.node q t a k .nil).nids) := by
      rw [Forest.nids_eq_map_nodes w.doc]
      exact Forest.nids_perm_of_nodes hperm
    have hnd2 := hp2.nodup_iff.mp hdoc
    obtain ⟨_, hs2, hdis2⟩ := List.nodup_append.mp hnd2
    have hqs : q ∈ (Forest.node q t a k .nil).nids := by simp [Forest.nids]
    have hes : e ∈ (Forest.node q t a k .nil).nids := by
      simp only [Forest.nids, List.append_nil, List.mem_cons]
      exact Or.inr (Forest.roots_subset_nids k e hek)
    refine ⟨fun h => hdis2 h hqs, fun h => hdis2 h hes, ?_⟩
    simp only [Forest.nids, List.append_nil, List.nodup_cons] at hs2
    exact hs2.1
  have hed : e ∉ w.detached.nids := hdis e he
  have hqd : q ∉ w.detached.nids := hdis q hcm
  have hfinal : ∀ v : World, v.detached = w.detached.append (.node q t a k .nil) →
      (q ∉ v.doc.nids ∧ e ∉ v.doc.nids ∧ q ∉ k.nids) →
      v.parentOfElement e = some (.element q) ∧ v.parentOfElement q = none := by
    intro v hdet ⟨h1, h2, h3⟩
    have hr1 : q ∉ v.doc.roots := fun h => h1 (Forest.roots_subset_nids _ _ h)
    have hr2 : e ∉ v.doc.roots := fun h => h2 (Forest.roots_subset_nids _ _ h)
    have hkr : q ∉ k.roots := fun h => h3 (Forest.roots_subset_nids _ _ h)
    constructor
    · simp only [World.parentOfElement, hr2, if_false, Forest.parentIn_none e v.doc h2, hdet,
        Forest.parentIn_append e _ _ hed, Forest.parentIn, hek, if_true, Option.map_some']
    · simp only [World.parentOfElement, hr1, if_false, Forest.parentIn_none q v.doc h1, hdet,
        Forest.parentIn_append q _ _ hqd, Forest.parentIn, hkr, Forest.parentIn_none q k h3,
        Option.map_none']
  by_cases hcroot : q ∈ w.doc.roots
  · simp only [World.parentOfElement, hcroot, if_true, Option.some.injEq] at hpc
    subst hpc
    obtain ⟨s2, hs2, hperm⟩ := Forest.nodes_dropRoot_perm q w.doc hcroot hdoc
    have hss : s2 = .node q t a k .nil := Option.some.inj (hs2.symm.trans hs)
    subst hss
    exact hfinal (w.removeChild .document q) (by simp only [World.removeChild, hsub])
      (key _ hperm)
  · obtain ⟨q2, hq2⟩ := Forest.parentIn_of_mem_not_root q w.doc hcm hcroot
    simp only [World.parentOfElement, hcroot, if_false, hq2, Option.some.injEq] at hpc
    subst hpc
    obtain ⟨s2, hs2, hperm⟩ := Forest.nodes_removeFrom_perm q2 q w.doc hq2 hdoc
    have hss : s2 = .node q t a k .nil := Option.some.inj (hs2.symm.trans hs)
    subst hss
    have hq2m : q2 ∈ w.doc.nids := (Forest.parentIn_some_mem q q2 w.doc hq2).1
    exact hfinal (w.removeChild (.element q2) q)
      (by simp only [World.removeChild, hsub,
        Forest.removeFrom_of_not_mem q2 q w.detached (hdis q2 hq2m)])
      (key _ hperm)

/-- The method `close` on a handle whose wrapper has no parent, or whose
parent is the document: it throws once it has called the handle's `close`. -/
theorem close_without_parent (host : Host) (w : World) (self : Nat) (t : Transport) (e : Nat)
    (hself : w.transports[self]? = some t) (hh : t.eventsource = some (.element e))
    (hc : hasClose host w (.element e) = true)
    (hpar : w.parentOfElement e = some .document ∨
      ∃ c, w.parentOfElement e = some (.element c) ∧ w.parentOfElement c = none) :
    ES.close host w self =
      (.threw .typeError, { w with log := w.log ++ [.handleClose (.element e)] }) := by
  have hlog : ∀ c, ({ w with log := w.log ++ [Call.handleClose (.element e)] } :
      World).parentOfElement c = w.parentOfElement c := fun _ => rfl
  rcases hpar with hd | ⟨c, hpe, hpc⟩
  · simp [ES.close, hself, hh, hc, World.parentOfHandle, hd]
  · simp [ES.close, hself, hh, hc, World.parentOfHandle, hpe, hlog, hpc]

/-- In a well-formed state, on a handle that is an element of the document, a
`close` after a `close` throws: at the handle, when it has no method `close`,
or else once it has called that method, at the wrapper. -/
theorem close_close_legacy (host : Host) (w : World) (self : Nat) (t : Transport) (e : Nat)
    (hwf : w.WellFormed) (hself : w.transports[self]? = some t)
    (hh : t.eventsource = some (.element e)) (he : e ∈ w.doc.nids) :
    ES.close host (ES.close host w self).2 self =
      (.threw .typeError,
        if hasClose host (ES.close host w self).2 (.element e) then
          { (ES.close host w self).2 with
            log := (ES.close host w self).2.log ++ [.handleClose (.element e)] }
        else (ES.close host w self).2) := by
  have htr : (ES.close host w self).2.transports = w.transports :=
    (close_shape host w self).2.2.2.1
  have hself2 : (ES.close host w self).2.transports[self]? = some t := by
    rw [htr]; exact hself
  cases hc2 : hasClose host (ES.close host w self).2 (.element e) with
  | false =>
    simp only [Bool.false_eq_true, if_false]
    exact close_without_method host _ self t _ hself2 hh hc2
  | true =>
    simp only [if_true]
    refine close_without_parent host _ self t e hself2 hh hc2 ?_
    obtain ⟨calls, hstate⟩ := close_state host w self
    cases hrem : ES.removal host w self with
    | none =>
      rw [hrem] at hstate
      simp only at hstate
      have hc1 : hasClose host w (.element e) = true := by
        rw [hstate] at hc2
        exact hc2
      have hpar : (ES.close host w self).2.parentOfElement e = w.parentOfElement e := by
        rw [hstate]
        rfl
      by_cases hroot : e ∈ w.doc.roots
      · left
        rw [hpar]
        simp [World.parentOfElement, hroot]
      · exfalso
        obtain ⟨c, hq⟩ := Forest.parentIn_of_mem_not_root e w.doc he hroot
        have hcm : c ∈ w.doc.nids := (Forest.parentIn_some_mem e c w.doc hq).1
        have hpe : w.parentOfElement e = some (.element c) := by
          simp [World.parentOfElement, hroot, hq]
        have hpc : ∃ p, w.parentOfElement c = some p := by
          by_cases hcr : c ∈ w.doc.roots
          · exact ⟨.document, by simp [World.parentOfElement, hcr]⟩
          · obtain ⟨q2, hq2⟩ := Forest.parentIn_of_mem_not_root c w.doc hcm hcr
            exact ⟨.element q2, by simp [World.parentOfElement, hcr, hq2]⟩
        obtain ⟨p, hpc⟩ := hpc
        simp [ES.removal, hself, hh, hc1, World.parentOfHandle, hpe, hpc] at hrem
    | some pc =>
      obtain ⟨p, c⟩ := pc
      rw [hrem] at hstate
      simp only at hstate
      obtain ⟨t2, e2, ht2, hh2, hpe, hpc⟩ := removal_some host w self p c hrem
      have htt : t2 = t := Option.some.inj (ht2.symm.trans hself)
      subst htt
      have hee : e2 = e := by
        rw [hh] at hh2
        simpa using hh2.symm
      subst hee
      obtain ⟨h1, h2⟩ := removeChild_parents w hwf.1 e2 c p he hpe hpc
      right
      refine ⟨c, ?_, ?_⟩
      · rw [hstate]
        exact h1
      · rw [hstate]
        exact h2
/-! ### Two instances with one identity -/

theorem constructions_two (w : World) (pre : List (Nat × String)) (a b : Nat × String) :
    (constructions w (pre ++ [a, b])).transports =
      (constructions w pre).transports ++
        [{ socket := a.1, base := a.2,
           index := "EventSource_" ++ decimal (constructions w pre).id, eventsource := none },
         { socket := b.1, base := b.2,
           index := "EventSource_" ++ decimal (jsSucc (constructions w pre).id),
           eventsource := none }] := by
  rw [constructions_append]
  simp [constructions, ES]

/-- Two instances that bear the identity `EventSource_9007199254740992`, on the
page `pageDoc` in legacy mode, opened one after the other: the second `open`
finds the element of the first, both instances hold it as their handle, and an
error on it goes to the socket of the second instance. -/
theorem shared_identity_error (host : Host) (w : World) (i j s1 s2 : Nat) (hij : i ≠ j)
    (hleg : w.legacy = true) (hdoc : w.doc = pageDoc) (hnext : w.next = 10)
    (hhand : w.handlers = [])
    (hi : w.transports[i]? = some ⟨s1, "http://h/x", "EventSource_9007199254740992", none⟩)
    (hj : w.transports[j]? = some ⟨s2, "http://h/x", "EventSource_9007199254740992", none⟩)
    (hparse : host.parse (markup "http://h/x?l=1" "EventSource_9007199254740992") =
      .node 0 "event-source"
        [("src", "http://h/x?l=1"), ("id", "EventSource_9007199254740992")] .nil .nil) :
    (ES.open host w i).1 = .returned i ∧
    (ES.open host (ES.open host w i).2 j).1 = .returned j ∧
    (ES.open host (ES.open host w i).2 j).2.transports[i]? =
      some ⟨s1, "http://h/x", "EventSource_9007199254740992", some (.element 11)⟩ ∧
    (ES.open host (ES.open host w i).2 j).2.transports[j]? =
      some ⟨s2, "http://h/x", "EventSource_9007199254740992", some (.element 11)⟩ ∧
    (ES.open host (ES.open host w i).2 j).2.doc.withId "EventSource_9007199254740992" =
      [11, 13] ∧
    ∀ e : Event, e.type = "error" →
      fire (ES.open host (ES.open host w i).2 j).2 (.element 11) e =
        { (ES.open host (ES.open host w i).2 j).2 with
          log := (ES.open host (ES.open host w i).2 j).2.log ++ [.socketOnError s2 e] } := by
  have hurl1 : ES.prepareUrl w ⟨s1, "http://h/x", "EventSource_9007199254740992", none⟩ =
      "http://h/x?l=1" := by
    simp only [ES.prepareUrl, hleg, if_true]
    decide
  have hopen1 := open_legacy_found host w i _ 2 11 hi hleg (by rw [hdoc]; decide)
    (by rw [hdoc, hnext, hurl1, hparse]; dsimp only; decide)
  have hleg1 : (ES.open host w i).2.legacy = true := by
    rw [(open_shape host w i).2.1]; exact hleg
  have hdoc1 : (ES.open host w i).2.doc =
      .node 0 "html" [] (.node 1 "head" [] .nil (.node 2 "body" []
        (.node 3 "p" [] .nil (.node 10 "div" []
          (.node 11 "event-source"
            [("src", "http://h/x?l=1"), ("id", "EventSource_9007199254740992")]
            .nil .nil) .nil)) .nil)) .nil := by
    rw [hopen1]
    show Forest.setKids _ _ _ = _
    rw [hdoc, hnext, hurl1, hparse]
    decide
  have hnext1 : (ES.open host w i).2.next = 12 := by
    rw [hopen1]
    show w.next + 1 + Forest.size _ = 12
    rw [hnext, hurl1, hparse]
    decide
  have hhand1 : (ES.open host w i).2.handlers =
      [⟨.element 11, "io", false, .relayData i⟩, ⟨.element 11, "error", true, .relayError i⟩] := by
    rw [hopen1]
    simp [hhand, setHandler]
  have hi1 : (ES.open host w i).2.transports[i]? =
      some ⟨s1, "http://h/x", "EventSource_9007199254740992", some (.element 11)⟩ := by
    rw [hopen1]
    simp only [setProperty_transports, addEventListener_transports]
    exact setEventsource_self _ _ _ _ hi
  have hj1 : (ES.open host w i).2.transports[j]? =
      some ⟨s2, "http://h/x", "EventSource_9007199254740992", none⟩ := by
    rw [hopen1]
    simp only [setProperty_transports, addEventListener_transports, setEventsource_transports,
      List.getElem?_modify]
    show (fun a => if i = j then _ else a) <$> w.transports[j]? = _
    rw [hj]
    simp [hij]
  have hurl2 : ES.prepareUrl (ES.open host w i).2
      ⟨s2, "http://h/x", "EventSource_9007199254740992", none⟩ = "http://h/x?l=1" := by
    simp only [ES.prepareUrl, hleg1, if_true]
    decide
  have hopen2 := open_legacy_found host (ES.open host w i).2 j _ 2 11 hj1 hleg1
    (by rw [hdoc1]; decide) (by rw [hdoc1, hnext1, hurl2, hparse]; dsimp only; decide)
  have hhand2 : (ES.open host (ES.open host w i).2 j).2.handlers =
      [⟨.element 11, "io", false, .relayData i⟩, ⟨.element 11, "error", true, .relayError j⟩,
       ⟨.element 11, "io", false, .relayData j⟩] := by
    rw [hopen2]
    simp [hhand1, setHandler]
  have hj2 : (ES.open host (ES.open host w i).2 j).2.transports[j]? =
      some ⟨s2, "http://h/x", "EventSource_9007199254740992", some (.element 11)⟩ := by
    rw [hopen2]
    simp only [setProperty_transports, addEventListener_transports]
    exact setEventsource_self _ _ _ _ hj1
  have hi2 : (ES.open host (ES.open host w i).2 j).2.transports[i]? =
      some ⟨s1, "http://h/x", "EventSource_9007199254740992", some (.element 11)⟩ := by
    rw [hopen2]
    simp only [setProperty_transports, addEventListener_transports, setEventsource_transports,
      List.getElem?_modify]
    show (fun a => if j = i then _ else a) <$> (ES.open host w i).2.transports[i]? = _
    rw [hi1]
    simp [fun h : j = i => hij h.symm]
  have hdoc2 : (ES.open host (ES.open host w i).2 j).2.doc.withId
      "EventSource_9007199254740992" = [11, 13] := by
    rw [hopen2]
    show Forest.withId _ (Forest.setKids _ _ _) = _
    rw [hdoc1, hnext1, hurl2, hparse]
    decide
  refine ⟨by rw [hopen1], by rw [hopen2], hi2, hj2, hdoc2, ?_⟩
  intro e hty
  have hreg : handlersFor (ES.open host (ES.open host w i).2 j).2.handlers (.element 11) e.type =
      [⟨.element 11, "error", true, .relayError j⟩] := by
    rw [hhand2, hty]
    simp [handlersFor]
  rw [fire_single _ _ _ _ hreg]
  simp only [Callback.invoke, hj2]
  rfl

/-- The state after the constructions of `pre` and of two more instances, for
the sockets 8 and 9, on a legacy host, when `pre` holds `2^53` constructions:
the two instances bear one identity. -/
theorem shared_identity_past_maxExact (host : Host) (w : World) (pre : List (Nat × String))
    (i : Nat) (hi : i = pre.length) (hpre : pre.length = 2 ^ 53)
    (hw : w = constructions (load legacyWindow pageDoc 10)
      (pre ++ [(8, "http://h/x"), (9, "http://h/x")])) :
    w.legacy = true ∧ w.doc = pageDoc ∧ w.next = 10 ∧ w.handlers = [] ∧
    w.transports[i]? = some ⟨8, "http://h/x", "EventSource_9007199254740992", none⟩ ∧
    w.transports[i + 1]? = some ⟨9, "http://h/x", "EventSource_9007199254740992", none⟩ ∧
    Reaches host (load legacyWindow pageDoc 10) w := by
  subst hw
  obtain ⟨_, h2, h3, _, h5, h6⟩ := constructions_frame
    (pre ++ [(8, "http://h/x"), (9, "http://h/x")]) (load legacyWindow pageDoc 10)
  have hreach : Reaches host (load legacyWindow pageDoc 10)
      (constructions (load legacyWindow pageDoc 10) pre) :=
    constructions_reaches host pre _ _ Reaches.refl
  have hlen : (constructions (load legacyWindow pageDoc 10) pre).transports.length = i := by
    rw [constructions_length, hi]
    simp [load]
  have hid : (constructions (load legacyWindow pageDoc 10) pre).id = 2 ^ 53 := by
    rw [(reaches_counter host _ _ _ _ hreach).1, hlen, hi, hpre]
    decide
  have hidx1 : "EventSource_" ++ decimal (2 ^ 53) = "EventSource_9007199254740992" := by decide
  have hidx2 : "EventSource_" ++ decimal (jsSucc (2 ^ 53)) = "EventSource_9007199254740992" := by
    decide
  refine ⟨h2.trans (by decide), h3, h5, h6, ?_, ?_,
    constructions_reaches host _ _ _ Reaches.refl⟩
  · rw [constructions_two, hid, hidx1, hidx2, List.getElem?_append_right (by omega), hlen]
    simp
  · rw [constructions_two, hid, hidx1, hidx2, List.getElem?_append_right (by omega), hlen]
    simp
/-! ## The claims -/

/-- C1: for every base URL and every value of the legacy flag, `prepareUrl`
returns the base URL followed by `?l=1` when the flag is true and the base URL
itself when it is false; the marker is there if and only if the flag is true. -/
theorem prepareUrl_marker_iff_legacy (w : World) (t : Transport) :
    ES.prepareUrl w t = (if w.legacy then t.base ++ "?l=1" else t.base) ∧
    (ES.prepareUrl w t = t.base ++ "?l=1" ↔ w.legacy = true) ∧
    (ES.prepareUrl w t = t.base ↔ w.legacy = false) := by
  unfold ES.prepareUrl
  cases hl : w.legacy
  · simp [(append_marker_ne t.base).symm]
  · simp [append_marker_ne t.base]

/-- C2: on a host with the standard API, `ES.check` returns the object
`EventSource.prototype`, which is not the boolean `true`; on a host with the
legacy draft only it returns `true`. -/
theorem check_returns_prototype :
    ES.check standardWorld = .ok (.object 102) ∧
    ES.check standardWorld ≠ .ok (.bool true) ∧
    ES.check legacyWorld = .ok (.bool true) := by
  decide

/-- C3, as stated, fails: on a host with both the standard API and the legacy
symbol, `open` creates no native `EventSource`; it appends a wrapper with the
custom element to the body and takes that element as its handle. On a host
with the standard API only, with a URL on which the constructor throws, `open`
throws and leaves no handle. -/
theorem open_legacy_branch_with_both :
    legacy bothWindow = true ∧
    bothWindow.get "EventSource" = .func 101 ∧
    (ES.open domHost bothWorld 0).1 = .returned 0 ∧
    (ES.open domHost bothWorld 0).2.log = bothWorld.log ∧
    (ES.open domHost bothWorld 0).2.transports[0]? =
      some ⟨7, "http://h/x", "EventSource_0", some (.element 11)⟩ ∧
    (ES.open domHost bothWorld 0).2.doc =
      .node 0 "html" [] (.node 1 "head" [] .nil (.node 2 "body" []
        (.node 3 "p" [] .nil (.node 10 "div" []
          (.node 11 "event-source" [("src", "http://h/x?l=1"), ("id", "EventSource_0")]
            .nil .nil) .nil)) .nil)) .nil ∧
    (ES.open domHost badUrlWorld 0).1 = .threw .syntaxError ∧
    (ES.open domHost badUrlWorld 0).2.transports[0]? =
      some ⟨7, "http://", "EventSource_0", none⟩ := by
  decide

/-- C3, as amended: `open` chooses its branch by the flag `legacy` alone, which
is true exactly when `window.addEventStream` is a function. When it is false
and `EventSource` is a function of the host, `open` calls the constructor once
with the prepared URL and leaves the document as it is; when the constructor
returns, `open` returns the instance with the new object as its handle, and
when it throws, `open` throws and the instance is as before. When the flag is
true, also on a host that has `EventSource` as well, `open` makes no native
`EventSource` and, on a document with a body or a document element, appends
the wrapper to it, with what the parser makes of the markup as its children. -/
theorem open_branch_by_legacy_flag (host : Host) (w : World) (self : Nat) (t : Transport)
    (hmod : w.legacy = legacy w.window) (hself : w.transports[self]? = some t) :
    (legacy w.window = false → ∀ r, w.window.get "EventSource" = .func r →
      (ES.open host w self).2.log = w.log ++ [.newEventSource w.next (ES.prepareUrl w t)] ∧
      (ES.open host w self).2.doc = w.doc ∧ (ES.open host w self).2.detached = w.detached ∧
      (host.accepts (ES.prepareUrl w t) = true →
        (ES.open host w self).1 = .returned self ∧
        (ES.open host w self).2.transports[self]? =
          some { t with eventsource := some (.native w.next) }) ∧
      (host.accepts (ES.prepareUrl w t) = false →
        (ES.open host w self).1 = .threw .syntaxError ∧
        (ES.open host w self).2.transports = w.transports)) ∧
    (legacy w.window = true →
      (ES.open host w self).2.log = w.log ∧
      (ES.open host w self).2.detached = w.detached ∧
      ∀ p, (w.doc.body).orElse (fun _ => w.doc.documentElement) = some p →
        (ES.open host w self).2.doc =
          (w.doc.appendTo p (.node w.next "div" [] .nil .nil)).setKids w.next
            ((host.parse (markup (ES.prepareUrl w t) t.index)).relabel (w.next + 1))) := by
  constructor
  · intro hleg r hfn
    cases hacc : host.accepts (ES.prepareUrl w t) with
    | true =>
      rw [open_native_accepted host w self t r hself (hmod.trans hleg) hfn hacc]
      exact ⟨rfl, rfl, rfl, fun _ => ⟨rfl, setEventsource_self _ _ _ _ hself⟩,
        fun h => Bool.noConfusion h⟩
    | false =>
      rw [open_native_rejected host w self t r hself (hmod.trans hleg) hfn hacc]
      exact ⟨rfl, rfl, rfl, fun h => Bool.noConfusion h, fun _ => ⟨rfl, rfl⟩⟩
  · intro hleg
    have hl : w.legacy = true := hmod.trans hleg
    refine ⟨?_, (open_shape host w self).2.2.2.1, ?_⟩
    · cases htarget : (w.doc.body).orElse (fun _ => w.doc.documentElement) with
      | none => rw [open_legacy_no_target host w self t hself hl htarget]
      | some p =>
        cases hfound : ((w.doc.appendTo p (.node w.next "div" [] .nil .nil)).setKids w.next
            ((host.parse (markup (ES.prepareUrl w t) t.index)).relabel
              (w.next + 1))).getElementById t.index with
        | none => rw [open_legacy_not_found host w self t p hself hl htarget hfound]; rfl
        | some e => rw [open_legacy_found host w self t p e hself hl htarget hfound]; rfl
    · intro p htarget
      cases hfound : ((w.doc.appendTo p (.node w.next "div" [] .nil .nil)).setKids w.next
          ((host.parse (markup (ES.prepareUrl w t) t.index)).relabel
            (w.next + 1))).getElementById t.index with
      | none => rw [open_legacy_not_found host w self t p hself hl htarget hfound]; rfl
      | some e => rw [open_legacy_found host w self t p e hself hl htarget hfound]; rfl

theorem open_branch_by_legacy_flag_witness :
    ((ES.open domHost standardWorld 0).1 = .returned 0 ∧
      (ES.open domHost standardWorld 0).2.log =
        standardWorld.log ++ [.newEventSource 10 "http://h/x"] ∧
      (ES.open domHost standardWorld 0).2.doc = standardWorld.doc) ∧
    ((ES.open domHost badUrlWorld 0).1 = .threw .syntaxError ∧
      (ES.open domHost badUrlWorld 0).2.transports = badUrlWorld.transports) ∧
    (ES.open domHost bothWorld 0).2.log = bothWorld.log :=
  ⟨by
    have h := (open_branch_by_legacy_flag domHost standardWorld 0
      ⟨7, "http://h/x", "EventSource_0", none⟩ (by decide) (by decide)).1 (by decide) 101
      (by decide)
    exact ⟨(h.2.2.2.1 (by decide)).1, h.1, h.2.1⟩,
   ((open_branch_by_legacy_flag domHost badUrlWorld 0
      ⟨7, "http://", "EventSource_0", none⟩ (by decide) (by decide)).1 (by decide) 101
      (by decide)).2.2.2.2 (by decide),
   ((open_branch_by_legacy_flag domHost bothWorld 0
      ⟨7, "http://h/x", "EventSource_0", none⟩ (by decide) (by decide)).2 (by decide)).1⟩

/-- C4: on an instance without a connection handle, `close` returns the
instance, and the state after it is the state before with one call of the base
`close` added to the trace: the document, the handlers and the instances are
as they were. -/
theorem close_without_handle (host : Host) (w : World) (self : Nat) (t : Transport)
    (hself : w.transports[self]? = some t) (hnone : t.eventsource = none) :
    ES.close host w self = (.returned self, { w with log := w.log ++ [.baseClose self] }) := by
  simp [ES.close, hself, hnone]

theorem close_without_handle_witness :
    legacyWorld.transports[0]? = some ⟨7, "http://h/x", "EventSource_0", none⟩ ∧
    ES.close domHost legacyWorld 0 =
      (.returned 0, { legacyWorld with log := legacyWorld.log ++ [.baseClose 0] }) :=
  ⟨by decide,
    close_without_handle domHost legacyWorld 0 ⟨7, "http://h/x", "EventSource_0", none⟩
      (by decide) rfl⟩

/-- C5, as stated, fails: after `open` and `close` in native mode the handle is
still the native handle that `open` made, and a further `close` calls its
`close` again. In legacy mode, on a host whose `event-source` element has a
method `close`, the handle is still there as well, and a further `close`
throws once it has called the handle's `close`; on a host whose
`event-source` element has none, `close` throws and the handle is still
there. -/
theorem handle_present_after_close :
    (ES.close domHost (ES.open domHost standardWorld 0).2 0).1 = .returned 0 ∧
    (ES.close domHost (ES.open domHost standardWorld 0).2 0).2.transports[0]? =
      some ⟨7, "http://h/x", "EventSource_0", some (.native 10)⟩ ∧
    (ES.close domHost (ES.close domHost (ES.open domHost standardWorld 0).2 0).2 0).2.log =
      (ES.close domHost (ES.open domHost standardWorld 0).2 0).2.log ++
        [.handleClose (.native 10), .baseClose 0] ∧
    (ES.close draftHost (ES.open draftHost legacyWorld 0).2 0).1 = .returned 0 ∧
    (ES.close draftHost (ES.open draftHost legacyWorld 0).2 0).2.transports[0]? =
      some ⟨7, "http://h/x", "EventSource_0", some (.element 11)⟩ ∧
    ES.close draftHost (ES.close draftHost (ES.open draftHost legacyWorld 0).2 0).2 0 =
      (.threw .typeError,
        { (ES.close draftHost (ES.open draftHost legacyWorld 0).2 0).2 with
          log := (ES.close draftHost (ES.open draftHost legacyWorld 0).2 0).2.log ++
            [.handleClose (.element 11)] }) ∧
    (ES.close domHost (ES.open domHost legacyWorld 0).2 0).1 = .threw .typeError ∧
    (ES.close domHost (ES.open domHost legacyWorld 0).2 0).2.transports[0]? =
      some ⟨7, "http://h/x", "EventSource_0", some (.element 11)⟩ := by
  decide

/-- C5, as amended: `open` leaves a handle on the instance and `close` does not
clear it. After `open` and `close`, in either mode, the instance holds the
handle that `open` set; a further `close` leaves the document as it is, and
calls the handle's `close` again when the handle has such a method. In native
mode the further `close` returns the instance, and the state after it is the
state before with that call and one call of the base `close` added to the
trace. In legacy mode the further `close` throws: at the handle, when it has no
method `close`, and changes nothing; or else, once it has called that method,
at the wrapper, and makes no call of the base `close`. -/
theorem close_keeps_handle (host : Host) (w w1 : World) (self : Nat) (hwf : w.WellFormed)
    (hopen : ES.open host w self = (.returned self, w1)) :
    ∃ t h, w1.transports[self]? = some t ∧ t.eventsource = some h ∧
      (ES.close host w1 self).2.transports[self]? = some t ∧
      (ES.close host (ES.close host w1 self).2 self).2.doc = (ES.close host w1 self).2.doc ∧
      (hasClose host (ES.close host w1 self).2 h = true →
        ((ES.close host w1 self).2.log ++ [.handleClose h]) <+:
          (ES.close host (ES.close host w1 self).2 self).2.log) ∧
      (w.legacy = false →
        ES.close host (ES.close host w1 self).2 self =
          (.returned self,
            { (ES.close host w1 self).2 with
              log := (ES.close host w1 self).2.log ++ [.handleClose h, .baseClose self] })) ∧
      (w.legacy = true →
        ES.close host (ES.close host w1 self).2 self =
          (.threw .typeError,
            if hasClose host (ES.close host w1 self).2 h then
              { (ES.close host w1 self).2 with
                log := (ES.close host w1 self).2.log ++ [.handleClose h] }
            else (ES.close host w1 self).2)) := by
  obtain ⟨t, h, _, h1, hcases⟩ := open_returned_handle host w w1 self hopen
  have hwf1 : w1.WellFormed := by
    have := open_wellFormed host w self hwf
    rwa [hopen] at this
  have htr : (ES.close host w1 self).2.transports = w1.transports :=
    (close_shape host w1 self).2.2.2.1
  have h2 : (ES.close host w1 self).2.transports[self]? =
      some { t with eventsource := some h } := by
    rw [htr]; exact h1
  refine ⟨_, h, h1, rfl, h2, close_close_doc host w1 self hwf1, ?_, ?_, ?_⟩
  · intro hc
    exact close_calls_handle_close host _ self _ h h2 rfl hc
  · intro hleg
    rcases hcases with ⟨_, hnat, _⟩ | ⟨hl, _, _⟩
    · subst hnat
      exact close_native host _ self _ w.next h2 rfl
    · rw [hleg] at hl
      cases hl
  · intro hleg
    rcases hcases with ⟨hl, _, _⟩ | ⟨_, ⟨e, hel, hfound⟩, _⟩
    · rw [hleg] at hl
      cases hl
    · subst hel
      exact close_close_legacy host w1 self _ e hwf1 h1 rfl
        (Forest.getElementById_mem _ _ _ hfound)

theorem close_keeps_handle_witness :
    (queryWorld.WellFormed ∧
      ES.open domHost queryWorld 0 = (.returned 0, (ES.open domHost queryWorld 0).2) ∧
      ∃ t h, (ES.open domHost queryWorld 0).2.transports[0]? = some t ∧
        t.eventsource = some h ∧
        (ES.close domHost (ES.open domHost queryWorld 0).2 0).2.transports[0]? = some t ∧
        (ES.close domHost (ES.close domHost (ES.open domHost queryWorld 0).2 0).2 0).2.doc =
          (ES.close domHost (ES.open domHost queryWorld 0).2 0).2.doc ∧
        (hasClose domHost (ES.close domHost (ES.open domHost queryWorld 0).2 0).2 h = true →
          ((ES.close domHost (ES.open domHost queryWorld 0).2 0).2.log ++
              [.handleClose h]) <+:
            (ES.close domHost (ES.close domHost (ES.open domHost queryWorld 0).2 0).2
              0).2.log) ∧
        (queryWorld.legacy = false →
          ES.close domHost (ES.close domHost (ES.open domHost queryWorld 0).2 0).2 0 =
            (.returned 0,
              { (ES.close domHost (ES.open domHost queryWorld 0).2 0).2 with
                log := (ES.close domHost (ES.open domHost queryWorld 0).2 0).2.log ++
                  [.handleClose h, .baseClose 0] })) ∧
        (queryWorld.legacy = true →
          ES.close domHost (ES.close domHost (ES.open domHost queryWorld 0).2 0).2 0 =
            (.threw .typeError,
              if hasClose domHost (ES.close domHost (ES.open domHost queryWorld 0).2 0).2 h then
                { (ES.close domHost (ES.open domHost queryWorld 0).2 0).2 with
                  log := (ES.close domHost (ES.open domHost queryWorld 0).2 0).2.log ++
                    [.handleClose h] }
              else (ES.close domHost (ES.open domHost queryWorld 0).2 0).2))) ∧
    (standardWorld.WellFormed ∧
      ES.open domHost standardWorld 0 = (.returned 0, (ES.open domHost standardWorld 0).2) ∧
      ∃ t h, (ES.open domHost standardWorld 0).2.transports[0]? = some t ∧
        t.eventsource = some h ∧
        (ES.close domHost (ES.open domHost standardWorld 0).2 0).2.transports[0]? = some t ∧
        (ES.close domHost (ES.close domHost (ES.open domHost standardWorld 0).2 0).2
            0).2.doc =
          (ES.close domHost (ES.open domHost standardWorld 0).2 0).2.doc ∧
        (hasClose domHost (ES.close domHost (ES.open domHost standardWorld 0).2 0).2 h =
            true →
          ((ES.close domHost (ES.open domHost standardWorld 0).2 0).2.log ++
              [.handleClose h]) <+:
            (ES.close domHost (ES.close domHost (ES.open domHost standardWorld 0).2 0).2
              0).2.log) ∧
        (standardWorld.legacy = false →
          ES.close domHost (ES.close domHost (ES.open domHost standardWorld 0).2 0).2 0 =
            (.returned 0,
              { (ES.close domHost (ES.open domHost standardWorld 0).2 0).2 with
                log := (ES.close domHost (ES.open domHost standardWorld 0).2 0).2.log ++
                  [.handleClose h, .baseClose 0] })) ∧
        (standardWorld.legacy = true →
          ES.close domHost (ES.close domHost (ES.open domHost standardWorld 0).2 0).2 0 =
            (.threw .typeError,
              if hasClose domHost (ES.close domHost (ES.open domHost standardWorld 0).2 0).2
                  h then
                { (ES.close domHost (ES.open domHost standardWorld 0).2 0).2 with
                  log := (ES.close domHost (ES.open domHost standardWorld 0).2 0).2.log ++
                    [.handleClose h] }
              else (ES.close domHost (ES.open domHost standardWorld 0).2 0).2))) :=
  ⟨⟨⟨by decide, by decide, by decide⟩, by decide,
    close_keeps_handle domHost queryWorld (ES.open domHost queryWorld 0).2 0
      ⟨by decide, by decide, by decide⟩ (by decide)⟩,
   ⟨by decide, by decide, by decide⟩, by decide,
   close_keeps_handle domHost standardWorld (ES.open domHost standardWorld 0).2 0
    ⟨by decide, by decide, by decide⟩ (by decide)⟩

/-- C6, as stated, fails. On a page that holds an element with the id of the
instance, `open` takes that element as its handle, two elements bear the id,
and `close` throws on the handle, a `span` without a method `close`, so that
the wrapper stays. With a double quote in the URL the custom element bears
another id and `open` throws. With `&amp;`, a carriage return or a NUL in the
URL the `src` of the custom element is not the prepared URL. On a host whose
`event-source` element has no method `close`, `close` throws and the wrapper
stays. On a document without elements `open` throws. -/
theorem legacy_open_close_clash :
    ((ES.open domHost clashWorld 0).1 = .returned 0 ∧
      (ES.open domHost clashWorld 0).2.transports[0]? =
        some ⟨7, "http://h/x", "EventSource_0", some (.element 2)⟩ ∧
      (ES.open domHost clashWorld 0).2.doc.withId "EventSource_0" = [2, 11] ∧
      ES.close domHost (ES.open domHost clashWorld 0).2 0 =
        (.threw .typeError, (ES.open domHost clashWorld 0).2) ∧
      (ES.open domHost clashWorld 0).2.doc ≠ clashWorld.doc) ∧
    ((ES.open domHost quoteWorld 0).1 = .threw .typeError ∧
      (ES.open domHost quoteWorld 0).2.doc.withId "EventSource_0" = []) ∧
    ((ES.open domHost ampWorld 0).1 = .returned 0 ∧
      ES.prepareUrl ampWorld ⟨7, "http://h/x?a=1&amp;b=2", "EventSource_0", none⟩ =
        "http://h/x?a=1&amp;b=2?l=1" ∧
      ⟨11, "event-source", [("src", "http://h/x?a=1&b=2?l=1"), ("id", "EventSource_0")]⟩ ∈
        (ES.open domHost ampWorld 0).2.doc.nodes) ∧
    (⟨11, "event-source",
        [("src", String.mk ['a', Char.ofNat 10, 'b', '?', 'l', '=', '1']),
         ("id", "EventSource_0")]⟩ ∈ (ES.open domHost returnWorld 0).2.doc.nodes ∧
      ⟨11, "event-source",
        [("src", String.mk ['a', Char.ofNat 65533, 'b', '?', 'l', '=', '1']),
         ("id", "EventSource_0")]⟩ ∈ (ES.open domHost nulWorld 0).2.doc.nodes) ∧
    ((ES.open domHost legacyWorld 0).1 = .returned 0 ∧
      ES.close domHost (ES.open domHost legacyWorld 0).2 0 =
        (.threw .typeError, (ES.open domHost legacyWorld 0).2) ∧
      (ES.open domHost legacyWorld 0).2.doc ≠ legacyWorld.doc) ∧
    (ES.open domHost emptyWorld 0).1 = .threw .typeError := by
  decide

/-- C6, as amended: in legacy mode, in a well-formed state whose document has a
body or a document element and holds no element that bears the identity of the
instance, when the parser of the host reads the markup as one `event-source`
element that bears the identity as its `id`, `open` appends one wrapper `div`
holding that one element; the element is the only one bearing the identity and
is the handle. Its `src` is the prepared URL when the parser reads start tags
as the tokenizer does and reads the URL and the identity as they are written:
neither holds a double quote, a NUL or a carriage return, and every ampersand
in them stands for itself. When the `event-source` element of the host has a
method `close`, the `close` that follows returns and leaves the document as it
was before `open`; when it has none, that `close` throws and changes
nothing. -/
theorem legacy_open_close_restores (host : Host) (w : World) (self : Nat) (t : Transport)
    (n0 : Nat) (attrs : List (String × String))
    (hself : w.transports[self]? = some t) (hleg : w.legacy = true)
    (hdoc : w.doc ≠ .nil) (hwf : w.WellFormed)
    (hnone : w.doc.withId t.index = [])
    (hparse : host.parse (markup (ES.prepareUrl w t) t.index) =
      .node n0 "event-source" attrs .nil .nil)
    (hid : attrs.lookup "id" = some t.index) :
    ∃ p, (w.doc.body).orElse (fun _ => w.doc.documentElement) = some p ∧
      (ES.open host w self).1 = .returned self ∧
      (ES.open host w self).2.doc = w.doc.appendTo p (.node w.next "div" []
        (.node (w.next + 1) "event-source" attrs .nil .nil) .nil) ∧
      (ES.open host w self).2.doc.nids.count w.next = 1 ∧
      (ES.open host w self).2.doc.withId t.index = [w.next + 1] ∧
      (ES.open host w self).2.transports[self]? =
        some { t with eventsource := some (.element (w.next + 1)) } ∧
      (ReadsStartTags host.parse → isLiteralValue (ES.prepareUrl w t) = true →
        isLiteralValue t.index = true →
        attrs = [("src", ES.prepareUrl w t), ("id", t.index)]) ∧
      (host.hasClose "event-source" = true →
        (ES.close host (ES.open host w self).2 self).1 = .returned self ∧
        (ES.close host (ES.open host w self).2 self).2.doc = w.doc) ∧
      (host.hasClose "event-source" = false →
        ES.close host (ES.open host w self).2 self =
          (.threw .typeError, (ES.open host w self).2)) := by
  obtain ⟨p, htarget⟩ := Forest.target_of_ne_nil w.doc hdoc
  have hnodup : w.doc.nids.Nodup := hwf.1.of_append_left
  have hfresh : ∀ n ∈ w.doc.nids, n < w.next :=
    fun n hn => hwf.2.1 n (List.mem_append_left _ hn)
  have hc : w.next ∉ w.doc.nids := fun h => Nat.lt_irrefl _ (hfresh _ h)
  have he : w.next + 1 ∉ w.doc.nids := fun h => by have := hfresh _ h; omega
  have hp : p ∈ w.doc.nids := Forest.target_mem_nids w.doc p htarget
  have hopen := open_legacy_new host w self t p n0 "event-source" attrs hself hleg htarget hwf
    hnone hparse hid
  have hclose := close_legacy_new host (ES.open host w self).2 self _ w.doc p w.next
    (w.next + 1) "event-source" attrs
    (by rw [hopen]; exact setEventsource_self _ _ _ _ hself) rfl (by rw [hopen]; rfl) hp hc he
    (by omega)
  refine ⟨p, htarget, by rw [hopen], by rw [hopen]; rfl, ?_, ?_, ?_, ?_, hclose.1, hclose.2⟩
  · rw [hopen]
    show (Forest.appendTo _ _ _).nids.count w.next = 1
    rw [Forest.count_nids_appendTo _ _ _ _ hp hnodup, List.count_eq_zero_of_not_mem hc]
    simp [Forest.nids]
  · rw [hopen]
    show (Forest.appendTo _ _ _).withId t.index = [w.next + 1]
    rw [Forest.withId_appendTo _ _ _ _ hp hnodup hnone]
    simp [Forest.withId, hid]
  · rw [hopen]
    exact setEventsource_self _ _ _ _ hself
  · intro hreads hurl hindex
    obtain ⟨n, h⟩ := parse_markup host.parse hreads _ _ hurl hindex
    rw [hparse] at h
    simp only [Forest.node.injEq, and_true, true_and] at h
    exact h.2

theorem legacy_open_close_restores_witness :
    ∃ p, (queryWorld.doc.body).orElse (fun _ => queryWorld.doc.documentElement) = some p ∧
      (ES.open draftHost queryWorld 0).1 = .returned 0 ∧
      (ES.open draftHost queryWorld 0).2.doc = queryWorld.doc.appendTo p
        (.node queryWorld.next "div" []
          (.node (queryWorld.next + 1) "event-source"
            [("src", "http://h/x?a=1&b=2?l=1"), ("id", "EventSource_0")] .nil .nil) .nil) ∧
      (ES.open draftHost queryWorld 0).2.doc.nids.count queryWorld.next = 1 ∧
      (ES.open draftHost queryWorld 0).2.doc.withId "EventSource_0" = [queryWorld.next + 1] ∧
      (ES.open draftHost queryWorld 0).2.transports[0]? =
        some ⟨7, "http://h/x?a=1&b=2", "EventSource_0",
          some (.element (queryWorld.next + 1))⟩ ∧
      (ReadsStartTags draftHost.parse →
        isLiteralValue (ES.prepareUrl queryWorld
          ⟨7, "http://h/x?a=1&b=2", "EventSource_0", none⟩) = true →
        isLiteralValue "EventSource_0" = true →
        [("src", "http://h/x?a=1&b=2?l=1"), ("id", "EventSource_0")] =
          [("src", ES.prepareUrl queryWorld ⟨7, "http://h/x?a=1&b=2", "EventSource_0", none⟩),
           ("id", "EventSource_0")]) ∧
      (draftHost.hasClose "event-source" = true →
        (ES.close draftHost (ES.open draftHost queryWorld 0).2 0).1 = .returned 0 ∧
        (ES.close draftHost (ES.open draftHost queryWorld 0).2 0).2.doc = queryWorld.doc) ∧
      (draftHost.hasClose "event-source" = false →
        ES.close draftHost (ES.open draftHost queryWorld 0).2 0 =
          (.threw .typeError, (ES.open draftHost queryWorld 0).2)) :=
  legacy_open_close_restores draftHost queryWorld 0
    ⟨7, "http://h/x?a=1&b=2", "EventSource_0", none⟩ 0
    [("src", "http://h/x?a=1&b=2?l=1"), ("id", "EventSource_0")]
    (by decide) (by decide) (by decide) ⟨by decide, by decide, by decide⟩ (by decide)
    (by decide) (by decide)

/-- C7 fails on an instance opened twice in legacy mode: the second `open`
injects a second element with the id of the instance, takes the element of the
first `open` as the handle again and adds a second listener to it, so that one
event gives two calls of `onData`. In native mode the second `open` makes a
new handle, and one event on it gives one call. -/
theorem onData_twice_after_two_opens :
    (ES.open domHost legacyWorld 0).1 = .returned 0 ∧
    (ES.open domHost (ES.open domHost legacyWorld 0).2 0).1 = .returned 0 ∧
    (ES.open domHost (ES.open domHost legacyWorld 0).2 0).2.doc.withId "EventSource_0" =
      [11, 13] ∧
    (ES.open domHost (ES.open domHost legacyWorld 0).2 0).2.transports[0]? =
      some ⟨7, "http://h/x", "EventSource_0", some (.element 11)⟩ ∧
    (deliver (ES.open domHost (ES.open domHost legacyWorld 0).2 0).2 (.element 11)
        [⟨"io", .str "a"⟩]).log =
      (ES.open domHost (ES.open domHost legacyWorld 0).2 0).2.log ++
        [.onData 0 (.str "a"), .onData 0 (.str "a")] ∧
    (ES.open domHost (ES.open domHost standardWorld 0).2 0).2.transports[0]? =
      some ⟨7, "http://h/x", "EventSource_0", some (.native 11)⟩ ∧
    (deliver (ES.open domHost (ES.open domHost standardWorld 0).2 0).2 (.native 11)
        [⟨"message", .str "a"⟩]).log =
      (ES.open domHost (ES.open domHost standardWorld 0).2 0).2.log ++
        [.onData 0 (.str "a")] := by
  decide

/-- C8, as stated, fails: after `2^53 + 2` constructions on a legacy host the
instances of number `2^53` and `2^53 + 1`, for the sockets 8 and 9, bear one
identity. Opened one after the other they hold one element as their handle,
and an error on the handle of the instance of socket 8 gives a call of
`onError` of socket 9 and none of socket 8. -/
theorem error_reaches_other_socket :
    Reaches domHost (load legacyWindow pageDoc 10) manyLegacy ∧
    (ES.open domHost manyLegacy (2 ^ 53)).1 = .returned (2 ^ 53) ∧
    (ES.open domHost (ES.open domHost manyLegacy (2 ^ 53)).2 (2 ^ 53 + 1)).1 =
      .returned (2 ^ 53 + 1) ∧
    (ES.open domHost (ES.open domHost manyLegacy (2 ^ 53)).2
        (2 ^ 53 + 1)).2.transports[2 ^ 53]? =
      some ⟨8, "http://h/x", "EventSource_9007199254740992", some (.element 11)⟩ ∧
    (ES.open domHost (ES.open domHost manyLegacy (2 ^ 53)).2
        (2 ^ 53 + 1)).2.transports[2 ^ 53 + 1]? =
      some ⟨9, "http://h/x", "EventSource_9007199254740992", some (.element 11)⟩ ∧
    fire (ES.open domHost (ES.open domHost manyLegacy (2 ^ 53)).2 (2 ^ 53 + 1)).2 (.element 11)
        ⟨"error", .str "e"⟩ =
      { (ES.open domHost (ES.open domHost manyLegacy (2 ^ 53)).2 (2 ^ 53 + 1)).2 with
        log := (ES.open domHost (ES.open domHost manyLegacy (2 ^ 53)).2 (2 ^ 53 + 1)).2.log ++
          [.socketOnError 9 ⟨"error", .str "e"⟩] } := by
  obtain ⟨hleg, hdoc, hnext, hhand, hi, hj, hreach⟩ :=
    shared_identity_past_maxExact domHost manyLegacy (List.replicate (2 ^ 53) (7, "http://h/x"))
      (2 ^ 53) (List.length_replicate _ _).symm (List.length_replicate _ _) rfl
  obtain ⟨h1, h2, h3, h4, _, h6⟩ :=
    shared_identity_error domHost manyLegacy (2 ^ 53) (2 ^ 53 + 1) 8 9 (by omega) hleg hdoc
      hnext hhand hi hj (by decide)
  exact ⟨hreach, h1, h2, h3, h4, h6 ⟨"error", .str "e"⟩ rfl⟩

/-- C8, as amended: in every state that the module reaches from a well-formed
load with at most `2^53 + 1` constructions, for every instance that holds a
handle, in either mode, an error event delivered to the handle gives one call
of `onError` of the owning socket with the event as it is, and changes nothing
else in the state. -/
theorem error_forwarded_once (host : Host) (window : Window) (doc : Forest) (next : Nat)
    (w : World) (self : Nat) (t : Transport) (h : Handle) (e : Event)
    (hload : (load window doc next).WellFormed)
    (hreach : Reaches host (load window doc next) w)
    (hcount : w.transports.length ≤ maxExact + 1)
    (ht : w.transports[self]? = some t) (hh : t.eventsource = some h)
    (hty : e.type = "error") :
    fire w h e = { w with log := w.log ++ [.socketOnError t.socket e] } := by
  obtain ⟨_, hrel⟩ := reaches_relayed host window doc next w hload hreach hcount
  have hreg := hrel self t h ht hh
  rw [← hty] at hreg
  rw [fire_single w h e _ hreg]
  simp only [Callback.invoke, ht]
  rfl

theorem error_forwarded_once_witness :
    (load legacyWindow pageDoc 10).WellFormed ∧
    Reaches domHost (load legacyWindow pageDoc 10)
      (ES.open domHost (ES.open domHost (constructions legacyWorld [(8, "http://h/y")]) 0).2
        1).2 ∧
    (ES.open domHost (ES.open domHost (constructions legacyWorld [(8, "http://h/y")]) 0).2
      1).2.transports[0]? = some ⟨7, "http://h/x", "EventSource_0", some (.element 11)⟩ ∧
    fire (ES.open domHost (ES.open domHost (constructions legacyWorld [(8, "http://h/y")]) 0).2
        1).2 (.element 11) ⟨"error", .undefined⟩ =
      { (ES.open domHost (ES.open domHost (constructions legacyWorld [(8, "http://h/y")]) 0).2
          1).2 with
        log := (ES.open domHost (ES.open domHost (constructions legacyWorld [(8, "http://h/y")])
          0).2 1).2.log ++ [.socketOnError 7 ⟨"error", .undefined⟩] } :=
  ⟨⟨by decide, by decide, by decide⟩,
   Reaches.open 1 (Reaches.open 0
    (Reaches.construct 8 "http://h/y" (Reaches.construct 7 "http://h/x" Reaches.refl))),
   by decide,
   error_forwarded_once domHost legacyWindow pageDoc 10
    (ES.open domHost (ES.open domHost (constructions legacyWorld [(8, "http://h/y")]) 0).2 1).2 0
    ⟨7, "http://h/x", "EventSource_0", some (.element 11)⟩ (.element 11) ⟨"error", .undefined⟩
    ⟨by decide, by decide, by decide⟩
    (Reaches.open 1 (Reaches.open 0
      (Reaches.construct 8 "http://h/y" (Reaches.construct 7 "http://h/x" Reaches.refl))))
    (by decide) (by decide) rfl rfl⟩

/-- C9, as stated, fails: the counter is a JavaScript number and stays at
`2^53`, so the instances of number `2^53` and `2^53 + 1` bear one identity, and
a further construction does not increase the counter. -/
theorem identities_collide_past_maxExact :
    (manyConstructions.transports[2 ^ 53]?).map (fun t => t.index) =
      some "EventSource_9007199254740992" ∧
    (manyConstructions.transports[2 ^ 53 + 1]?).map (fun t => t.index) =
      some "EventSource_9007199254740992" ∧
    manyConstructions.id = 2 ^ 53 ∧
    (ES manyConstructions 7 "http://h/x").1.id = manyConstructions.id := by
  have hreach : Reaches domHost (load standardWindow pageDoc 10) manyConstructions :=
    constructions_reaches domHost _ _ _ Reaches.refl
  have hlen : manyConstructions.transports.length = 2 ^ 53 + 2 := by
    unfold manyConstructions
    rw [constructions_length, List.length_replicate]
    rfl
  obtain ⟨hid, hidx⟩ := reaches_counter domHost _ _ _ _ hreach
  have h1 : 2 ^ 53 < manyConstructions.transports.length := by rw [hlen]; omega
  have h2 : 2 ^ 53 + 1 < manyConstructions.transports.length := by rw [hlen]; omega
  have hmin1 : "EventSource_" ++ decimal (min (2 ^ 53) maxExact) =
      "EventSource_9007199254740992" := by decide
  have hmin2 : "EventSource_" ++ decimal (min (2 ^ 53 + 1) maxExact) =
      "EventSource_9007199254740992" := by decide
  have hidv : manyConstructions.id = 2 ^ 53 := by
    rw [hid, hlen]
    decide
  refine ⟨?_, ?_, hidv, ?_⟩
  · rw [List.getElem?_eq_getElem h1, Option.map_some', hidx _ _ (List.getElem?_eq_getElem h1),
      hmin1]
  · rw [List.getElem?_eq_getElem h2, Option.map_some', hidx _ _ (List.getElem?_eq_getElem h2),
      hmin2]
  · rw [ES_id, hidv]
    decide

/-- C9, as amended: in every state that the module reaches from its load, by
constructions, calls of the methods and events in any order, the `k`-th
constructed instance (counting from 0) bears the identity `EventSource_`
followed by the decimal digits of `k` as long as `k ≤ 2^53`, so that two such
instances bear two identities; the counter is the number of constructions up to
`2^53`, a construction increases it by one while it is below `2^53`, and
`open`, `close`, `ready` and the events leave it as it is. -/
theorem identities_up_to_maxExact (host : Host) (window : Window) (doc : Forest) (next : Nat)
    (w : World) (hreach : Reaches host (load window doc next) w) :
    (∀ k t, w.transports[k]? = some t → k ≤ maxExact →
      t.index = "EventSource_" ++ decimal k) ∧
    (∀ j k tj tk, w.transports[j]? = some tj → w.transports[k]? = some tk →
      j ≤ maxExact → k ≤ maxExact → j ≠ k → tj.index ≠ tk.index) ∧
    w.id = min w.transports.length maxExact ∧
    (∀ socket base, (ES w socket base).2 = w.transports.length ∧
      (w.id < maxExact → (ES w socket base).1.id = w.id + 1)) ∧
    (∀ self fn g ev, (ES.open host w self).2.id = w.id ∧ (ES.close host w self).2.id = w.id ∧
      (ES.ready w self fn).id = w.id ∧ (fire w g ev).id = w.id) := by
  obtain ⟨hid, hidx⟩ := reaches_counter host window doc next w hreach
  have hfirst : ∀ k t, w.transports[k]? = some t → k ≤ maxExact →
      t.index = "EventSource_" ++ decimal k := by
    intro k t hk hle
    rw [hidx k t hk, Nat.min_eq_left hle]
  refine ⟨hfirst, ?_, hid, ?_, ?_⟩
  · intro j k tj tk hj hk hjle hkle hne heq
    rw [hfirst j tj hj hjle, hfirst k tk hk hkle] at heq
    exact hne (identity_injective j k heq)
  · intro socket base
    refine ⟨rfl, ?_⟩
    intro hlt
    show jsSucc w.id = w.id + 1
    simp [jsSucc, hlt]
  · intro self fn g ev
    refine ⟨(open_shape host w self).1, (close_shape host w self).1, rfl, ?_⟩
    obtain ⟨calls, h⟩ := fire_shape w g ev
    rw [h]

theorem identities_up_to_maxExact_witness :
    Reaches domHost (load standardWindow pageDoc 10)
      (constructions standardWorld [(8, "http://h/y")]) ∧
    (constructions standardWorld [(8, "http://h/y")]).transports.map (fun t => t.index) =
      ["EventSource_0", "EventSource_1"] ∧
    (∀ k t, (constructions standardWorld [(8, "http://h/y")]).transports[k]? = some t →
      k ≤ maxExact → t.index = "EventSource_" ++ decimal k) :=
  ⟨Reaches.construct 8 "http://h/y" (Reaches.construct 7 "http://h/x" Reaches.refl),
   by decide,
   (identities_up_to_maxExact domHost standardWindow pageDoc 10
      (constructions standardWorld [(8, "http://h/y")])
      (Reaches.construct 8 "http://h/y" (Reaches.construct 7 "http://h/x" Reaches.refl))).1⟩

/-- C10: `ES.xdomainCheck` returns `false` in every state of the host and of the
module. -/
theorem xdomainCheck_false (w : World) : ES.xdomainCheck w = .bool false := rfl

end EventSourceTransport
